import Mathlib

/-!
# Verification of `common_lib.c`

A shallow embedding of the numeric helpers of `common_lib.c` and the proofs of
their specified properties.

* `float32_t` objects are modelled by their 32-bit IEEE-754 binary32 pattern;
  comparisons and arithmetic (round to nearest, ties to even) are defined from the
  pattern. The half-word accesses `*((uint16_t*)&x + 1)` and `*(uint16_t*)&x` of the
  source are the upper and the lower 16 bits of the pattern (little-endian layout).
* `uint16_t` / `uint32_t` objects are natural numbers, reduced modulo `2^16` / `2^32`
  wherever the C operation can leave the range.
* `int16_t` objects are integers, reduced to the `int16_t` range on assignment.
* Array accesses outside the array object and loops that are not left make the model
  return `none`.
-/

namespace CommonLib

/-! ## The `float32_t` type: IEEE-754 binary32 patterns -/

/-- A `float32_t` object, given by its 32-bit pattern: bit 31 is the sign, bits 30..23 the
biased exponent, bits 22..0 the mantissa. -/
structure float32_t where
  bits : Nat
  bits_lt : bits < 4294967296
deriving DecidableEq, Repr

namespace float32_t

/-- The `float32_t` with the given pattern (reduced to 32 bits). -/
def ofBits (n : Nat) : float32_t := ⟨n % 4294967296, Nat.mod_lt _ (by decide)⟩

/-- Sign bit (bit 31). -/
def sign (x : float32_t) : Nat := x.bits / 2147483648

/-- Biased exponent field (bits 30..23). -/
def expo (x : float32_t) : Nat := (x.bits / 8388608) % 256

/-- Mantissa field (bits 22..0). -/
def mant (x : float32_t) : Nat := x.bits % 8388608

/-- The 31 magnitude bits (exponent and mantissa). -/
def magnitude (x : float32_t) : Nat := x.bits % 2147483648

/-- Upper half-word (bits 31..16), the object `*((uint16_t*)&x + 1)` of the source. -/
def hi (x : float32_t) : Nat := x.bits / 65536

/-- Lower half-word (bits 15..0), the object `*(uint16_t*)&x` of the source. -/
def lo (x : float32_t) : Nat := x.bits % 65536

/-- The `float32_t` assembled from an upper and a lower half-word. -/
def ofHalves (h l : Nat) : float32_t := ofBits ((h % 65536) * 65536 + l % 65536)

/-- A NaN has all exponent bits set and a non-zero mantissa. -/
def isNaN (x : float32_t) : Bool := x.expo == 255 && x.mant != 0

/-- An infinity has all exponent bits set and a zero mantissa. -/
def isInf (x : float32_t) : Bool := x.expo == 255 && x.mant == 0

/-- Order key of a non-NaN value: the magnitude bits, negated when the sign bit is set.
For non-NaN patterns the order of the represented (extended) real values is the order
of the keys, and both zeros have key `0`. -/
def key (x : float32_t) : Int :=
  if x.sign = 0 then (x.magnitude : Int) else -(x.magnitude : Int)

/-- The C comparison `a < b`: false as soon as one operand is a NaN. -/
def flt (a b : float32_t) : Bool := !a.isNaN && !b.isNaN && decide (a.key < b.key)

/-- The C comparison `a <= b`: false as soon as one operand is a NaN. -/
def fle (a b : float32_t) : Bool := !a.isNaN && !b.isNaN && decide (a.key ≤ b.key)

/-- The C comparison `a > b`. -/
def fgt (a b : float32_t) : Bool := flt b a

/-- The C comparison `a >= b`. -/
def fge (a b : float32_t) : Bool := fle b a

/-- The C comparison `a == b`: false as soon as one operand is a NaN; `+0 == -0`. -/
def feq (a b : float32_t) : Bool := !a.isNaN && !b.isNaN && decide (a.key = b.key)

/-- The constant `0.0f`. -/
def zero : float32_t := ⟨0, by decide⟩

/-- The pattern the arithmetic returns for an invalid operation (a quiet NaN). -/
def qNaN : float32_t := ⟨0x7FC00000, by decide⟩

/-- Infinity of the given sign. -/
def inf (neg : Bool) : float32_t := ofBits ((if neg then 2147483648 else 0) + 0x7F800000)

/-- Magnitude of a finite value in units of `2^-149`: the mantissa (with the hidden bit
for a normal number) shifted by the exponent. -/
def units (x : float32_t) : Nat :=
  if x.expo = 0 then x.mant else (8388608 + x.mant) * 2 ^ (x.expo - 1)

/-- The number represented by a pattern, exactly: `(-1)^sign * units * 2^-149` (for
an infinity or a NaN, the number its pattern would have with one more exponent). -/
def toRat (x : float32_t) : ℚ :=
  (if x.sign = 0 then (x.units : ℚ) else -(x.units : ℚ)) / 2 ^ 149

/-- Shift `j` of the binade of a positive quotient `q` (counted in units of `2^-149`): the
least `j` with `q < 2^(j+24)`, searched upwards from `j`; the search stops at the
exponent of infinity. -/
def binade : Nat → Nat → Nat → Nat
  | 0, j, _ => j
  | fuel + 1, j, q => if q < 2 ^ (j + 24) then j else binade fuel (j + 1) q

/-- Round-to-nearest-even of the non-negative rational `n / d` (in units of `2^-149`,
`d > 0`) to a `float32_t` of the given sign, overflowing to infinity. -/
def roundNearestEven (neg : Bool) (n d : Nat) : float32_t :=
  let j := binade 255 0 (n / d)
  let den := d * 2 ^ j
  let m := n / den
  let r := n % den
  let m1 := if den < 2 * r ∨ (2 * r = den ∧ m % 2 = 1) then m + 1 else m
  let mag := j * 8388608 + m1
  if 0x7F800000 ≤ mag then inf neg
  else ofBits ((if neg then 2147483648 else 0) + mag)

/-- The C operation `a + b` on `float32_t` (round to nearest, ties to even). -/
def fadd (a b : float32_t) : float32_t :=
  if a.isNaN || b.isNaN then qNaN
  else if a.isInf then (if b.isInf && a.sign != b.sign then qNaN else a)
  else if b.isInf then b
  else
    let s : Int := (if a.sign = 0 then (a.units : Int) else -(a.units : Int))
      + (if b.sign = 0 then (b.units : Int) else -(b.units : Int))
    if s = 0 then ofBits (if a.sign = 1 ∧ b.sign = 1 then 2147483648 else 0)
    else roundNearestEven (decide (s < 0)) s.natAbs 1

/-- The C operation `a * b` on `float32_t`. -/
def fmul (a b : float32_t) : float32_t :=
  let neg := a.sign != b.sign
  if a.isNaN || b.isNaN then qNaN
  else if a.isInf || b.isInf then
    (if a.magnitude = 0 ∨ b.magnitude = 0 then qNaN else inf neg)
  else roundNearestEven neg (a.units * b.units) (2 ^ 149)

/-- The C operation `a / b` on `float32_t`. -/
def fdiv (a b : float32_t) : float32_t :=
  let neg := a.sign != b.sign
  if a.isNaN || b.isNaN then qNaN
  else if a.isInf then (if b.isInf then qNaN else inf neg)
  else if b.isInf then roundNearestEven neg 0 1
  else if b.units = 0 then (if a.units = 0 then qNaN else inf neg)
  else roundNearestEven neg (a.units * 2 ^ 149) b.units

/-- Conversion of a `uint32_t` to `float32_t`. -/
def ofUInt32 (n : Nat) : float32_t := roundNearestEven false (n * 2 ^ 149) 1

instance : Add float32_t := ⟨fadd⟩
instance : Mul float32_t := ⟨fmul⟩
instance : Div float32_t := ⟨fdiv⟩
instance : NatCast float32_t := ⟨ofUInt32⟩

end float32_t

open float32_t

/-! ## The functions of `common_lib.c` -/

/-- Reduction of an integer to the `uint16_t` range. -/
def u16 (n : Nat) : Nat := n % 65536

/-- Reduction of an integer to the `uint32_t` range. -/
def u32 (n : Nat) : Nat := n % 4294967296

/-- Seed of `SquareRoot`: `xn = value; hi(xn) += 0x3F80; hi(xn) >>= 1;`. -/
def SquareRoot_seed (value : float32_t) : float32_t :=
  let xn := value
  let xn := ofHalves (u16 (xn.hi + 0x3F80)) xn.lo
  ofHalves (xn.hi >>> 1) xn.lo

/-- Body of the refinement loop of `SquareRoot`:
`xn = xn + value / xn; hi(xn) -= 0x80;`. -/
def SquareRoot_step (value xn : float32_t) : float32_t :=
  let xn := fadd xn (fdiv value xn)
  ofHalves (u16 (xn.hi + 65536 - 0x80)) xn.lo

/-- The loop `for (i = 4; i > 0; i--)` of `SquareRoot`: `i` passes of the body. -/
def SquareRoot_loop (value : float32_t) : Nat → float32_t → float32_t
  | 0, xn => xn
  | i + 1, xn => SquareRoot_loop value i (SquareRoot_step value xn)

/-- An execution of `SquareRoot`: the value returned, whether the seed statements
were executed, and how many passes of the refinement loop were executed. -/
structure SquareRootRun where
  result : float32_t
  seeded : Bool
  passes : Nat
deriving DecidableEq, Repr

/-- `SquareRoot` together with the record of the statements it executed. -/
def SquareRoot_run (value : float32_t) : SquareRootRun :=
  if fle value zero then ⟨zero, false, 0⟩
  else ⟨SquareRoot_loop value 4 (SquareRoot_seed value), true, 4⟩

/-- `float32_t SquareRoot(float32_t value)`. -/
def SquareRoot (value : float32_t) : float32_t := (SquareRoot_run value).result

/-- `uint16_t SwapWord(uint16_t value)`. -/
def SwapWord (value : Nat) : Nat :=
  let temp1 := u16 (value >>> 8)
  let temp1 := temp1 &&& 0x00ff
  let temp2 := u16 (value <<< 8)
  let temp2 := temp2 &&& 0xff00
  let temp := temp1 ||| temp2
  temp

/-- `uint8_t Isnan(float32_t x)`: the value of the C expression `(x == x)`, 1 or 0. -/
def Isnan (x : float32_t) : Nat := if feq x x then 1 else 0

/-- Conversion of an integer to `int16_t`. -/
def i16 (n : Int) : Int := (n + 32768) % 65536 - 32768

/-- The read `arr[k]` of an array object holding the elements `arr`; `none` when the
index is outside the object. -/
def rd (arr : List float32_t) (k : Int) : Option float32_t :=
  if 0 ≤ k then arr[k.toNat]? else none

/-- The write `arr[k] = v`; `none` when the index is outside the object. -/
def wr (arr : List float32_t) (k : Int) (v : float32_t) : Option (List float32_t) :=
  if 0 ≤ k ∧ k < arr.length then some (arr.set k.toNat v) else none

/-- The loop `while (j-gap >= 0 && temp < arr[j-gap]) { arr[j] = arr[j-gap]; j -= gap; }`
of `ShellSort`, returning the array and `j` at loop exit; the first argument bounds the
number of tests of the loop condition. -/
def ShellSort_while (gap : Int) (temp : float32_t) :
    Nat → List float32_t → Int → Option (List float32_t × Int)
  | 0, _, _ => none
  | fuel + 1, arr, j =>
    if j - gap ≥ 0 then
      (rd arr (j - gap)).bind fun x =>
        if flt temp x then
          (wr arr j x).bind fun arr1 => ShellSort_while gap temp fuel arr1 (i16 (j - gap))
        else some (arr, j)
    else some (arr, j)

/-- Body of the `i` loop of `ShellSort`: insertion of `arr[i]` into its gap group. -/
def ShellSort_insert (gap i : Int) (arr : List float32_t) : Option (List float32_t) :=
  let j := i
  (rd arr j).bind fun temp =>
  (rd arr j).bind fun aj =>
  (rd arr (j - gap)).bind fun ajg =>
  (if flt aj ajg then ShellSort_while gap temp (j.toNat + 1) arr j else some (arr, j)).bind
    fun st => wr st.1 st.2 temp

/-- The loop `for (i = gap; i < length; i++)` of `ShellSort`, entered with the given `i`;
the first argument bounds the number of tests of the loop condition. -/
def ShellSort_for (gap length : Int) : Nat → List float32_t → Int → Option (List float32_t)
  | 0, _, _ => none
  | fuel + 1, arr, i =>
    if i < length then
      (ShellSort_insert gap i arr).bind fun arr1 =>
        ShellSort_for gap length fuel arr1 (i16 (i + 1))
    else some arr

/-- The loop `for (gap = length / 2; gap > 0; gap /= 2)` of `ShellSort`, entered with the
given `gap`; the first argument bounds the number of tests of the loop condition. -/
def ShellSort_gaps (length : Int) : Nat → List float32_t → Int → Option (List float32_t)
  | 0, _, _ => none
  | fuel + 1, arr, gap =>
    if gap > 0 then
      (ShellSort_for gap length ((length - gap).toNat + 1) arr gap).bind fun arr1 =>
        ShellSort_gaps length fuel arr1 (i16 (gap.tdiv 2))
    else some arr

/-- `void ShellSort(float32_t* arr, int16_t length)`: the contents of the array object on
return, from its contents on entry; `none` when the execution accesses an element
outside the object or does not leave one of its loops. -/
def ShellSort (arr : List float32_t) (length : Int) : Option (List float32_t) :=
  ShellSort_gaps length 16 arr (i16 (length.tdiv 2))

/-- Specification predicate: the first `m` elements of `arr` are in non-decreasing order
of their values (for contents without NaN). -/
def AscendingUpTo (arr : List float32_t) (m : Nat) : Prop :=
  ∀ p q, p < q → q < m → (arr.getD p zero).key ≤ (arr.getD q zero).key

/-- `void CheckLimit(float32_t* pdata, float32_t lower, float32_t upper)`: the value
stored in `*pdata` on return, from the value stored on entry. -/
def CheckLimit (pdata lower upper : float32_t) : float32_t :=
  if flt pdata lower then lower
  else if fgt pdata upper then upper
  else pdata

/-- `void WeightedAverage(float32_t value, float32_t* average, uint32_t* count)`: the
pair stored in `(*average, *count)` on return, from the pair stored on entry. The
arithmetic type `F` is `float32_t` for the compiled code and `ℚ` for exact arithmetic. -/
def WeightedAverage {F : Type} [Add F] [Mul F] [Div F] [NatCast F]
    (value : F) (st : F × Nat) : F × Nat :=
  let count_prev := st.2
  let count := u32 (st.2 + 1)
  ((st.1 * (count_prev : F) + value) / (count : F), count)

/-- Calls of `WeightedAverage` on the samples in order, on the same accumulator pair. -/
def WeightedAverage_calls {F : Type} [Add F] [Mul F] [Div F] [NatCast F]
    (samples : List F) (st : F × Nat) : F × Nat :=
  samples.foldl (fun acc s => WeightedAverage s acc) st


/-- The C operation `-a` on `float32_t`: the sign bit is inverted. -/
def float32_t.fneg (a : float32_t) : float32_t :=
  ofBits (if a.sign = 0 then a.bits + 2147483648 else a.bits - 2147483648)

instance : Neg float32_t := ⟨float32_t.fneg⟩

/-- `#define FLT_MAX 3.402823466e+38F`: the `float32_t` nearest to the decimal constant
`3402823466 * 10^29`. -/
def FLT_MAX : float32_t := roundNearestEven false (3402823466 * 10 ^ 29 * 2 ^ 149) 1

/-- `uint8_t Finite(float32_t x)`: the value of the C expression
`((x <= FLT_MAX) && (x >= -FLT_MAX))`, 1 or 0. -/
def Finite (x : float32_t) : Nat :=
  if fle x FLT_MAX && fge x (fneg FLT_MAX) then 1 else 0

/-- The statement `tmp &= 0x7FFFFFFF` of `Fabs` on the `int16_t` object `tmp`: `tmp` is
converted to the 32-bit signed type of the constant (two's complement pattern
`tmp mod 2^32`), AND-ed with the constant, and the result is converted back to
`int16_t`. -/
def Fabs_mask (tmp : Int) : Int :=
  let wide : Nat := (tmp % 4294967296).toNat
  i16 (((wide &&& 0x7FFFFFFF : Nat) : Int))

/-- `float32_t Fabs(float32_t f)`. `tmp` is initialised from the lower half-word of `f`
(`*(int16_t*)&f`); the value returned, `*(float32_t*)&tmp`, has the two bytes of `tmp`
as its lower half-word and, as its upper half-word, the two bytes stored after `tmp`,
which are not part of `tmp`: they are the parameter `adjacent`. -/
def Fabs (adjacent : Nat) (f : float32_t) : float32_t :=
  let tmp := i16 (f.lo : Int)
  let tmp := Fabs_mask tmp
  ofHalves adjacent (tmp % 65536).toNat

/-- Conversion of an integer to `uint16_t`. -/
def u16i (z : Int) : Nat := (z % 65536).toNat

/-- First value of `hbyte` in `CubeRoot`:
`SwapWord(*((uint16_t*)&xn + 1) << 1 & 0xFF00) + 254`. -/
def CubeRoot_hbyte (xn : float32_t) : Nat :=
  u16 (SwapWord (u16 ((xn.hi <<< 1) &&& 0xFF00)) + 254)

/-- The value `quotient = hbyte / 3` of `CubeRoot`. -/
def CubeRoot_quotient (xn : float32_t) : Nat := CubeRoot_hbyte xn / 3

/-- The value `remainder = hbyte - (quotient + (quotient << 1))` of `CubeRoot`. -/
def CubeRoot_remainder (xn : float32_t) : Nat :=
  u16i ((CubeRoot_hbyte xn : Int)
    - ((CubeRoot_quotient xn : Int) + ((CubeRoot_quotient xn <<< 1 : Nat) : Int)))

/-- Seed of `CubeRoot`: from `xn = value`, the second value of `hbyte`,
`(SwapWord(quotient) >> 1) + (hi(xn) & 0x8000)`, and the two half-words stored in the
branch selected by `remainder`. -/
def CubeRoot_seed (value : float32_t) : float32_t :=
  let xn := value
  let quotient := CubeRoot_quotient xn
  let remainder := CubeRoot_remainder xn
  let hbyte := u16 ((SwapWord quotient >>> 1) + (xn.hi &&& 0x8000))
  if remainder = 2 then ofHalves (u16 (hbyte + (0x3FE8 - 0x3F80))) 0x9768
  else if remainder = 1 then ofHalves (u16 (hbyte + (0x3FB8 - 0x3F80))) 0x9BA2
  else ofHalves (u16 (hbyte + (0x3F92 - 0x3F80))) 0x85FF

/-- Body of the refinement loop of `CubeRoot`:
`xn2 = xn; hi(xn2) += 0x80; xn = (1 / 3.0f) * (xn2 + value / (xn * xn));`. -/
def CubeRoot_step (value xn : float32_t) : float32_t :=
  let xn2 := ofHalves (u16 (xn.hi + 0x80)) xn.lo
  fmul (fdiv (ofBits 0x3F800000) (ofBits 0x40400000)) (fadd xn2 (fdiv value (fmul xn xn)))

/-- The loop `for (i = 4; i > 0; i--)` of `CubeRoot`: `i` passes of the body. -/
def CubeRoot_loop (value : float32_t) : Nat → float32_t → float32_t
  | 0, xn => xn
  | i + 1, xn => CubeRoot_loop value i (CubeRoot_step value xn)

/-- `float32_t CubeRoot(float value)`. -/
def CubeRoot (value : float32_t) : float32_t :=
  if feq value zero then zero
  else CubeRoot_loop value 4 (CubeRoot_seed value)

/-! ## `SwapWord` -/

set_option maxRecDepth 100000 in
theorem and_ff00 : ∀ x, x < 256 → (x * 256) &&& 0xff00 = x * 256 := by decide

theorem SwapWord_eq (value : Nat) (h : value < 65536) :
    SwapWord value = (value % 256) * 256 + value / 256 := by
  have e1 : u16 (value >>> 8) &&& 0x00ff = value / 256 := by
    have := Nat.and_pow_two_sub_one_eq_mod (u16 (value >>> 8)) 8
    simp only [u16, Nat.shiftRight_eq_div_pow] at this ⊢
    norm_num at this ⊢
    rw [this]; omega
  have e2 : u16 (value <<< 8) &&& 0xff00 = 2 ^ 8 * (value % 256) := by
    have h1 : u16 (value <<< 8) = (value % 256) * 256 := by
      simp only [u16, Nat.shiftLeft_eq]; omega
    rw [h1, and_ff00 _ (Nat.mod_lt _ (by decide))]
    omega
  have e3 : value / 256 < 2 ^ 8 := by omega
  unfold SwapWord
  simp only [e1, e2]
  rw [Nat.or_comm, ← Nat.mul_add_lt_is_or e3]
  omega

/-- C3: for every 16-bit unsigned `x`, `SwapWord(SwapWord(x)) == x`. -/
theorem SwapWord_involutive (x : Nat) (h : x < 65536) : SwapWord (SwapWord x) = x := by
  have h1 := SwapWord_eq x h
  have h2 : SwapWord x < 65536 := by omega
  rw [SwapWord_eq _ h2, h1]
  omega

theorem SwapWord_involutive_witness :
    (0xBEEF < 65536) ∧ SwapWord (SwapWord 0xBEEF) = 0xBEEF :=
  ⟨by decide, SwapWord_involutive 0xBEEF (by decide)⟩

/-- C4: for every 16-bit unsigned `x`, `SwapWord(x)` exchanges the two bytes,
`SwapWord(x) == (x mod 256) * 256 + x div 256`, and `SwapWord(0x1234) == 0x3412`. -/
theorem SwapWord_exchanges_bytes (x : Nat) (h : x < 65536) :
    SwapWord x = (x % 256) * 256 + x / 256 ∧ SwapWord 0x1234 = 0x3412 :=
  ⟨SwapWord_eq x h, by decide⟩

theorem SwapWord_exchanges_bytes_witness :
    (0x00FF < 65536) ∧ SwapWord 0x00FF = (0x00FF % 256) * 256 + 0x00FF / 256
      ∧ SwapWord 0x1234 = 0x3412 :=
  ⟨by decide, SwapWord_exchanges_bytes 0x00FF (by decide)⟩

/-! ## Comparisons of `float32_t` -/

theorem fle_iff (a b : float32_t) :
    fle a b = true ↔ a.isNaN = false ∧ b.isNaN = false ∧ a.key ≤ b.key := by
  simp [fle, and_assoc]

theorem flt_iff (a b : float32_t) :
    flt a b = true ↔ a.isNaN = false ∧ b.isNaN = false ∧ a.key < b.key := by
  simp [flt, and_assoc]

theorem feq_self (x : float32_t) : feq x x = !x.isNaN := by
  simp [feq]

theorem flt_false_of_fle {a b : float32_t} (h : fle a b = true) : flt b a = false := by
  rw [fle_iff] at h
  rcases h with ⟨_, _, hk⟩
  cases hlt : flt b a
  · rfl
  · rw [flt_iff] at hlt
    omega

/-- A value compares `<= 0.0f` exactly when it is not a NaN and is a zero or has its sign
bit set. -/
theorem fle_zero_iff (x : float32_t) :
    fle x zero = true ↔ x.isNaN = false ∧ (x.sign = 1 ∨ x.bits = 0) := by
  have hb := x.bits_lt
  have hz : zero.isNaN = false := by decide
  have hk : zero.key = 0 := by decide
  rw [fle_iff, hz, hk]
  simp only [key, sign, magnitude, true_and]
  constructor
  · rintro ⟨h1, h2⟩
    refine ⟨h1, ?_⟩
    split_ifs at h2 <;> omega
  · rintro ⟨h1, h2⟩
    refine ⟨h1, ?_⟩
    split_ifs <;> omega

/-! ## The comparisons agree with the order of the represented values -/

namespace float32_t

theorem expo_eq_magnitude_div (x : float32_t) : x.expo = x.magnitude / 8388608 := by
  have := x.bits_lt
  unfold expo magnitude
  omega

theorem mant_eq_magnitude_mod (x : float32_t) : x.mant = x.magnitude % 8388608 := by
  unfold mant magnitude
  omega

/-- On finite patterns the magnitude in units of `2^-149` grows strictly with the
magnitude bits. -/
theorem units_lt_of_magnitude_lt (a b : float32_t) (h : a.magnitude < b.magnitude) :
    a.units < b.units := by
  have hma := mant_eq_magnitude_mod a
  have hmb := mant_eq_magnitude_mod b
  have hea := expo_eq_magnitude_div a
  have heb := expo_eq_magnitude_div b
  have hMa : a.mant < 8388608 := by omega
  have hMb : b.mant < 8388608 := by omega
  unfold units
  rcases Nat.lt_or_ge a.expo b.expo with hE | hE
  · have hb0 : b.expo ≠ 0 := by omega
    have hpow : 2 ^ a.expo ≤ 2 ^ (b.expo - 1) :=
      Nat.pow_le_pow_right (by decide) (by omega)
    have hlow : 8388608 * 2 ^ (b.expo - 1) ≤ (8388608 + b.mant) * 2 ^ (b.expo - 1) :=
      Nat.mul_le_mul_right _ (by omega)
    rw [if_neg hb0]
    by_cases ha0 : a.expo = 0
    · rw [if_pos ha0]
      have : 1 ≤ 2 ^ (b.expo - 1) := Nat.one_le_two_pow
      nlinarith
    · rw [if_neg ha0]
      have hup : (8388608 + a.mant) * 2 ^ (a.expo - 1) < 16777216 * 2 ^ (a.expo - 1) :=
        Nat.mul_lt_mul_of_pos_right (by omega) (Nat.two_pow_pos _)
      have hsplit : 2 ^ a.expo = 2 * 2 ^ (a.expo - 1) := by
        have : a.expo = (a.expo - 1) + 1 := by omega
        conv_lhs => rw [this]
        rw [Nat.pow_succ]; ring
      nlinarith
  · have hEq : a.expo = b.expo := by omega
    have hM : a.mant < b.mant := by omega
    rw [hEq]
    by_cases hb0 : b.expo = 0
    · rw [if_pos hb0, if_pos hb0]; exact hM
    · rw [if_neg hb0, if_neg hb0]
      exact Nat.mul_lt_mul_of_pos_right (by omega) (Nat.two_pow_pos _)

theorem units_lt_iff_magnitude_lt (a b : float32_t) :
    a.units < b.units ↔ a.magnitude < b.magnitude := by
  constructor
  · intro h
    by_contra hc
    rcases Nat.lt_or_ge b.magnitude a.magnitude with h1 | h1
    · have := units_lt_of_magnitude_lt b a h1
      omega
    · have he : a.magnitude = b.magnitude := by omega
      have h1 := expo_eq_magnitude_div a
      have h2 := expo_eq_magnitude_div b
      have h3 := mant_eq_magnitude_mod a
      have h4 := mant_eq_magnitude_mod b
      have hu : a.units = b.units := by
        unfold units
        rw [h1, h2, h3, h4, he]
      omega
  · exact units_lt_of_magnitude_lt a b

/-- The order key of a pattern orders the patterns as their exact values `toRat`:
the comparison `flt` is the comparison of the represented numbers. -/
theorem key_lt_iff_toRat_lt (a b : float32_t) : a.key < b.key ↔ a.toRat < b.toRat := by
  have hab := units_lt_iff_magnitude_lt a b
  have hba := units_lt_iff_magnitude_lt b a
  have hza := units_lt_iff_magnitude_lt zero a
  have hzb := units_lt_iff_magnitude_lt zero b
  have hz1 : zero.units = 0 := by decide
  have hz2 : zero.magnitude = 0 := by decide
  rw [hz1, hz2] at hza hzb
  have hpos : (0 : ℚ) < 2 ^ 149 := by positivity
  have hrat : a.toRat < b.toRat ↔
      (if a.sign = 0 then (a.units : Int) else -(a.units : Int))
        < (if b.sign = 0 then (b.units : Int) else -(b.units : Int)) := by
    unfold toRat
    rw [div_lt_div_iff_of_pos_right hpos]
    split_ifs <;> constructor <;> intro h
    all_goals exact_mod_cast h
  rw [hrat]
  unfold key
  split_ifs <;> omega

end float32_t

/-! ## `CheckLimit` -/

/-- C5 (as stated, refuted): with `lower = 0.0f <= upper = 3.0f` and a NaN stored in
`*pdata`, `CheckLimit` leaves the NaN in place, and `lower <= NaN` is false. -/
theorem CheckLimit_nan_counterexample :
    fle zero (ofBits 0x40400000) = true ∧
      ¬ (fle zero (CheckLimit qNaN zero (ofBits 0x40400000)) = true ∧
          fle (CheckLimit qNaN zero (ofBits 0x40400000)) (ofBits 0x40400000) = true) := by
  decide

/-- C5 (amended): for every non-NaN `value` and every `lower <= upper`, the value stored
by `CheckLimit(&value, lower, upper)` satisfies `lower <= value <= upper`; clamping
`5.0f` into `[0.0f, 3.0f]` stores `3.0f`. -/
theorem CheckLimit_in_range (value lower upper : float32_t)
    (hv : value.isNaN = false) (h : fle lower upper = true) :
    (fle lower (CheckLimit value lower upper) = true ∧
      fle (CheckLimit value lower upper) upper = true) ∧
    CheckLimit (ofBits 0x40A00000) zero (ofBits 0x40400000) = ofBits 0x40400000 := by
  refine ⟨?_, by decide⟩
  rw [fle_iff] at h
  rcases h with ⟨hl, hu, hk⟩
  unfold CheckLimit fgt
  by_cases h1 : flt value lower = true
  · rw [if_pos h1]
    simp only [fle_iff]
    exact ⟨⟨hl, hl, le_refl _⟩, hl, hu, hk⟩
  · rw [if_neg h1]
    by_cases h2 : flt upper value = true
    · rw [if_pos h2]
      simp only [fle_iff]
      exact ⟨⟨hl, hu, hk⟩, hu, hu, le_refl _⟩
    · rw [if_neg h2]
      simp only [fle_iff]
      rw [flt_iff] at h1 h2
      refine ⟨⟨hl, hv, ?_⟩, hv, hu, ?_⟩
      · by_contra hc; exact h1 ⟨hv, hl, by omega⟩
      · by_contra hc; exact h2 ⟨hu, hv, by omega⟩

theorem CheckLimit_in_range_witness :
    (fle (ofBits 0xBF800000) (CheckLimit (ofBits 0xC0A00000) (ofBits 0xBF800000) (ofBits 0x3F800000)) = true ∧
      fle (CheckLimit (ofBits 0xC0A00000) (ofBits 0xBF800000) (ofBits 0x3F800000)) (ofBits 0x3F800000) = true) ∧
    CheckLimit (ofBits 0x40A00000) zero (ofBits 0x40400000) = ofBits 0x40400000 :=
  CheckLimit_in_range (ofBits 0xC0A00000) (ofBits 0xBF800000) (ofBits 0x3F800000)
    (by decide) (by decide)

/-- C6: `CheckLimit(&value, lower, upper)` leaves the stored value unchanged when
`lower <= value <= upper`; in general it stores `lower` when `value < lower`, `upper`
when `value` is not below `lower` and `value > upper`, and the original value
otherwise. -/
theorem CheckLimit_cases (value lower upper : float32_t) :
    (fle lower value = true ∧ fle value upper = true → CheckLimit value lower upper = value) ∧
    (flt value lower = true → CheckLimit value lower upper = lower) ∧
    (flt value lower = false → fgt value upper = true → CheckLimit value lower upper = upper) ∧
    (flt value lower = false → fgt value upper = false →
      CheckLimit value lower upper = value) := by
  refine ⟨?_, ?_, ?_, ?_⟩
  · rintro ⟨h1, h2⟩
    simp [CheckLimit, fgt, flt_false_of_fle h1, flt_false_of_fle h2]
  · intro h; simp [CheckLimit, h]
  · intro h1 h2; simp [CheckLimit, h1, h2]
  · intro h1 h2; simp [CheckLimit, h1, h2]

theorem CheckLimit_cases_witness :
    CheckLimit (ofBits 0x40000000) (ofBits 0x3F800000) (ofBits 0x40400000) = ofBits 0x40000000 ∧
    CheckLimit zero (ofBits 0x3F800000) (ofBits 0x40400000) = ofBits 0x3F800000 :=
  ⟨(CheckLimit_cases (ofBits 0x40000000) (ofBits 0x3F800000) (ofBits 0x40400000)).1
      ⟨by decide, by decide⟩,
   (CheckLimit_cases zero (ofBits 0x3F800000) (ofBits 0x40400000)).2.1 (by decide)⟩

/-! ## `WeightedAverage` -/

/-- The count stored by a call is the count on entry plus one, modulo `2^32`. -/
theorem WeightedAverage_count {F : Type} [Add F] [Mul F] [Div F] [NatCast F]
    (value : F) (st : F × Nat) : (WeightedAverage value st).2 = u32 (st.2 + 1) := rfl

/-- The count after a sequence of calls is the count on entry plus the number of
calls, modulo `2^32`. -/
theorem WeightedAverage_calls_count {F : Type} [Add F] [Mul F] [Div F] [NatCast F]
    (samples : List F) (st : F × Nat) :
    (WeightedAverage_calls samples st).2 % 4294967296
      = (st.2 + samples.length) % 4294967296 := by
  induction samples generalizing st with
  | nil => simp [WeightedAverage_calls]
  | cons s l ih =>
    have h := ih (WeightedAverage s st)
    simp only [WeightedAverage_calls, List.foldl_cons, List.length_cons] at h ⊢
    rw [h, WeightedAverage_count, u32]
    omega

theorem WeightedAverage_calls_count_lt {F : Type} [Add F] [Mul F] [Div F] [NatCast F]
    (samples : List F) (st : F × Nat) (h : 0 < samples.length) :
    (WeightedAverage_calls samples st).2 < 4294967296 := by
  induction samples generalizing st with
  | nil => exact absurd h (Nat.lt_irrefl 0)
  | cons s l ih =>
    cases l with
    | nil =>
      simp only [WeightedAverage_calls, List.foldl_cons, List.foldl_nil, WeightedAverage_count, u32]
      omega
    | cons t l2 =>
      have := ih (WeightedAverage s st) (Nat.succ_pos _)
      simpa only [WeightedAverage_calls, List.foldl_cons] using this

/-- Exact arithmetic: as long as the count does not wrap, the stored average times the
stored count is the sum accumulated so far. -/
theorem WeightedAverage_calls_sum (samples : List ℚ) (a : ℚ) (c : Nat)
    (h : c + samples.length < 4294967296) :
    (WeightedAverage_calls samples (a, c)).2 = c + samples.length ∧
    (WeightedAverage_calls samples (a, c)).1 * ((WeightedAverage_calls samples (a, c)).2 : ℚ)
      = a * (c : ℚ) + samples.sum := by
  induction samples generalizing a c with
  | nil => simp [WeightedAverage_calls]
  | cons s l ih =>
    simp only [List.length_cons] at h
    have hc : u32 (c + 1) = c + 1 := by unfold u32; omega
    have hstep : WeightedAverage s (a, c) = ((a * (c : ℚ) + s) / ((c + 1 : Nat) : ℚ), c + 1) := by
      simp only [WeightedAverage, hc]
    have h2 := ih ((a * (c : ℚ) + s) / ((c + 1 : Nat) : ℚ)) (c + 1) (by omega)
    simp only [WeightedAverage_calls, List.foldl_cons, hstep, List.length_cons,
      List.sum_cons] at h2 ⊢
    refine ⟨by omega, ?_⟩
    rw [h2.2]
    have hne : ((c + 1 : Nat) : ℚ) ≠ 0 := by exact_mod_cast Nat.succ_ne_zero c
    field_simp
    ring

/-- C7 (as stated, refuted): after `n = 2^32` calls (all samples `0`) from
`average = 0, count = 0` the stored count is not `n`: the 32-bit count has wrapped. -/
theorem WeightedAverage_mean_counterexample :
    (WeightedAverage_calls (List.replicate 4294967296 (0 : ℚ)) (0, 0)).2 ≠ 4294967296 := by
  have hlen : 0 < (List.replicate 4294967296 (0 : ℚ)).length := by
    rw [List.length_replicate]; exact Nat.succ_pos _
  exact Nat.ne_of_lt
    (WeightedAverage_calls_count_lt (List.replicate 4294967296 (0 : ℚ)) (0, 0) hlen)

/-- C7 (amended): for every `1 <= n < 2^32` and samples `s_1..s_n`, starting from
`average = 0` and `count = 0` and calling `WeightedAverage` on the samples in order, with
arithmetic taken exactly, the final average is `(s_1 + ... + s_n) / n` and the final
count is `n`. -/
theorem WeightedAverage_mean (samples : List ℚ) (h1 : 1 ≤ samples.length)
    (h2 : samples.length < 4294967296) :
    WeightedAverage_calls samples (0, 0) = (samples.sum / (samples.length : ℚ), samples.length) := by
  obtain ⟨hc, hs⟩ := WeightedAverage_calls_sum samples 0 0 (by omega)
  have hne : ((samples.length : Nat) : ℚ) ≠ 0 := by
    exact_mod_cast (by omega : samples.length ≠ 0)
  rw [hc] at hs
  simp only [Nat.zero_add, Nat.cast_zero, mul_zero, zero_add] at hc hs
  apply Prod.ext
  · simp only [eq_div_iff hne, hs]
  · simpa using hc

theorem WeightedAverage_mean_witness :
    WeightedAverage_calls [(1 : ℚ), 2, 4] (0, 0)
      = (([(1 : ℚ), 2, 4]).sum / ((([(1 : ℚ), 2, 4]).length : Nat) : ℚ), ([(1 : ℚ), 2, 4]).length) :=
  WeightedAverage_mean [(1 : ℚ), 2, 4] (by decide) (by decide)

/-- C8: for every sample, average `a` and count `c < 2^32 - 1`, one call of
`WeightedAverage` stores `(a * c + sample) / (c + 1)` in the average, with the count
before the increment as multiplier and the count after it as divisor, and stores
`c + 1` in the count. The arithmetic is that of any type `F` (`float32_t` or exact). -/
theorem WeightedAverage_step {F : Type} [Add F] [Mul F] [Div F] [NatCast F]
    (sample a : F) (c : Nat) (h : c < 4294967296 - 1) :
    WeightedAverage sample (a, c) = ((a * (c : F) + sample) / ((c + 1 : Nat) : F), c + 1) := by
  have hc : u32 (c + 1) = c + 1 := by unfold u32; omega
  simp only [WeightedAverage, hc]

set_option maxRecDepth 100000 in
theorem WeightedAverage_step_witness :
    WeightedAverage (ofBits 0x40A00000) (ofBits 0x40000000, 3)
      = (ofBits 0x40300000, 4) := by
  rw [WeightedAverage_step (ofBits 0x40A00000) (ofBits 0x40000000) 3 (by decide)]
  decide

/-! ## `SquareRoot` -/

/-- C9: for every `value <= 0.0f`, that is for every non-NaN pattern that is a zero or
has its sign bit set (zero, negative zero, every negative value, negative infinity),
`SquareRoot(value)` returns `0.0f` and executes neither the seed statements nor a pass
of the refinement loop. -/
theorem SquareRoot_nonpositive (value : float32_t) :
    (fle value zero = true ↔ value.isNaN = false ∧ (value.sign = 1 ∨ value.bits = 0)) ∧
    (fle value zero = true →
      SquareRoot value = zero ∧ SquareRoot_run value = ⟨zero, false, 0⟩) := by
  refine ⟨fle_zero_iff value, fun h => ?_⟩
  have hrun : SquareRoot_run value = ⟨zero, false, 0⟩ := by
    unfold SquareRoot_run
    rw [if_pos h]
  refine ⟨?_, hrun⟩
  unfold SquareRoot
  rw [hrun]

theorem SquareRoot_nonpositive_witness :
    fle (ofBits 0xFF800000) zero = true ∧ fle (ofBits 0x80000000) zero = true ∧
    SquareRoot (ofBits 0xFF800000) = zero ∧
      SquareRoot_run (ofBits 0xFF800000) = ⟨zero, false, 0⟩ :=
  ⟨by decide, by decide, (SquareRoot_nonpositive (ofBits 0xFF800000)).2 (by decide)⟩

/-! ## `Isnan` -/

/-- C10 (as stated, refuted): a NaN does not compare equal to itself, yet `Isnan`
returns 0 for it. -/
theorem Isnan_counterexample :
    ¬ (Isnan qNaN ≠ 0 ↔ feq qNaN qNaN = false) := by
  decide

/-- C10 (amended): for every `x`, `Isnan(x)` returns non-zero if and only if `x` compares
equal to itself; `Isnan` returns 0 for every NaN and 1 for every finite or infinite
value. -/
theorem Isnan_spec (x : float32_t) :
    (Isnan x ≠ 0 ↔ feq x x = true) ∧
    (x.isNaN = true → Isnan x = 0) ∧
    (x.isNaN = false → Isnan x = 1) := by
  unfold Isnan
  rw [feq_self]
  cases h : x.isNaN <;> simp

theorem Isnan_spec_witness :
    Isnan qNaN = 0 ∧ Isnan (inf true) = 1 :=
  ⟨(Isnan_spec qNaN).2.1 (by decide), (Isnan_spec (inf true)).2.2 (by decide)⟩

/-! ## `ShellSort`: array accesses and loop rules -/

theorem getD_set_of_lt (l : List float32_t) (i k : Nat) (a d : float32_t) (hk : k < l.length) :
    (l.set i a).getD k d = if i = k then a else l.getD k d := by
  simp only [List.getD_eq_getElem?_getD, List.getElem?_set]
  by_cases h : i = k
  · subst h; simp [hk]
  · simp [h]

theorem rd_cast (arr : List float32_t) (k : Nat) (h : k < arr.length) :
    rd arr (k : Int) = some (arr.getD k zero) := by
  simp [rd, List.getElem?_eq_getElem h]

theorem wr_cast (arr : List float32_t) (k : Nat) (v : float32_t) (h : k < arr.length) :
    wr arr (k : Int) v = some (arr.set k v) := by
  simp [wr, h]

theorem i16_cast (k : Nat) (h : k ≤ 32767) : i16 (k : Int) = (k : Int) := by
  unfold i16; omega

/-- Rule for the `while` loop: an invariant `P` of the loop body that keeps `j` inside
the array holds at loop exit, together with the negated loop condition; the loop
terminates and accesses no element outside the array. -/
theorem ShellSort_while_rule (gap : Nat) (hg : 0 < gap) (temp : float32_t)
    (P : List float32_t → Nat → Prop)
    (hP : ∀ arr j, P arr j → j < arr.length ∧ j ≤ 32767)
    (hstep : ∀ arr j, P arr j → gap ≤ j → flt temp (arr.getD (j - gap) zero) = true →
      P (arr.set j (arr.getD (j - gap) zero)) (j - gap)) :
    ∀ (fuel : Nat) (arr : List float32_t) (j : Nat), j < fuel → P arr j →
      ∃ (arr1 : List float32_t) (j1 : Nat), ShellSort_while (gap : Int) temp fuel arr (j : Int) = some (arr1, (j1 : Int)) ∧
        P arr1 j1 ∧ (j1 < gap ∨ flt temp (arr1.getD (j1 - gap) zero) = false) := by
  intro fuel
  induction fuel with
  | zero => intro arr j h; exact absurd h (Nat.not_lt_zero j)
  | succ fuel ih =>
    intro arr j hj hp
    obtain ⟨hlen, hj16⟩ := hP arr j hp
    unfold ShellSort_while
    by_cases hgj : gap ≤ j
    · have hc : (j : Int) - (gap : Int) ≥ 0 := by omega
      have hsub : (j : Int) - (gap : Int) = ((j - gap : Nat) : Int) := by omega
      rw [if_pos hc, hsub, rd_cast arr (j - gap) (by omega)]
      simp only [Option.some_bind]
      cases hlt : flt temp (arr.getD (j - gap) zero)
      · simp only [Bool.false_eq_true, if_false]
        exact ⟨arr, j, rfl, hp, Or.inr hlt⟩
      · simp only [if_true]
        rw [wr_cast arr j _ hlen, i16_cast (j - gap) (by omega)]
        simp only [Option.some_bind]
        exact ih _ (j - gap) (by omega) (hstep arr j hp hgj hlt)
    · have hc : ¬ ((j : Int) - (gap : Int) ≥ 0) := by omega
      rw [if_neg hc]
      exact ⟨arr, j, rfl, hp, Or.inl (by omega)⟩

/-- Rule for the body of the `i` loop: from an invariant `P` of the `while` loop that
holds for the array on entry and `j = i`, the body stores `temp = arr[i]` at the exit
position `j1` of an array `arr1` satisfying `P` and the negated loop condition. -/
theorem ShellSort_insert_rule (gap : Nat) (hg : 0 < gap) (arr : List float32_t) (i : Nat)
    (hi : gap ≤ i) (P : List float32_t → Nat → Prop)
    (hP : ∀ a j, P a j → j < a.length ∧ j ≤ 32767)
    (hstep : ∀ a j, P a j → gap ≤ j → flt (arr.getD i zero) (a.getD (j - gap) zero) = true →
      P (a.set j (a.getD (j - gap) zero)) (j - gap))
    (h0 : P arr i) :
    ∃ (arr1 : List float32_t) (j1 : Nat), ShellSort_insert (gap : Int) (i : Int) arr = some (arr1.set j1 (arr.getD i zero)) ∧
      P arr1 j1 ∧ (j1 < gap ∨ flt (arr.getD i zero) (arr1.getD (j1 - gap) zero) = false) := by
  obtain ⟨hlen, hi16⟩ := hP arr i h0
  have hsub : (i : Int) - (gap : Int) = ((i - gap : Nat) : Int) := by omega
  unfold ShellSort_insert
  simp only [hsub, rd_cast arr i hlen, rd_cast arr (i - gap) (by omega), Option.some_bind]
  cases hlt : flt (arr.getD i zero) (arr.getD (i - gap) zero)
  · simp only [Bool.false_eq_true, if_false, Option.some_bind]
    exact ⟨arr, i, wr_cast arr i _ hlen, h0, Or.inr hlt⟩
  · simp only [if_true]
    obtain ⟨arr1, j1, hw, hp1, hex⟩ :=
      ShellSort_while_rule gap hg (arr.getD i zero) P hP hstep (i + 1) arr i (by omega) h0
    have ht : ((i : Int)).toNat + 1 = i + 1 := by simp
    rw [ht, hw]
    simp only [Option.some_bind]
    exact ⟨arr1, j1, wr_cast arr1 j1 _ (hP arr1 j1 hp1).1, hp1, hex⟩

/-- Rule for the `i` loop: an invariant `Q` established by each pass of the body holds at
`i = length` on exit; the loop terminates. -/
theorem ShellSort_for_rule (gap n : Nat) (hn : n ≤ 32767) (Q : List float32_t → Nat → Prop)
    (hstep : ∀ arr i, Q arr i → gap ≤ i → i < n →
      ∃ arr1, ShellSort_insert (gap : Int) (i : Int) arr = some arr1 ∧ Q arr1 (i + 1)) :
    ∀ (fuel : Nat) (arr : List float32_t) (i : Nat), n < i + fuel → gap ≤ i → i ≤ n → Q arr i →
      ∃ arr1, ShellSort_for (gap : Int) (n : Int) fuel arr (i : Int) = some arr1 ∧ Q arr1 n := by
  intro fuel
  induction fuel with
  | zero => intro arr i h _ h2; omega
  | succ fuel ih =>
    intro arr i hf hgi hin hq
    unfold ShellSort_for
    by_cases hlt : i < n
    · have hc : (i : Int) < (n : Int) := by omega
      obtain ⟨arr1, hins, hq1⟩ := hstep arr i hq hgi hlt
      have h16 : i16 ((i : Int) + 1) = ((i + 1 : Nat) : Int) := by
        have := i16_cast (i + 1) (by omega)
        rw [← this]; congr 1
      rw [if_pos hc, hins, h16]
      simp only [Option.some_bind]
      exact ih arr1 (i + 1) (by omega) (by omega) (by omega) hq1
    · have hc : ¬ ((i : Int) < (n : Int)) := by omega
      have hin2 : i = n := by omega
      rw [if_neg hc]
      exact ⟨arr, rfl, hin2 ▸ hq⟩

/-- Rule for the `gap` loop: a property `R` kept by every pass of the `i` loop holds on
exit, and so does a property `S` established by the pass with `gap = 1`, which is the
last pass whenever a pass is run; the loop terminates. -/
theorem ShellSort_gaps_rule (n : Nat) (R S : List float32_t → Prop)
    (hpass : ∀ gap arr, 0 < gap → gap ≤ n / 2 → R arr →
      ∃ arr1, ShellSort_for (gap : Int) (n : Int) (n - gap + 1) arr (gap : Int) = some arr1 ∧
        R arr1 ∧ (gap = 1 → S arr1)) :
    ∀ (fuel : Nat) (gap : Nat) (arr : List float32_t), gap < 2 ^ fuel → gap ≤ n / 2 →
      gap ≤ 32767 → R arr →
      ∃ arr1, ShellSort_gaps (n : Int) (fuel + 1) arr (gap : Int) = some arr1 ∧
        R arr1 ∧ (0 < gap → S arr1) := by
  intro fuel
  induction fuel with
  | zero =>
    intro gap arr hgap _ _ hr
    have h0 : gap = 0 := by simpa using hgap
    subst h0
    exact ⟨arr, by simp [ShellSort_gaps], hr, fun h => absurd h (Nat.lt_irrefl 0)⟩
  | succ fuel ih =>
    intro gap arr hgap hgn hg16 hr
    by_cases h0 : gap = 0
    · subst h0
      exact ⟨arr, by simp [ShellSort_gaps], hr, fun h => absurd h (Nat.lt_irrefl 0)⟩
    · have hpos : 0 < gap := Nat.pos_of_ne_zero h0
      obtain ⟨arr1, hfor, hr1, hs1⟩ := hpass gap arr hpos hgn hr
      have hc : (gap : Int) > 0 := by omega
      have hfuel : ((n : Int) - (gap : Int)).toNat + 1 = n - gap + 1 := by omega
      have hdiv : i16 ((gap : Int).tdiv 2) = ((gap / 2 : Nat) : Int) := by
        have h1 : (gap : Int).tdiv 2 = ((gap / 2 : Nat) : Int) := (Int.ofNat_tdiv gap 2).symm
        rw [h1, i16_cast _ (by omega)]
      have hunf : ShellSort_gaps (n : Int) (fuel + 1 + 1) arr (gap : Int)
          = ShellSort_gaps (n : Int) (fuel + 1) arr1 ((gap / 2 : Nat) : Int) := by
        rw [ShellSort_gaps, if_pos hc, hfuel, hfor, hdiv]
        rfl
      rw [hunf]
      by_cases h2 : gap / 2 = 0
      · have hg1 : gap = 1 := by omega
        rw [h2]
        exact ⟨arr1, by simp [ShellSort_gaps], hr1, fun _ => hs1 hg1⟩
      · have hpow : gap / 2 < 2 ^ fuel := by
          have : 2 ^ (fuel + 1) = 2 * 2 ^ fuel := by ring
          omega
        obtain ⟨arr2, hg2, hr2, hs2⟩ := ih (gap / 2) arr1 hpow (by omega) (by omega) hr1
        exact ⟨arr2, hg2, hr2, fun _ => hs2 (Nat.pos_of_ne_zero h2)⟩

/-- Rule for `ShellSort` called with the number of elements of the array. -/
theorem ShellSort_rule (n : Nat) (hn : n ≤ 32767) (R S : List float32_t → Prop)
    (hpass : ∀ gap arr, 0 < gap → gap ≤ n / 2 → R arr →
      ∃ arr1, ShellSort_for (gap : Int) (n : Int) (n - gap + 1) arr (gap : Int) = some arr1 ∧
        R arr1 ∧ (gap = 1 → S arr1))
    (arr : List float32_t) (hr : R arr) :
    ∃ out, ShellSort arr (n : Int) = some out ∧ R out ∧ (2 ≤ n → S out) := by
  have hdiv : i16 ((n : Int).tdiv 2) = ((n / 2 : Nat) : Int) := by
    have h1 : (n : Int).tdiv 2 = ((n / 2 : Nat) : Int) := (Int.ofNat_tdiv n 2).symm
    rw [h1, i16_cast _ (by omega)]
  obtain ⟨out, h1, h2, h3⟩ :=
    ShellSort_gaps_rule n R S hpass 15 (n / 2) arr (by norm_num; omega) (le_refl _) (by omega) hr
  refine ⟨out, ?_, h2, fun h => h3 (by omega)⟩
  unfold ShellSort
  rw [hdiv]
  exact h1

/-! ## `ShellSort`: the result is a permutation of the input -/

/-- Shifting `arr[b]` into the hole at `a` and moving the hole to `b` keeps the multiset of
the array with `v` stored in the hole. -/
theorem set_shift_perm (l : List float32_t) (a b : Nat) (v : float32_t) (hab : a ≠ b)
    (ha : a < l.length) (hb : b < l.length) :
    ((l.set a (l.getD b zero)).set b v).Perm (l.set a v) := by
  rw [List.perm_iff_count]
  intro x
  have hb2 : b < (l.set a (l.getD b zero)).length := by simpa using hb
  have hget : (l.set a (l.getD b zero))[b] = l[b] := by
    rw [List.getElem_set]; simp [hab]
  rw [List.count_set _ _ _ _ hb2, List.count_set _ _ _ _ ha, List.count_set _ _ _ _ ha, hget,
    List.getD_eq_getElem _ _ hb]
  split_ifs <;> omega

theorem set_getD_self (l : List float32_t) (i : Nat) (d : float32_t) :
    l.set i (l.getD i d) = l := by
  induction l generalizing i with
  | nil => rfl
  | cons x xs ih =>
    cases i with
    | zero => rfl
    | succ k =>
      have := ih k
      simp only [List.getD_eq_getElem?_getD, List.getElem?_cons_succ, List.set_cons_succ] at this ⊢
      rw [this]

/-- The body of the `i` loop stores a permutation of the array. -/
theorem ShellSort_insert_perm (gap : Nat) (hg : 0 < gap) (arr : List float32_t) (i : Nat)
    (hi : gap ≤ i) (hlen : i < arr.length) (h16 : arr.length ≤ 32767) :
    ∃ out, ShellSort_insert (gap : Int) (i : Int) arr = some out ∧ out.Perm arr := by
  obtain ⟨arr1, j1, hins, hp, _⟩ := ShellSort_insert_rule gap hg arr i hi
    (fun a j => j ≤ i ∧ a.length = arr.length ∧ (a.set j (arr.getD i zero)).Perm arr)
    (fun a j h => ⟨by omega, by omega⟩)
    (fun a j h hgj _ => by
      obtain ⟨h1, h2, h3⟩ := h
      refine ⟨by omega, by simpa using h2, ?_⟩
      exact (set_shift_perm a j (j - gap) _ (by omega) (by omega) (by omega)).trans h3)
    ⟨le_refl _, rfl, by rw [set_getD_self]⟩
  exact ⟨_, hins, hp.2.2⟩

/-- A pass of the `i` loop stores a permutation of the array. -/
theorem ShellSort_for_perm (gap : Nat) (hg : 0 < gap) (arr : List float32_t)
    (hgn : gap ≤ arr.length) (h16 : arr.length ≤ 32767) :
    ∃ out, ShellSort_for (gap : Int) (arr.length : Int) (arr.length - gap + 1) arr (gap : Int)
      = some out ∧ out.Perm arr := by
  obtain ⟨out, h1, h2⟩ := ShellSort_for_rule gap arr.length h16 (fun a _ => a.Perm arr)
    (fun a i hq hgi hin => by
      have hl : a.length = arr.length := hq.length_eq
      obtain ⟨o, ho, hp⟩ := ShellSort_insert_perm gap hg a i hgi (by omega) (by omega)
      exact ⟨o, ho, hp.trans hq⟩)
    (arr.length - gap + 1) arr gap (by omega) (le_refl _) hgn (List.Perm.refl _)
  exact ⟨out, h1, h2⟩

/-- C2: for every sequence of `float32_t` values and a length argument equal to its
number of elements (`0 <= length <= 32767`), `ShellSort(arr, length)` returns and the
contents of the sequence afterwards are a permutation of its contents before. -/
theorem ShellSort_perm (arr : List float32_t) (h : arr.length ≤ 32767) :
    ∃ out, ShellSort arr (arr.length : Int) = some out ∧ out.Perm arr := by
  obtain ⟨out, h1, h2, _⟩ := ShellSort_rule arr.length h (fun a => a.Perm arr) (fun _ => True)
    (fun gap a hg hgn hr => by
      have hl : a.length = arr.length := hr.length_eq
      obtain ⟨o, ho, hp⟩ := ShellSort_for_perm gap hg a (by omega) (by omega)
      rw [hl] at ho
      exact ⟨o, ho, hp.trans hr, fun _ => trivial⟩)
    arr (List.Perm.refl _)
  exact ⟨out, h1, h2⟩

set_option maxRecDepth 100000 in
theorem ShellSort_perm_witness :
    ([ofBits 0x40400000, ofBits 0x3F800000, qNaN, ofBits 0x40000000].length ≤ 32767) ∧
    ∃ out, ShellSort [ofBits 0x40400000, ofBits 0x3F800000, qNaN, ofBits 0x40000000]
        (([ofBits 0x40400000, ofBits 0x3F800000, qNaN, ofBits 0x40000000].length : Nat) : Int)
          = some out ∧
      out.Perm [ofBits 0x40400000, ofBits 0x3F800000, qNaN, ofBits 0x40000000] :=
  ⟨by decide,
    ShellSort_perm [ofBits 0x40400000, ofBits 0x3F800000, qNaN, ofBits 0x40000000] (by decide)⟩

/-! ## `ShellSort`: the result is non-decreasing -/

theorem getD_not_nan_of_perm {a arr : List float32_t} (hp : a.Perm arr)
    (hn : ∀ x ∈ arr, x.isNaN = false) (k : Nat) (hk : k < a.length) :
    (a.getD k zero).isNaN = false := by
  rw [List.getD_eq_getElem _ _ hk]
  exact hn _ (hp.mem_iff.mp (List.getElem_mem hk))

theorem key_le_of_flt_false {a b : float32_t} (ha : a.isNaN = false) (hb : b.isNaN = false)
    (h : flt a b = false) : b.key ≤ a.key := by
  by_contra hc
  have : flt a b = true := (flt_iff a b).mpr ⟨ha, hb, by omega⟩
  rw [h] at this
  exact Bool.false_ne_true this

/-- With `gap = 1` and NaN-free contents, the body of the `i` loop extends the sorted
prefix `arr[0..i)` to `arr[0..i]`. -/
theorem ShellSort_insert_sorted (arr : List float32_t) (i : Nat) (hi : 1 ≤ i)
    (hlen : i < arr.length) (h16 : arr.length ≤ 32767)
    (hnan : ∀ k, k < arr.length → (arr.getD k zero).isNaN = false)
    (hs : AscendingUpTo arr i) :
    ∃ out, ShellSort_insert ((1 : Nat) : Int) (i : Int) arr = some out ∧ out.Perm arr ∧
      AscendingUpTo out (i + 1) := by
  obtain ⟨arr1, j1, hins, hp, hex⟩ := ShellSort_insert_rule 1 Nat.one_pos arr i hi
    (fun a j => j ≤ i ∧ a.length = arr.length ∧ (a.set j (arr.getD i zero)).Perm arr ∧
      (∀ k, k < a.length → (a.getD k zero).isNaN = false) ∧
      (∀ p q, p < q → q ≤ i → p ≠ j → q ≠ j → (a.getD p zero).key ≤ (a.getD q zero).key) ∧
      (∀ q, j < q → q ≤ i → (arr.getD i zero).key < (a.getD q zero).key))
    (fun a j h => ⟨by omega, by omega⟩)
    (fun a j h hgj hlt => by
      obtain ⟨h1, h2, h3, h4, h5, h6⟩ := h
      have hkey : (arr.getD i zero).key < (a.getD (j - 1) zero).key :=
        ((flt_iff _ _).mp hlt).2.2
      refine ⟨by omega, by simpa using h2, ?_, ?_, ?_, ?_⟩
      · exact (set_shift_perm a j (j - 1) _ (by omega) (by omega) (by omega)).trans h3
      · intro k hk
        have hk2 : k < a.length := by simpa using hk
        rw [getD_set_of_lt a j k _ _ hk2]
        split_ifs
        · exact h4 (j - 1) (by omega)
        · exact h4 k hk2
      · intro p q hpq hq hpj hqj
        rw [getD_set_of_lt a j p _ _ (by omega), getD_set_of_lt a j q _ _ (by omega)]
        split_ifs with e1 e2 e2
        · omega
        · exact h5 (j - 1) q (by omega) hq (by omega) (by omega)
        · exact h5 p (j - 1) (by omega) (by omega) (by omega) (by omega)
        · exact h5 p q hpq hq (by omega) (by omega)
      · intro q hjq hq
        rw [getD_set_of_lt a j q _ _ (by omega)]
        split_ifs with e1
        · exact hkey
        · exact h6 q (by omega) hq)
    ⟨le_refl _, rfl, by rw [set_getD_self], hnan,
      fun p q hpq hq _ hqi => hs p q hpq (by omega), fun q h1 h2 => by omega⟩
  obtain ⟨h1, h2, h3, h4, h5, h6⟩ := hp
  refine ⟨_, hins, h3, ?_⟩
  intro p q hpq hq
  have htemp : (arr.getD i zero).isNaN = false := hnan i hlen
  rw [getD_set_of_lt arr1 j1 p _ _ (by omega), getD_set_of_lt arr1 j1 q _ _ (by omega)]
  split_ifs with e1 e2 e2
  · omega
  · exact le_of_lt (h6 q (by omega) (by omega))
  · rcases hex with hex | hex
    · omega
    · have hle := key_le_of_flt_false htemp (h4 (j1 - 1) (by omega)) hex
      by_cases hpj : p = j1 - 1
      · rw [hpj]; exact hle
      · exact le_trans (h5 p (j1 - 1) (by omega) (by omega) (by omega) (by omega)) hle
  · exact h5 p q hpq (by omega) (fun h => e1 h.symm) (fun h => e2 h.symm)

/-- With NaN-free contents, the pass of the `i` loop with `gap = 1` sorts the array. -/
theorem ShellSort_for_sorted (arr : List float32_t) (hn1 : 1 ≤ arr.length)
    (h16 : arr.length ≤ 32767) (hn : ∀ x ∈ arr, x.isNaN = false) :
    ∃ out, ShellSort_for ((1 : Nat) : Int) (arr.length : Int) (arr.length - 1 + 1) arr
        ((1 : Nat) : Int) = some out ∧ out.Perm arr ∧ AscendingUpTo out arr.length := by
  obtain ⟨out, h1, h2⟩ := ShellSort_for_rule 1 arr.length h16
    (fun a i => a.Perm arr ∧ AscendingUpTo a i)
    (fun a i hq hgi hin => by
      have hl : a.length = arr.length := hq.1.length_eq
      obtain ⟨o, ho, hp, hs⟩ := ShellSort_insert_sorted a i hgi (by omega) (by omega)
        (getD_not_nan_of_perm hq.1 hn) hq.2
      exact ⟨o, ho, hp.trans hq.1, hs⟩)
    (arr.length - 1 + 1) arr 1 (by omega) (le_refl _) hn1
    ⟨List.Perm.refl _, fun p q hpq hq => by omega⟩
  exact ⟨out, h1, h2.1, h2.2⟩

/-- C1 (as stated, refuted): on the two-element sequence `[NaN, 0.0f]` `ShellSort`
leaves the sequence as it is, and `NaN <= 0.0f` is false. -/
theorem ShellSort_sorted_counterexample :
    ShellSort [qNaN, zero] 2 = some [qNaN, zero] ∧ fle qNaN zero = false := by
  decide

set_option maxRecDepth 100000 in
/-- Sorting `[3.0f, 1.0f, 2.0f]` gives `[1.0f, 2.0f, 3.0f]`. -/
theorem ShellSort_example :
    ShellSort [ofBits 0x40400000, ofBits 0x3F800000, ofBits 0x40000000] 3
      = some [ofBits 0x3F800000, ofBits 0x40000000, ofBits 0x40400000] := by
  decide

/-- C1 (amended): for every sequence of non-NaN `float32_t` values and a length argument
equal to its number of elements (`0 <= length <= 32767`), `ShellSort(arr, length)`
returns and the sequence afterwards is non-decreasing: `arr[i] <= arr[i+1]` for every
`0 <= i < length-1`; sorting `[3, 1, 2]` gives `[1, 2, 3]`. -/
theorem ShellSort_sorted (arr : List float32_t) (h : arr.length ≤ 32767)
    (hn : ∀ x ∈ arr, x.isNaN = false) :
    (∃ out, ShellSort arr (arr.length : Int) = some out ∧ out.length = arr.length ∧
      ∀ i (hi : i + 1 < out.length), fle out[i] out[i + 1] = true) ∧
    ShellSort [ofBits 0x40400000, ofBits 0x3F800000, ofBits 0x40000000] 3
      = some [ofBits 0x3F800000, ofBits 0x40000000, ofBits 0x40400000] := by
  refine ⟨?_, ShellSort_example⟩
  obtain ⟨out, h1, h2, h3⟩ := ShellSort_rule arr.length h (fun a => a.Perm arr)
    (fun a => AscendingUpTo a arr.length)
    (fun gap a hg hgn hr => by
      have hl : a.length = arr.length := hr.length_eq
      by_cases hg1 : gap = 1
      · subst hg1
        obtain ⟨o, ho, hp, hs⟩ := ShellSort_for_sorted a (by omega) (by omega)
          (fun x hx => hn x (hr.mem_iff.mp hx))
        rw [hl] at ho hs
        exact ⟨o, ho, hp.trans hr, fun _ => hs⟩
      · obtain ⟨o, ho, hp⟩ := ShellSort_for_perm gap hg a (by omega) (by omega)
        rw [hl] at ho
        exact ⟨o, ho, hp.trans hr, fun h => absurd h hg1⟩)
    arr (List.Perm.refl _)
  have hl : out.length = arr.length := h2.length_eq
  refine ⟨out, h1, hl, ?_⟩
  intro i hi
  have hs := h3 (by omega) i (i + 1) (by omega) (by omega)
  rw [List.getD_eq_getElem _ _ (by omega), List.getD_eq_getElem _ _ hi] at hs
  exact (fle_iff _ _).mpr
    ⟨hn _ (h2.mem_iff.mp (List.getElem_mem _)), hn _ (h2.mem_iff.mp (List.getElem_mem _)), hs⟩

set_option maxRecDepth 100000 in
theorem ShellSort_sorted_witness :
    ([ofBits 0xBF800000, ofBits 0x7F800000, zero, ofBits 0x80000000].length ≤ 32767) ∧
    (∀ x ∈ [ofBits 0xBF800000, ofBits 0x7F800000, zero, ofBits 0x80000000],
      x.isNaN = false) ∧
    (∃ out, ShellSort [ofBits 0xBF800000, ofBits 0x7F800000, zero, ofBits 0x80000000]
        (([ofBits 0xBF800000, ofBits 0x7F800000, zero, ofBits 0x80000000].length : Nat) : Int)
          = some out ∧
      out.length = [ofBits 0xBF800000, ofBits 0x7F800000, zero, ofBits 0x80000000].length ∧
      ∀ i (hi : i + 1 < out.length), fle out[i] out[i + 1] = true) ∧
    ShellSort [ofBits 0x40400000, ofBits 0x3F800000, ofBits 0x40000000] 3
      = some [ofBits 0x3F800000, ofBits 0x40000000, ofBits 0x40400000] :=
  ⟨by decide, by decide,
    ShellSort_sorted [ofBits 0xBF800000, ofBits 0x7F800000, zero, ofBits 0x80000000]
      (by decide) (by decide)⟩

/-! ## `Fabs` -/

theorem i16_u16_cast (n : Nat) (h : n < 65536) : ((i16 (n : Int)) % 65536).toNat = n := by
  unfold i16; omega

/-- The value returned by `Fabs` has the lower half-word of `f` and the adjacent two
bytes as upper half-word. -/
theorem Fabs_eq (adjacent : Nat) (f : float32_t) :
    Fabs adjacent f = ofHalves adjacent f.lo := by
  have hlo : f.lo < 65536 := Nat.mod_lt _ (by decide)
  have h1 : -32768 ≤ i16 (f.lo : Int) ∧ i16 (f.lo : Int) ≤ 32767 := by
    unfold i16; omega
  have hmask : Fabs_mask (i16 (f.lo : Int)) = i16 (f.lo : Int) := by
    unfold Fabs_mask
    have hand := Nat.and_pow_two_sub_one_eq_mod ((i16 (f.lo : Int)) % 4294967296).toNat 31
    norm_num at hand
    simp only [hand]
    generalize i16 (f.lo : Int) = t at h1
    unfold i16
    omega
  unfold Fabs
  simp only [hmask, i16_u16_cast f.lo hlo]

/-- C20: in `Fabs`, for every 16-bit signed value `tmp`, the statement
`tmp &= 0x7FFFFFFF` leaves `tmp` unchanged, bit 15 included; the lower half-word of the
value returned by `Fabs` is the lower half-word of its argument. -/
theorem Fabs_mask_unchanged (tmp : Int) (h1 : -32768 ≤ tmp) (h2 : tmp ≤ 32767) :
    Fabs_mask tmp = tmp ∧ ∀ (adjacent : Nat) (f : float32_t), (Fabs adjacent f).lo = f.lo := by
  constructor
  · unfold Fabs_mask
    have hand := Nat.and_pow_two_sub_one_eq_mod (tmp % 4294967296).toNat 31
    norm_num at hand
    simp only [hand]
    unfold i16
    omega
  · intro adjacent f
    rw [Fabs_eq]
    unfold ofHalves ofBits lo
    simp only
    omega

theorem Fabs_mask_unchanged_witness :
    Fabs_mask (-32768) = -32768 ∧
      ∀ (adjacent : Nat) (f : float32_t), (Fabs adjacent f).lo = f.lo :=
  Fabs_mask_unchanged (-32768) (by decide) (by decide)

/-- C11 (the code departs from it): whatever the two bytes stored after `tmp` are,
`Fabs(-1.0f)` and `Fabs(-2.0f)` are the same value, with lower half-word 0 and those
two bytes as upper half-word, so they are not both the absolute value: the upper
half-word of the argument, which holds the sign bit, is never read. -/
theorem Fabs_sign_not_cleared (adjacent : Nat) :
    Fabs adjacent (ofBits 0xBF800000) = ofHalves adjacent 0 ∧
    Fabs adjacent (ofBits 0xC0000000) = ofHalves adjacent 0 ∧
    ¬ (Fabs adjacent (ofBits 0xBF800000) = ofBits 0x3F800000 ∧
        Fabs adjacent (ofBits 0xC0000000) = ofBits 0x40000000) := by
  have h1 : Fabs adjacent (ofBits 0xBF800000) = ofHalves adjacent 0 := by
    rw [Fabs_eq]; rfl
  have h2 : Fabs adjacent (ofBits 0xC0000000) = ofHalves adjacent 0 := by
    rw [Fabs_eq]; rfl
  refine ⟨h1, h2, ?_⟩
  rintro ⟨e1, e2⟩
  have h3 : ofBits 0x3F800000 = ofBits 0x40000000 := by rw [← e1, ← e2, h1, h2]
  exact absurd h3 (by decide)

/-! ## `Finite` -/

set_option maxRecDepth 100000 in
set_option exponentiation.threshold 1024 in
/-- The constant `3.402823466e+38F` is the largest finite `float32_t`, `0x7F7FFFFF`. -/
theorem FLT_MAX_bits : FLT_MAX = ofBits 0x7F7FFFFF := by decide

theorem isNaN_false_iff (x : float32_t) :
    x.isNaN = false ↔ (x.expo ≠ 255 ∨ x.mant = 0) := by
  unfold isNaN
  by_cases h1 : x.expo = 255 <;> by_cases h2 : x.mant = 0 <;> simp [h1, h2]

/-- `Finite` returns non-zero exactly for the patterns whose exponent field is not 255. -/
theorem Finite_iff_expo (x : float32_t) : Finite x ≠ 0 ↔ x.expo ≠ 255 := by
  have hb := x.bits_lt
  have hk1 : (ofBits 0x7F7FFFFF).key = 2139095039 := by decide
  have hk2 : (fneg (ofBits 0x7F7FFFFF)).key = -2139095039 := by decide
  have hn1 : (ofBits 0x7F7FFFFF).isNaN = false := by decide
  have hn2 : (fneg (ofBits 0x7F7FFFFF)).isNaN = false := by decide
  have hx := isNaN_false_iff x
  unfold Finite
  rw [FLT_MAX_bits]
  have hcond : (fle x (ofBits 0x7F7FFFFF) && fge x (fneg (ofBits 0x7F7FFFFF))) = true
      ↔ x.expo ≠ 255 := by
    rw [Bool.and_eq_true, fge, fle_iff, fle_iff, hk1, hk2, hn1, hn2, hx]
    unfold key sign magnitude expo mant
    constructor
    · rintro ⟨⟨h1, _, h2⟩, _, _, h3⟩
      split_ifs at h2 h3 <;> omega
    · intro h
      refine ⟨⟨Or.inl h, rfl, ?_⟩, rfl, Or.inl h, ?_⟩ <;> split_ifs <;> omega
  by_cases hc : (fle x (ofBits 0x7F7FFFFF) && fge x (fneg (ofBits 0x7F7FFFFF))) = true
  · rw [if_pos hc]
    exact ⟨fun _ => hcond.mp hc, fun _ => by decide⟩
  · rw [if_neg hc]
    exact ⟨fun h => absurd rfl h, fun h => absurd (hcond.mpr h) hc⟩

/-- C12: for every `x`, `Finite(x)` returns non-zero if and only if
`-FLT_MAX <= x <= FLT_MAX`, where `FLT_MAX = 3.402823466e+38F` is the pattern
`0x7F7FFFFF`; it returns 0 for every NaN, for `+infinity` and for `-infinity`. -/
theorem Finite_spec (x : float32_t) :
    (Finite x ≠ 0 ↔ fle (fneg FLT_MAX) x = true ∧ fle x FLT_MAX = true) ∧
    FLT_MAX = ofBits 0x7F7FFFFF ∧
    (x.isNaN = true → Finite x = 0) ∧
    Finite (inf false) = 0 ∧ Finite (inf true) = 0 := by
  refine ⟨?_, FLT_MAX_bits, ?_, ?_, ?_⟩
  · unfold Finite fge
    by_cases hc : (fle x FLT_MAX && fle (fneg FLT_MAX) x) = true
    · rw [if_pos hc]
      rw [Bool.and_eq_true] at hc
      exact ⟨fun _ => ⟨hc.2, hc.1⟩, fun _ => by decide⟩
    · rw [if_neg hc]
      rw [Bool.and_eq_true] at hc
      exact ⟨fun h => absurd rfl h, fun h => absurd ⟨h.2, h.1⟩ hc⟩
  · intro hn
    by_contra hf
    have he := (Finite_iff_expo x).mp hf
    have := (isNaN_false_iff x).mpr (Or.inl he)
    rw [hn] at this
    exact Bool.noConfusion this
  · by_contra hf
    exact (Finite_iff_expo (inf false)).mp hf (by decide)
  · by_contra hf
    exact (Finite_iff_expo (inf true)).mp hf (by decide)

theorem Finite_spec_witness :
    Finite qNaN = 0 ∧ Finite (inf false) = 0 ∧ Finite (inf true) = 0 :=
  ⟨(Finite_spec qNaN).2.2.1 (by decide), (Finite_spec qNaN).2.2.2.1, (Finite_spec qNaN).2.2.2.2⟩

/-! ## The seed of `SquareRoot` -/

theorem sign_eq_zero_of_pos {x : float32_t} (h : flt zero x = true) : x.sign = 0 := by
  rw [flt_iff] at h
  have hk : zero.key = 0 := by decide
  rw [hk] at h
  by_contra hs
  have := h.2.2
  unfold key at this
  rw [if_neg hs] at this
  omega

theorem bits_ofHalves (h l : Nat) (hh : h < 65536) (hl : l < 65536) :
    (ofHalves h l).bits = h * 65536 + l := by
  unfold ofHalves ofBits
  simp only
  omega

theorem hi_ofHalves (h l : Nat) (hh : h < 65536) (hl : l < 65536) : (ofHalves h l).hi = h := by
  unfold hi
  rw [bits_ofHalves h l hh hl]
  omega

theorem lo_ofHalves (h l : Nat) (hh : h < 65536) (hl : l < 65536) : (ofHalves h l).lo = l := by
  unfold lo
  rw [bits_ofHalves h l hh hl]
  omega

/-- The seed statements of `SquareRoot` on a pattern with sign bit 0. -/
theorem SquareRoot_seed_of_sign_zero (value : float32_t) (hs : value.sign = 0) :
    value.hi + 0x3F80 < 65536 ∧
    (SquareRoot_seed value).hi = (value.hi + 0x3F80) >>> 1 ∧
    (SquareRoot_seed value).lo = value.lo ∧
    (SquareRoot_seed value).sign = 0 ∧
    (SquareRoot_seed value).expo = (value.expo + 127) / 2 := by
  have hb := value.bits_lt
  have hlo : value.lo < 65536 := Nat.mod_lt _ (by decide)
  have hs2 : value.bits / 2147483648 = 0 := hs
  have hhi : value.hi < 32768 := by unfold hi; omega
  have hu : u16 (value.hi + 0x3F80) = value.hi + 0x3F80 := by unfold u16; omega
  have hshift : (value.hi + 0x3F80) >>> 1 = (value.hi + 0x3F80) / 2 := by
    rw [Nat.shiftRight_eq_div_pow]
  have hseed : (SquareRoot_seed value).bits = (value.hi + 0x3F80) / 2 * 65536 + value.lo := by
    unfold SquareRoot_seed
    simp only [hu, hi_ofHalves _ _ (show value.hi + 0x3F80 < 65536 by omega) hlo,
      lo_ofHalves _ _ (show value.hi + 0x3F80 < 65536 by omega) hlo, hshift]
    rw [bits_ofHalves _ _ (by omega) hlo]
  have hE : value.expo = value.hi / 128 := by unfold expo hi; omega
  rw [hshift, hE]
  unfold hi lo sign expo
  rw [hseed]
  unfold hi lo at *
  refine ⟨by omega, by omega, by omega, by omega, by omega⟩

/-- C17: for every positive non-NaN `value` with upper half-word `h` and biased exponent
`E`, the seed step of `SquareRoot` computes the upper half-word `(h + 0x3F80) >> 1`
with `h + 0x3F80 < 2^16` (no wraparound), leaves the lower half-word unchanged, and the
seed has sign bit 0 and biased exponent `floor((E + 127) / 2)`. -/
theorem SquareRoot_seed_spec (value : float32_t) (hpos : flt zero value = true) :
    value.hi + 0x3F80 < 65536 ∧
    (SquareRoot_seed value).hi = (value.hi + 0x3F80) >>> 1 ∧
    (SquareRoot_seed value).lo = value.lo ∧
    (SquareRoot_seed value).sign = 0 ∧
    (SquareRoot_seed value).expo = (value.expo + 127) / 2 :=
  SquareRoot_seed_of_sign_zero value (sign_eq_zero_of_pos hpos)

theorem SquareRoot_seed_spec_witness :
    flt zero (ofBits 0x40800000) = true ∧
    (ofBits 0x40800000).hi + 0x3F80 < 65536 ∧
    (SquareRoot_seed (ofBits 0x40800000)).hi = ((ofBits 0x40800000).hi + 0x3F80) >>> 1 ∧
    (SquareRoot_seed (ofBits 0x40800000)).lo = (ofBits 0x40800000).lo ∧
    (SquareRoot_seed (ofBits 0x40800000)).sign = 0 ∧
    (SquareRoot_seed (ofBits 0x40800000)).expo = ((ofBits 0x40800000).expo + 127) / 2 :=
  ⟨by decide, SquareRoot_seed_spec (ofBits 0x40800000) (by decide)⟩

/-! ## The seed of `CubeRoot` -/

/-- Masking with a shifted constant selects the shifted field. -/
theorem and_shiftLeft_eq (a b k : Nat) : a &&& (b <<< k) = ((a >>> k) &&& b) <<< k := by
  apply Nat.eq_of_testBit_eq
  intro i
  simp only [Nat.testBit_and, Nat.testBit_shiftLeft, Nat.testBit_shiftRight]
  by_cases h : k ≤ i
  · have : k + (i - k) = i := by omega
    simp [h, this]
  · simp [h]

theorem and_ff00_eq (a : Nat) : a &&& 0xFF00 = ((a / 256) % 256) * 256 := by
  have h : a &&& 0xFF00 = ((a >>> 8) &&& 0xFF) <<< 8 := and_shiftLeft_eq a 0xFF 8
  have h2 : (a >>> 8) &&& 0xFF = (a >>> 8) % 256 := Nat.and_pow_two_sub_one_eq_mod (a >>> 8) 8
  rw [h, h2, Nat.shiftLeft_eq, Nat.shiftRight_eq_div_pow]

theorem and_8000_eq (a : Nat) : a &&& 0x8000 = ((a / 32768) % 2) * 32768 := by
  have h : a &&& 0x8000 = ((a >>> 15) &&& 1) <<< 15 := and_shiftLeft_eq a 1 15
  have h2 : (a >>> 15) &&& 1 = (a >>> 15) % 2 := Nat.and_pow_two_sub_one_eq_mod (a >>> 15) 1
  rw [h, h2, Nat.shiftLeft_eq, Nat.shiftRight_eq_div_pow]

theorem CubeRoot_hbyte_eq (value : float32_t) : CubeRoot_hbyte value = value.expo + 254 := by
  have hb := value.bits_lt
  have he : value.expo < 256 := Nat.mod_lt _ (by decide)
  have h1 : u16 ((value.hi <<< 1) &&& 0xFF00) = value.expo * 256 := by
    rw [and_ff00_eq, Nat.shiftLeft_eq]
    unfold u16 hi expo
    omega
  unfold CubeRoot_hbyte
  rw [h1, SwapWord_eq _ (by omega)]
  unfold u16
  omega

theorem CubeRoot_quotient_eq (value : float32_t) :
    CubeRoot_quotient value = (value.expo + 254) / 3 := by
  unfold CubeRoot_quotient
  rw [CubeRoot_hbyte_eq]

theorem CubeRoot_remainder_eq (value : float32_t) :
    CubeRoot_remainder value = (value.expo + 254) % 3 := by
  unfold CubeRoot_remainder
  rw [CubeRoot_quotient_eq, CubeRoot_hbyte_eq, Nat.shiftLeft_eq]
  unfold u16i
  omega

/-- The 32-bit pattern of the seed of `CubeRoot`. -/
theorem CubeRoot_seed_bits (value : float32_t) :
    (CubeRoot_seed value).bits = value.sign * 2147483648 + ((value.expo + 254) / 3) * 8388608
      + (if (value.expo + 254) % 3 = 2 then 0x689768
         else if (value.expo + 254) % 3 = 1 then 0x389BA2 else 0x1285FF) := by
  have hb := value.bits_lt
  have he : value.expo < 256 := Nat.mod_lt _ (by decide)
  have hq : (value.expo + 254) / 3 < 256 := by omega
  have hsw : SwapWord ((value.expo + 254) / 3) >>> 1 = ((value.expo + 254) / 3) * 128 := by
    rw [SwapWord_eq _ (by omega), Nat.shiftRight_eq_div_pow]
    omega
  have hsg : value.hi &&& 0x8000 = value.sign * 32768 := by
    rw [and_8000_eq]
    unfold hi sign
    omega
  have hs : value.sign < 2 := by unfold sign; omega
  unfold CubeRoot_seed
  simp only [CubeRoot_quotient_eq, CubeRoot_remainder_eq, hsw, hsg]
  unfold ofHalves ofBits u16
  split_ifs <;> simp only <;> omega

/-- The fields of a pattern assembled from a sign, an exponent and a mantissa. -/
theorem fields_of_bits (x : float32_t) (sg q m : Nat) (hq : q < 256)
    (hm : m < 8388608) (h : x.bits = sg * 2147483648 + q * 8388608 + m) :
    x.sign = sg ∧ x.expo = q ∧ x.mant = m := by
  unfold sign expo mant
  rw [h]
  refine ⟨by omega, by omega, by omega⟩

/-- C18: for every value (in particular every non-zero one, for which `CubeRoot` runs
the seed construction) with sign bit `s` and biased exponent `E`, the seed construction
computes `hbyte = E + 254`, `quotient = floor((E + 254) / 3)` and
`remainder = (E + 254) mod 3`, and the seed has `s` in bit 31, `quotient` in the exponent
field (no carry into the sign bit) and the 23 mantissa bits of the template selected
by the remainder (`0x3F9285FF` for 0, `0x3FB89BA2` for 1, `0x3FE89768` for 2). -/
theorem CubeRoot_seed_spec (value : float32_t) :
    CubeRoot_hbyte value = value.expo + 254 ∧
    CubeRoot_quotient value = (value.expo + 254) / 3 ∧
    CubeRoot_remainder value = (value.expo + 254) % 3 ∧
    CubeRoot_remainder value < 3 ∧
    (CubeRoot_seed value).sign = value.sign ∧
    (CubeRoot_seed value).expo = (value.expo + 254) / 3 ∧
    (CubeRoot_seed value).mant =
      (ofBits (if CubeRoot_remainder value = 0 then 0x3F9285FF
        else if CubeRoot_remainder value = 1 then 0x3FB89BA2 else 0x3FE89768)).mant ∧
    (feq value zero = false →
      CubeRoot value = CubeRoot_loop value 4 (CubeRoot_seed value)) := by
  have hb := value.bits_lt
  have he : value.expo < 256 := Nat.mod_lt _ (by decide)
  have hs : value.sign < 2 := by unfold sign; omega
  have hr := CubeRoot_remainder_eq value
  have hmlt : (if (value.expo + 254) % 3 = 2 then 0x689768
      else if (value.expo + 254) % 3 = 1 then 0x389BA2 else 0x1285FF) < 8388608 := by
    split_ifs <;> decide
  obtain ⟨h1, h2, h3⟩ := fields_of_bits (CubeRoot_seed value) _ _ _ (by omega) hmlt
    (CubeRoot_seed_bits value)
  refine ⟨CubeRoot_hbyte_eq value, CubeRoot_quotient_eq value, hr, by omega, h1, h2, ?_, ?_⟩
  · rw [h3, hr]
    have h3 : (value.expo + 254) % 3 < 3 := Nat.mod_lt _ (by decide)
    split_ifs <;> first | omega | decide
  · intro hnz
    unfold CubeRoot
    rw [hnz]
    rfl

/-! ## `ShellSort` on sorted sequences -/

/-- Adjacent elements in `<=` order give keys in order at any two positions. -/
theorem key_le_of_adjacent (arr : List float32_t)
    (hs : ∀ i (hi : i + 1 < arr.length), fle arr[i] arr[i + 1] = true) :
    ∀ p q, p ≤ q → q < arr.length → (arr.getD p zero).key ≤ (arr.getD q zero).key := by
  intro p q hpq
  induction q with
  | zero =>
    intro _
    have : p = 0 := by omega
    rw [this]
  | succ q ih =>
    intro hq
    by_cases hp : p = q + 1
    · rw [hp]
    · have h1 := ih (by omega) (by omega)
      have h2 : (arr.getD q zero).key ≤ (arr.getD (q + 1) zero).key := by
        rw [List.getD_eq_getElem _ _ (by omega), List.getD_eq_getElem _ _ hq]
        exact ((fle_iff _ _).mp (hs q hq)).2.2
      exact le_trans h1 h2

/-- The body of the `i` loop leaves the array as it is when `arr[i] < arr[i-gap]` is
false. -/
theorem ShellSort_insert_noop (gap : Nat) (arr : List float32_t) (i : Nat)
    (hi : gap ≤ i) (hlen : i < arr.length)
    (h : flt (arr.getD i zero) (arr.getD (i - gap) zero) = false) :
    ShellSort_insert (gap : Int) (i : Int) arr = some arr := by
  have hsub : (i : Int) - (gap : Int) = ((i - gap : Nat) : Int) := by omega
  unfold ShellSort_insert
  simp only [hsub, rd_cast arr i hlen, rd_cast arr (i - gap) (by omega), Option.some_bind, h,
    Bool.false_eq_true, if_false]
  rw [wr_cast arr i _ hlen, set_getD_self]

/-- `ShellSort` leaves an array as it is when no element is less than an earlier one. -/
theorem ShellSort_noop (arr : List float32_t) (h16 : arr.length ≤ 32767)
    (h : ∀ p q, p < q → q < arr.length →
      flt (arr.getD q zero) (arr.getD p zero) = false) :
    ShellSort arr (arr.length : Int) = some arr := by
  obtain ⟨out, h1, h2, _⟩ := ShellSort_rule arr.length h16 (fun a => a = arr) (fun _ => True)
    (fun gap a hg hgn hr => by
      subst hr
      obtain ⟨o, ho, hq⟩ := ShellSort_for_rule gap a.length h16 (fun b _ => b = a)
        (fun b i hb hgi hin => by
          subst hb
          exact ⟨b, ShellSort_insert_noop gap b i hgi hin (h (i - gap) i (by omega) hin), rfl⟩)
        (a.length - gap + 1) a gap (by omega) (le_refl _) (by omega) rfl
      exact ⟨o, ho, hq, fun _ => trivial⟩)
    arr rfl
  rw [h1, h2]

/-- C16: for every sequence that is already non-decreasing (`arr[i] <= arr[i+1]` for all
adjacent elements), with its number of elements (at most 32767) as length argument,
`ShellSort` returns and leaves every element unchanged; so it does for the empty
sequence with length 0. -/
theorem ShellSort_sorted_unchanged (arr : List float32_t) (h16 : arr.length ≤ 32767)
    (hs : ∀ i (hi : i + 1 < arr.length), fle arr[i] arr[i + 1] = true) :
    ShellSort arr (arr.length : Int) = some arr ∧ ShellSort [] 0 = some [] := by
  refine ⟨ShellSort_noop arr h16 ?_, by decide⟩
  intro p q hpq hq
  have hk := key_le_of_adjacent arr hs p q (by omega) hq
  cases hlt : flt (arr.getD q zero) (arr.getD p zero)
  · rfl
  · have := ((flt_iff _ _).mp hlt).2.2
    omega

set_option maxRecDepth 100000 in
theorem ShellSort_sorted_unchanged_witness :
    (∀ i (hi : i + 1 < [ofBits 0xBF800000, ofBits 0x80000000, zero, ofBits 0x3F800000].length),
      fle [ofBits 0xBF800000, ofBits 0x80000000, zero, ofBits 0x3F800000][i]
        [ofBits 0xBF800000, ofBits 0x80000000, zero, ofBits 0x3F800000][i + 1] = true) ∧
    ShellSort [ofBits 0xBF800000, ofBits 0x80000000, zero, ofBits 0x3F800000]
        (([ofBits 0xBF800000, ofBits 0x80000000, zero, ofBits 0x3F800000].length : Nat) : Int)
      = some [ofBits 0xBF800000, ofBits 0x80000000, zero, ofBits 0x3F800000] ∧
    ShellSort [] 0 = some [] :=
  have hs : ∀ i (hi : i + 1 < [ofBits 0xBF800000, ofBits 0x80000000, zero,
      ofBits 0x3F800000].length),
      fle [ofBits 0xBF800000, ofBits 0x80000000, zero, ofBits 0x3F800000][i]
        [ofBits 0xBF800000, ofBits 0x80000000, zero, ofBits 0x3F800000][i + 1] = true := by
    intro i hi
    match i, hi with
    | 0, _ => simp only [List.getElem_cons_zero, List.getElem_cons_succ]; decide
    | 1, _ => simp only [List.getElem_cons_zero, List.getElem_cons_succ]; decide
    | 2, _ => simp only [List.getElem_cons_zero, List.getElem_cons_succ]; decide
    | n + 3, h => exact absurd h (by simp)
  ⟨hs, ShellSort_sorted_unchanged
    [ofBits 0xBF800000, ofBits 0x80000000, zero, ofBits 0x3F800000] (by decide) hs⟩

/-! ## `ShellSort`: idempotence and memory safety -/

/-- With NaN-free contents `ShellSort` returns a permutation whose keys are in
non-decreasing order. -/
theorem ShellSort_ascending (arr : List float32_t) (h : arr.length ≤ 32767)
    (hn : ∀ x ∈ arr, x.isNaN = false) :
    ∃ out, ShellSort arr (arr.length : Int) = some out ∧ out.Perm arr ∧
      (2 ≤ arr.length → AscendingUpTo out arr.length) := by
  exact ShellSort_rule arr.length h (fun a => a.Perm arr)
    (fun a => AscendingUpTo a arr.length)
    (fun gap a hg hgn hr => by
      have hl : a.length = arr.length := hr.length_eq
      by_cases hg1 : gap = 1
      · subst hg1
        obtain ⟨o, ho, hp, hs⟩ := ShellSort_for_sorted a (by omega) (by omega)
          (fun x hx => hn x (hr.mem_iff.mp hx))
        rw [hl] at ho hs
        exact ⟨o, ho, hp.trans hr, fun _ => hs⟩
      · obtain ⟨o, ho, hp⟩ := ShellSort_for_perm gap hg a (by omega) (by omega)
        rw [hl] at ho
        exact ⟨o, ho, hp.trans hr, fun h => absurd h hg1⟩)
    arr (List.Perm.refl _)

/-- C15 (as stated, refuted): `ShellSort` maps `[2.0f, 1.0f, NaN, 1.0f]` to
`[1.0f, 2.0f, NaN, 1.0f]`, and maps that to `[1.0f, 1.0f, NaN, 2.0f]`: the second
application changes the sequence. -/
theorem ShellSort_idempotent_counterexample :
    ShellSort [ofBits 0x40000000, ofBits 0x3F800000, qNaN, ofBits 0x3F800000] 4
      = some [ofBits 0x3F800000, ofBits 0x40000000, qNaN, ofBits 0x3F800000] ∧
    ShellSort [ofBits 0x3F800000, ofBits 0x40000000, qNaN, ofBits 0x3F800000] 4
      = some [ofBits 0x3F800000, ofBits 0x3F800000, qNaN, ofBits 0x40000000] ∧
    [ofBits 0x3F800000, ofBits 0x3F800000, qNaN, ofBits 0x40000000]
      ≠ [ofBits 0x3F800000, ofBits 0x40000000, qNaN, ofBits 0x3F800000] := by
  decide

/-- C15 (amended): for every sequence of non-NaN `float32_t` values and length equal to
its element count (at most 32767), `ShellSort` returns, and applying `ShellSort` to its
result returns that result again, element by element. -/
theorem ShellSort_idempotent (arr : List float32_t) (h : arr.length ≤ 32767)
    (hn : ∀ x ∈ arr, x.isNaN = false) :
    ∃ out, ShellSort arr (arr.length : Int) = some out ∧
      ShellSort out (out.length : Int) = some out := by
  obtain ⟨out, h1, h2, h3⟩ := ShellSort_ascending arr h hn
  have hl : out.length = arr.length := h2.length_eq
  refine ⟨out, h1, ShellSort_noop out (by omega) ?_⟩
  intro p q hpq hq
  have hk := h3 (by omega) p q hpq (by omega)
  cases hlt : flt (out.getD q zero) (out.getD p zero)
  · rfl
  · have := ((flt_iff _ _).mp hlt).2.2
    omega

set_option maxRecDepth 100000 in
theorem ShellSort_idempotent_witness :
    ([ofBits 0x40400000, zero, ofBits 0xBF800000, ofBits 0x40000000, zero].length ≤ 32767) ∧
    (∀ x ∈ [ofBits 0x40400000, zero, ofBits 0xBF800000, ofBits 0x40000000, zero],
      x.isNaN = false) ∧
    ∃ out, ShellSort [ofBits 0x40400000, zero, ofBits 0xBF800000, ofBits 0x40000000, zero]
        (([ofBits 0x40400000, zero, ofBits 0xBF800000, ofBits 0x40000000, zero].length : Nat) : Int)
          = some out ∧
      ShellSort out (out.length : Int) = some out :=
  ⟨by decide, by decide,
    ShellSort_idempotent [ofBits 0x40400000, zero, ofBits 0xBF800000, ofBits 0x40000000, zero]
      (by decide) (by decide)⟩

/-- Called with the number of elements of the array, `ShellSort` returns (no access
outside the array, every loop is left) a permutation of the array. -/
theorem ShellSort_returns_perm (arr : List float32_t) (h : arr.length ≤ 32767) :
    ∃ out, ShellSort arr (arr.length : Int) = some out ∧ out.Perm arr := by
  obtain ⟨out, h1, h2, _⟩ := ShellSort_rule arr.length h (fun a => a.Perm arr) (fun _ => True)
    (fun gap a hg hgn hr => by
      have hl : a.length = arr.length := hr.length_eq
      obtain ⟨o, ho, hp⟩ := ShellSort_for_perm gap hg a (by omega) (by omega)
      rw [hl] at ho
      exact ⟨o, ho, hp.trans hr, fun _ => trivial⟩)
    arr (List.Perm.refl _)
  exact ⟨out, h1, h2⟩

/-- C19: for every array of at least `length` elements and every `length` in `0..32767`,
`ShellSort` run on the array object made of the first `length` elements returns: no
read or write (`arr[j]`, `arr[j-gap]`, `arr[i]`) has an index outside `0 <= index <
length`, in particular none is negative; for a negative `length` no element is
accessed at all (the run on the empty object returns). -/
theorem ShellSort_in_bounds (arr : List float32_t) (length : Int)
    (hlo : -32768 ≤ length) (hhi : length ≤ 32767) (hlen : length.toNat ≤ arr.length) :
    ∃ out, ShellSort (arr.take length.toNat) length = some out := by
  by_cases hneg : length < 0
  · obtain ⟨k, hk⟩ : ∃ k : Nat, length = -(k : Int) := ⟨length.natAbs, by omega⟩
    have ht : length.toNat = 0 := by omega
    have hdiv : length.tdiv 2 = -((k / 2 : Nat) : Int) := by
      rw [hk, Int.neg_tdiv]
      rfl
    have hg : ¬ (i16 (length.tdiv 2) > 0) := by
      rw [hdiv]
      unfold i16
      omega
    refine ⟨[], ?_⟩
    rw [ht]
    unfold ShellSort ShellSort_gaps
    rw [if_neg hg]
    rfl
  · have hl : ((arr.take length.toNat).length : Int) = length := by
      rw [List.length_take]
      omega
    obtain ⟨out, h1, _⟩ := ShellSort_returns_perm (arr.take length.toNat)
      (by rw [List.length_take]; omega)
    rw [hl] at h1
    exact ⟨out, h1⟩

theorem ShellSort_in_bounds_witness :
    ((-32768 : Int) ≤ 3) ∧ ((3 : Int) ≤ 32767) ∧
    ((3 : Int).toNat ≤ [ofBits 0x40400000, qNaN, zero, ofBits 0x3F800000].length) ∧
    ∃ out, ShellSort ([ofBits 0x40400000, qNaN, zero, ofBits 0x3F800000].take (3 : Int).toNat) 3
      = some out :=
  ⟨by decide, by decide, by decide,
    ShellSort_in_bounds [ofBits 0x40400000, qNaN, zero, ofBits 0x3F800000] 3
      (by decide) (by decide) (by decide)⟩

/-! ## Rounding: the value of `roundNearestEven` -/

namespace float32_t

/-- The shift found by `binade`. -/
theorem binade_spec (fuel : Nat) : ∀ (j0 q : Nat),
    j0 ≤ binade fuel j0 q ∧ binade fuel j0 q ≤ j0 + fuel ∧
    (binade fuel j0 q < j0 + fuel → q < 2 ^ (binade fuel j0 q + 24)) ∧
    (j0 < binade fuel j0 q → 2 ^ (binade fuel j0 q + 23) ≤ q) := by
  induction fuel with
  | zero =>
    intro j0 q
    have e : binade 0 j0 q = j0 := rfl
    rw [e]
    refine ⟨le_refl _, le_refl _, fun h => ?_, fun h => ?_⟩
    · exact absurd h (by omega)
    · exact absurd h (by omega)
  | succ fuel ih =>
    intro j0 q
    have e : binade (fuel + 1) j0 q
        = if q < 2 ^ (j0 + 24) then j0 else binade fuel (j0 + 1) q := rfl
    rw [e]
    by_cases hq : q < 2 ^ (j0 + 24)
    · rw [if_pos hq]
      exact ⟨le_refl _, by omega, fun _ => hq, fun h => absurd h (Nat.lt_irrefl _)⟩
    · rw [if_neg hq]
      obtain ⟨h1, h2, h3, h4⟩ := ih (j0 + 1) q
      refine ⟨by omega, by omega, fun h => h3 (by omega), fun _ => ?_⟩
      by_cases hj : binade fuel (j0 + 1) q = j0 + 1
      · rw [hj]
        have : j0 + 1 + 23 = j0 + 24 := by omega
        rw [this]
        omega
      · exact h4 (by omega)

/-- Magnitude, sign and exponent range of the pattern with shift `j` and significand `m1`. -/
theorem units_of_pattern (x : float32_t) (sg j m1 : Nat) (hj : j ≤ 252)
    (hm : m1 ≤ 16777216) (hlow : j = 0 ∨ 8388608 ≤ m1)
    (hx : x.bits = sg * 2147483648 + (j * 8388608 + m1)) :
    x.units = m1 * 2 ^ j ∧ x.sign = sg ∧ x.expo ≤ 254 := by
  rcases Nat.lt_or_ge m1 8388608 with h1 | h1
  · have hj0 : j = 0 := by omega
    subst hj0
    obtain ⟨hs, he, hmt⟩ := fields_of_bits x sg 0 m1 (by omega) h1 (by omega)
    refine ⟨?_, hs, by omega⟩
    unfold units
    rw [if_pos he, hmt]
    simp
  · rcases Nat.lt_or_ge m1 16777216 with h2 | h2
    · obtain ⟨hs, he, hmt⟩ := fields_of_bits x sg (j + 1) (m1 - 8388608) (by omega) (by omega)
        (by omega)
      refine ⟨?_, hs, by omega⟩
      unfold units
      rw [if_neg (by omega), he, hmt]
      have : 8388608 + (m1 - 8388608) = m1 := by omega
      rw [this]
      rfl
    · have hm1 : m1 = 16777216 := by omega
      subst hm1
      obtain ⟨hs, he, hmt⟩ := fields_of_bits x sg (j + 2) 0 (by omega) (by omega) (by omega)
      refine ⟨?_, hs, by omega⟩
      unfold units
      rw [if_neg (by omega), he, hmt]
      have : j + 2 - 1 = j + 1 := by omega
      rw [this, Nat.pow_succ]
      ring

set_option exponentiation.threshold 1024 in
/-- The pattern returned by `roundNearestEven` when the quotient is below `2^276` units:
its sign, and its magnitude `m1 * 2^j` with `m1` an integer nearest to `n / (d * 2^j)`. -/
theorem roundNearestEven_spec (neg : Bool) (n d : Nat) (hd : 0 < d) (hhi : n < 2 ^ 276 * d) :
    ∃ j m1 : Nat,
      (roundNearestEven neg n d).units = m1 * 2 ^ j ∧
      (roundNearestEven neg n d).sign = (if neg then 1 else 0) ∧
      (roundNearestEven neg n d).expo ≤ 254 ∧
      (n ≤ m1 * (d * 2 ^ j) → 2 * (m1 * (d * 2 ^ j) - n) ≤ d * 2 ^ j) ∧
      (m1 * (d * 2 ^ j) ≤ n → 2 * (n - m1 * (d * 2 ^ j)) ≤ d * 2 ^ j) ∧
      (j = 0 ∨ 2 ^ (j + 23) * d ≤ n) := by
  obtain ⟨_, hb2, hb3, hb4⟩ := binade_spec 255 0 (n / d)
  generalize hjdef : binade 255 0 (n / d) = j at hb2 hb3 hb4
  have hq276 : n / d < 2 ^ 276 := by
    rw [Nat.div_lt_iff_lt_mul hd]; exact hhi
  have hj252 : j ≤ 252 := by
    by_contra hc
    have h1 := hb4 (by omega)
    have h2 : 2 ^ 276 ≤ 2 ^ (j + 23) := Nat.pow_le_pow_right (by decide) (by omega)
    omega
  have hqlt : n / d < 2 ^ (j + 24) := hb3 (by omega)
  have hden : 0 < d * 2 ^ j := Nat.mul_pos hd (Nat.two_pow_pos j)
  have hnlt : n < 16777216 * (d * 2 ^ j) := by
    have h1 : n < 2 ^ (j + 24) * d := (Nat.div_lt_iff_lt_mul hd).mp hqlt
    have h2 : 2 ^ (j + 24) * d = 16777216 * (d * 2 ^ j) := by
      rw [Nat.pow_add]; ring
    omega
  have hlowN : j = 0 ∨ 2 ^ (j + 23) * d ≤ n := by
    rcases Nat.eq_zero_or_pos j with h0 | h0
    · exact Or.inl h0
    · right
      have h1 := hb4 h0
      exact (Nat.le_div_iff_mul_le hd).mp h1
  have hm_lt : n / (d * 2 ^ j) < 16777216 := by
    rw [Nat.div_lt_iff_lt_mul hden]; exact hnlt
  have hm_ge : j = 0 ∨ 8388608 ≤ n / (d * 2 ^ j) := by
    rcases hlowN with h0 | h0
    · exact Or.inl h0
    · right
      rw [Nat.le_div_iff_mul_le hden]
      have h2 : 2 ^ (j + 23) * d = 8388608 * (d * 2 ^ j) := by
        rw [Nat.pow_add]; ring
      omega
  have hdm := Nat.div_add_mod n (d * 2 ^ j)
  have hmod := Nat.mod_lt n hden
  generalize hmdef : n / (d * 2 ^ j) = m at hm_lt hm_ge hdm
  generalize hrdef : n % (d * 2 ^ j) = r at hdm hmod
  -- the rounded significand
  have key : ∀ m1 : Nat, (m1 = m ∧ 2 * r ≤ d * 2 ^ j) ∨ (m1 = m + 1 ∧ d * 2 ^ j ≤ 2 * r) →
      (roundNearestEven neg n d).bits
        = (if neg then 1 else 0) * 2147483648 + (j * 8388608 + m1) →
      ∃ j m1 : Nat,
      (roundNearestEven neg n d).units = m1 * 2 ^ j ∧
      (roundNearestEven neg n d).sign = (if neg then 1 else 0) ∧
      (roundNearestEven neg n d).expo ≤ 254 ∧
      (n ≤ m1 * (d * 2 ^ j) → 2 * (m1 * (d * 2 ^ j) - n) ≤ d * 2 ^ j) ∧
      (m1 * (d * 2 ^ j) ≤ n → 2 * (n - m1 * (d * 2 ^ j)) ≤ d * 2 ^ j) ∧
      (j = 0 ∨ 2 ^ (j + 23) * d ≤ n) := by
    intro m1 hm1 hbits
    obtain ⟨hu, hs, he⟩ := units_of_pattern _ _ j m1 hj252
      (by rcases hm1 with ⟨h, _⟩ | ⟨h, _⟩ <;> omega)
      (by rcases hm_ge with h | h
          · exact Or.inl h
          · right; rcases hm1 with ⟨h', _⟩ | ⟨h', _⟩ <;> omega) hbits
    refine ⟨j, m1, hu, hs, he, ?_, ?_, hlowN⟩
    · intro _
      rcases hm1 with ⟨h, h2⟩ | ⟨h, h2⟩
      · subst h
        have : m1 * (d * 2 ^ j) - n = 0 := by
          have : m1 * (d * 2 ^ j) ≤ n := by
            rw [← hdm, Nat.mul_comm]; omega
          omega
        omega
      · subst h
        have h3 : (m + 1) * (d * 2 ^ j) = d * 2 ^ j * m + d * 2 ^ j := by ring
        omega
    · intro _
      rcases hm1 with ⟨h, h2⟩ | ⟨h, h2⟩
      · subst h
        have h3 : m1 * (d * 2 ^ j) = d * 2 ^ j * m1 := by ring
        omega
      · subst h
        have h3 : (m + 1) * (d * 2 ^ j) = d * 2 ^ j * m + d * 2 ^ j := by ring
        omega
  have hbitsof : ∀ m1 : Nat, m1 ≤ 16777216 →
      (ofBits ((if neg then 2147483648 else 0) + (j * 8388608 + m1))).bits
        = (if neg then 1 else 0) * 2147483648 + (j * 8388608 + m1) := by
    intro m1 hm1
    unfold ofBits
    simp only
    cases neg <;> simp <;> omega
  have hround : ∃ m1 : Nat, ((m1 = m ∧ 2 * r ≤ d * 2 ^ j) ∨ (m1 = m + 1 ∧ d * 2 ^ j ≤ 2 * r)) ∧
      roundNearestEven neg n d
        = ofBits ((if neg then 2147483648 else 0) + (j * 8388608 + m1)) := by
    unfold roundNearestEven
    simp only [hjdef, hmdef, hrdef]
    by_cases hup : d * 2 ^ j < 2 * r ∨ (2 * r = d * 2 ^ j ∧ m % 2 = 1)
    · rw [if_pos hup]
      have hmag : ¬ (0x7F800000 ≤ j * 8388608 + (m + 1)) := by omega
      rw [if_neg hmag]
      exact ⟨m + 1, Or.inr ⟨rfl, by rcases hup with h | h <;> omega⟩, rfl⟩
    · rw [if_neg hup]
      have hmag : ¬ (0x7F800000 ≤ j * 8388608 + m) := by omega
      rw [if_neg hmag]
      exact ⟨m, Or.inl ⟨rfl, by
        by_contra hc
        exact hup (Or.inl (by omega))⟩, rfl⟩
  obtain ⟨m1, hm1, hval⟩ := hround
  have hm1le : m1 ≤ 16777216 := by rcases hm1 with ⟨h, _⟩ | ⟨h, _⟩ <;> omega
  exact key m1 hm1 (by rw [hval]; exact hbitsof m1 hm1le)


set_option exponentiation.threshold 1024 in
/-- Error of `roundNearestEven`, with the magnitudes read as real numbers: half a unit
in the last place, which is at most the fraction `2^-24` of the quotient plus half a
unit of `2^-149`, and at most the fraction `2^-24` of the quotient when the quotient is
in the normal range. -/
theorem roundNearestEven_error (neg : Bool) (n d : Nat) (hd : 0 < d)
    (hhi : n < 2 ^ 276 * d) :
    (roundNearestEven neg n d).sign = (if neg then 1 else 0) ∧
    (roundNearestEven neg n d).expo ≤ 254 ∧
    |((roundNearestEven neg n d).units : ℝ) - (n : ℝ) / d| ≤ (n : ℝ) / d / 2 ^ 24 + 1 / 2 ∧
    (8388608 * d ≤ n →
      |((roundNearestEven neg n d).units : ℝ) - (n : ℝ) / d| ≤ (n : ℝ) / d / 2 ^ 24) := by
  obtain ⟨j, m1, hu, hs, he, h1, h2, h3⟩ := roundNearestEven_spec neg n d hd hhi
  refine ⟨hs, he, ?_⟩
  clear hhi
  have hdR : (0 : ℝ) < d := by exact_mod_cast hd
  have hpow : (0 : ℝ) < 2 ^ j := by positivity
  have hq0 : (0 : ℝ) ≤ (n : ℝ) / d := by positivity
  -- the error is at most half a unit in the last place
  have herr : |((roundNearestEven neg n d).units : ℝ) - (n : ℝ) / d| ≤ 2 ^ j / 2 := by
    rw [hu]
    push_cast
    have hrew : (m1 : ℝ) * 2 ^ j - (n : ℝ) / d = ((m1 : ℝ) * (d * 2 ^ j) - n) / d := by
      field_simp
      ring
    have hhalf : (2 : ℝ) ^ j / 2 * d = (d * 2 ^ j) / 2 := by ring
    rw [hrew, abs_div, abs_of_pos hdR, div_le_iff₀ hdR]
    rcases Nat.le_total n (m1 * (d * 2 ^ j)) with hle | hle
    · have h := h1 hle
      have hsub : ((m1 * (d * 2 ^ j) - n : Nat) : ℝ) = (m1 : ℝ) * (d * 2 ^ j) - n := by
        rw [Nat.cast_sub hle]; push_cast; ring
      have hR : (2 : ℝ) * ((m1 : ℝ) * (d * 2 ^ j) - n) ≤ d * 2 ^ j := by
        rw [← hsub]; exact_mod_cast h
      have hnn : (0 : ℝ) ≤ (m1 : ℝ) * (d * 2 ^ j) - n := by
        rw [← hsub]; positivity
      rw [abs_of_nonneg hnn, hhalf]
      linarith
    · have h := h2 hle
      have hsub : ((n - m1 * (d * 2 ^ j) : Nat) : ℝ) = (n : ℝ) - (m1 : ℝ) * (d * 2 ^ j) := by
        rw [Nat.cast_sub hle]; push_cast; ring
      have hR : (2 : ℝ) * ((n : ℝ) - (m1 : ℝ) * (d * 2 ^ j)) ≤ d * 2 ^ j := by
        rw [← hsub]; exact_mod_cast h
      have hnn : (m1 : ℝ) * (d * 2 ^ j) - n ≤ 0 := by
        have : (0 : ℝ) ≤ (n : ℝ) - (m1 : ℝ) * (d * 2 ^ j) := by rw [← hsub]; positivity
        linarith
      rw [abs_of_nonpos hnn, hhalf]
      linarith
  -- for a positive shift the quotient is at least `2^(j+23)`
  have hrel : j ≠ 0 → (2 : ℝ) ^ j / 2 ≤ (n : ℝ) / d / 2 ^ 24 := by
    intro hj
    rcases h3 with h0 | h0
    · exact absurd h0 hj
    · have hR : (2 : ℝ) ^ (j + 23) * d ≤ n := by exact_mod_cast h0
      have hq : (2 : ℝ) ^ (j + 23) ≤ (n : ℝ) / d := by
        rw [le_div_iff₀ hdR]; exact hR
      have hsplit : (2 : ℝ) ^ (j + 23) = 2 ^ j * 8388608 := by
        rw [pow_add]; norm_num
      rw [hsplit] at hq
      rw [le_div_iff₀ (by positivity)]
      have hh : (2 : ℝ) ^ j / 2 * 2 ^ 24 = 2 ^ j * 8388608 := by ring
      rw [hh]
      exact hq
  constructor
  · by_cases hj : j = 0
    · subst hj
      have h12 : (2 : ℝ) ^ 0 / 2 = 1 / 2 := by norm_num
      rw [h12] at herr
      have : (0 : ℝ) ≤ (n : ℝ) / d / 2 ^ 24 := by positivity
      linarith
    · have := hrel hj
      linarith
  · intro hnorm
    by_cases hj : j = 0
    · subst hj
      have h12 : (2 : ℝ) ^ 0 / 2 = 1 / 2 := by norm_num
      rw [h12] at herr
      have hR : (8388608 : ℝ) * d ≤ n := by exact_mod_cast hnorm
      have hq : (8388608 : ℝ) ≤ (n : ℝ) / d := by
        rw [le_div_iff₀ hdR]; exact hR
      have : (1 : ℝ) / 2 ≤ (n : ℝ) / d / 2 ^ 24 := by
        rw [le_div_iff₀ (by positivity)]
        norm_num
        linarith
      linarith
    · exact le_trans herr (hrel hj)

theorem not_special_of_expo (x : float32_t) (h : x.expo ≤ 254) :
    x.isNaN = false ∧ x.isInf = false := by
  unfold isNaN isInf
  have : (x.expo == 255) = false := by
    rw [beq_eq_false_iff_ne]; omega
  rw [this]
  simp

/-- Division of finite values by a non-zero finite value rounds the exact quotient. -/
theorem fdiv_eq_round (a b : float32_t) (ha : a.expo ≤ 254) (hb : b.expo ≤ 254)
    (hbu : b.units ≠ 0) :
    fdiv a b = roundNearestEven (a.sign != b.sign) (a.units * 2 ^ 149) b.units := by
  unfold fdiv
  simp only [(not_special_of_expo a ha).1, (not_special_of_expo a ha).2,
    (not_special_of_expo b hb).1, (not_special_of_expo b hb).2, Bool.or_self,
    Bool.false_eq_true, if_false, if_neg hbu]

/-- Multiplication of finite values rounds the exact product. -/
theorem fmul_eq_round (a b : float32_t) (ha : a.expo ≤ 254) (hb : b.expo ≤ 254) :
    fmul a b = roundNearestEven (a.sign != b.sign) (a.units * b.units) (2 ^ 149) := by
  unfold fmul
  simp only [(not_special_of_expo a ha).1, (not_special_of_expo a ha).2,
    (not_special_of_expo b hb).1, (not_special_of_expo b hb).2, Bool.or_self,
    Bool.false_eq_true, if_false]

theorem sign_lt_two (x : float32_t) : x.sign < 2 := by
  have := x.bits_lt
  unfold sign
  omega

/-- Addition of finite values of the same sign rounds the exact sum. -/
theorem fadd_eq_round (a b : float32_t) (ha : a.expo ≤ 254) (hb : b.expo ≤ 254)
    (hs : a.sign = b.sign) (hne : a.units + b.units ≠ 0) :
    fadd a b = roundNearestEven (a.sign != 0) (a.units + b.units) 1 := by
  have h2 := sign_lt_two a
  unfold fadd
  simp only [(not_special_of_expo a ha).1, (not_special_of_expo a ha).2,
    (not_special_of_expo b hb).1, (not_special_of_expo b hb).2, Bool.or_self,
    Bool.false_eq_true, if_false, ← hs]
  by_cases h0 : a.sign = 0
  · simp only [h0, if_true]
    have hs0 : ((a.units : Int) + (b.units : Int) = 0) = False := by
      apply eq_false; omega
    have hneg : decide ((a.units : Int) + (b.units : Int) < 0) = false := by
      rw [decide_eq_false_iff_not]; omega
    have hab : ((a.units : Int) + (b.units : Int)).natAbs = a.units + b.units := by omega
    simp only [hs0, if_false, hneg, hab]
    rfl
  · simp only [h0, if_false]
    have hs0 : (-(a.units : Int) + -(b.units : Int) = 0) = False := by
      apply eq_false; omega
    have hneg : decide (-(a.units : Int) + -(b.units : Int) < 0) = true := by
      rw [decide_eq_true_iff]; omega
    have hab : (-(a.units : Int) + -(b.units : Int)).natAbs = a.units + b.units := by omega
    have hbne : (a.sign != 0) = true := by
      rw [bne_iff_ne]; exact h0
    simp only [hs0, if_false, hneg, hab, hbne]

end float32_t

/-! ## `SquareRoot`: one pass of the refinement loop -/

/-- The statement `hi(xn) -= 0x80` halves a normal value of exponent field at least 2. -/
theorem halve_spec (x : float32_t) (h2 : 2 ≤ x.expo) :
    (ofHalves (u16 (x.hi + 65536 - 0x80)) x.lo).sign = x.sign ∧
    (ofHalves (u16 (x.hi + 65536 - 0x80)) x.lo).expo = x.expo - 1 ∧
    2 * (ofHalves (u16 (x.hi + 65536 - 0x80)) x.lo).units = x.units := by
  have hb := x.bits_lt
  have he : x.expo < 256 := Nat.mod_lt _ (by decide)
  have hm : x.mant < 8388608 := Nat.mod_lt _ (by decide)
  have hlo : x.lo < 65536 := Nat.mod_lt _ (by decide)
  have hbits : x.bits = x.sign * 2147483648 + x.expo * 8388608 + x.mant := by
    unfold sign expo mant; omega
  have hhi : x.hi = x.sign * 32768 + x.expo * 128 + x.mant / 65536 := by
    unfold hi; omega
  have hlo2 : x.lo = x.mant % 65536 := by unfold lo; omega
  have hs := sign_lt_two x
  have hu : u16 (x.hi + 65536 - 0x80) = x.hi - 128 := by unfold u16; omega
  have hnew : (ofHalves (u16 (x.hi + 65536 - 0x80)) x.lo).bits
      = x.sign * 2147483648 + (x.expo - 1) * 8388608 + x.mant := by
    rw [hu, bits_ofHalves _ _ (by omega) hlo]
    omega
  obtain ⟨f1, f2, f3⟩ := fields_of_bits _ _ _ _ (by omega) hm hnew
  refine ⟨f1, f2, ?_⟩
  unfold units
  rw [f2, f3, if_neg (by omega), if_neg (by omega)]
  have : x.expo - 1 = (x.expo - 1 - 1) + 1 := by omega
  conv_rhs => rw [this, Nat.pow_succ]
  ring

theorem expo_ge_two_of_units (z : float32_t) (h : 16777216 ≤ z.units) : 2 ≤ z.expo := by
  have hm : z.mant < 8388608 := Nat.mod_lt _ (by decide)
  by_contra hc
  unfold units at h
  by_cases h0 : z.expo = 0
  · rw [if_pos h0] at h; omega
  · rw [if_neg h0] at h
    have h1 : z.expo = 1 := by omega
    rw [h1] at h
    simp at h
    omega

/-- Newton's map for the square root on `[a s, b s]`: the exact image lies in
`[2 s, 2 c s]` when `c` bounds `(t + 1/t) / 2` at both ends. -/
theorem newton_sqrt_bound (s X a b c : ℝ) (hs : 0 < s) (ha : 0 < a)
    (hb1 : 1 ≤ b) (hXa : a * s ≤ X) (hXb : X ≤ b * s)
    (hca : a * a + 1 ≤ 2 * c * a) (hcb : b * b + 1 ≤ 2 * c * b) :
    2 * s ≤ X + s ^ 2 / X ∧ X + s ^ 2 / X ≤ 2 * c * s := by
  have hX : 0 < X := lt_of_lt_of_le (mul_pos ha hs) hXa
  have hsum : X + s ^ 2 / X = (X ^ 2 + s ^ 2) / X := by
    field_simp
    ring
  rw [hsum, le_div_iff₀ hX, div_le_iff₀ hX]
  constructor
  · nlinarith [sq_nonneg (X - s)]
  · rcases le_total X s with h | h
    · have h1 : 0 ≤ (s - a * X) * (X - a * s) :=
        mul_nonneg (by nlinarith) (by linarith)
      have h2 : a * (X ^ 2 + s ^ 2) ≤ (a * a + 1) * (s * X) := by nlinarith
      have h3 : (a * a + 1) * (s * X) ≤ 2 * c * a * (s * X) :=
        mul_le_mul_of_nonneg_right hca (by positivity)
      have h4 : a * (X ^ 2 + s ^ 2) ≤ a * (2 * c * s * X) := by nlinarith
      exact le_of_mul_le_mul_left h4 ha
    · have hb : 0 < b := by linarith
      have h1 : 0 ≤ (b * X - s) * (b * s - X) :=
        mul_nonneg (by nlinarith) (by linarith)
      have h2 : b * (X ^ 2 + s ^ 2) ≤ (b * b + 1) * (s * X) := by nlinarith
      have h3 : (b * b + 1) * (s * X) ≤ 2 * c * b * (s * X) :=
        mul_le_mul_of_nonneg_right hcb (by positivity)
      have h4 : b * (X ^ 2 + s ^ 2) ≤ b * (2 * c * s * X) := by nlinarith
      exact le_of_mul_le_mul_left h4 hb

/-- One pass with rounding: from `X` in `[a s, b s]`, a quotient `Y` and a sum `Z` each
within the fraction `2^-24` of the exact value, `Z / 2` lies in
`[(1 - 2^-24)^2 s, (1 + 2^-24)^2 c s]`. -/
theorem newton_sqrt_rounded (s X Y Z a b c : ℝ) (hs : 0 < s) (ha : 0 < a)
    (hb1 : 1 ≤ b) (hXa : a * s ≤ X) (hXb : X ≤ b * s)
    (hca : a * a + 1 ≤ 2 * c * a) (hcb : b * b + 1 ≤ 2 * c * b)
    (hY : |Y - s ^ 2 / X| ≤ s ^ 2 / X / 2 ^ 24)
    (hZ : |Z - (X + Y)| ≤ (X + Y) / 2 ^ 24) :
    (1 - 1 / 2 ^ 24) ^ 2 * s ≤ Z / 2 ∧ Z / 2 ≤ (1 + 1 / 2 ^ 24) ^ 2 * c * s := by
  obtain ⟨h1, h2⟩ := newton_sqrt_bound s X a b c hs ha hb1 hXa hXb hca hcb
  have hX : 0 < X := lt_of_lt_of_le (mul_pos ha hs) hXa
  have hq : 0 < s ^ 2 / X := by positivity
  rw [abs_le] at hY hZ
  obtain ⟨hY1, hY2⟩ := hY
  obtain ⟨hZ1, hZ2⟩ := hZ
  generalize s ^ 2 / X = q at *
  have hd : (0 : ℝ) < 1 / 2 ^ 24 := by positivity
  have hd1 : (1 : ℝ) / 2 ^ 24 < 1 := by norm_num
  generalize hδ : (1 : ℝ) / 2 ^ 24 = δ at *
  have e1 : q / 2 ^ 24 = δ * q := by rw [← hδ]; ring
  have e2 : (X + Y) / 2 ^ 24 = δ * (X + Y) := by rw [← hδ]; ring
  rw [e1] at hY1 hY2
  rw [e2] at hZ1 hZ2
  have hδX : 0 ≤ δ * X := by positivity
  have hδq : 0 ≤ δ * q := by positivity
  have hA1 : (1 - δ) * (X + q) ≤ X + Y := by linarith
  have hA2 : X + Y ≤ (1 + δ) * (X + q) := by linarith
  have hB1 : (1 - δ) * (X + Y) ≤ Z := by linarith
  have hB2 : Z ≤ (1 + δ) * (X + Y) := by linarith
  have hC1 : (1 - δ) * ((1 - δ) * (X + q)) ≤ (1 - δ) * (X + Y) :=
    mul_le_mul_of_nonneg_left hA1 (by linarith)
  have hC2 : (1 + δ) * (X + Y) ≤ (1 + δ) * ((1 + δ) * (X + q)) :=
    mul_le_mul_of_nonneg_left hA2 (by linarith)
  have hD1 : (1 - δ) ^ 2 * (2 * s) ≤ (1 - δ) ^ 2 * (X + q) :=
    mul_le_mul_of_nonneg_left h1 (sq_nonneg _)
  have hD2 : (1 + δ) ^ 2 * (X + q) ≤ (1 + δ) ^ 2 * (2 * c * s) :=
    mul_le_mul_of_nonneg_left h2 (sq_nonneg _)
  constructor
  · linarith
  · linarith

set_option exponentiation.threshold 1024 in
/-- One pass of the loop of `SquareRoot` on a positive finite `x` within 10% of the root
`s` of a normal `v`: the quotient and the sum are rounded with relative error at most
`2^-24` and the exponent decrement halves the sum exactly. -/
theorem SquareRoot_step_spec (v x : float32_t) (s : ℝ)
    (hv0 : v.sign = 0) (hve : v.expo ≤ 254) (hx0 : x.sign = 0) (hxe : x.expo ≤ 254)
    (hs2 : s ^ 2 = (v.units : ℝ) * 2 ^ 149) (hslo : 2 ^ 86 ≤ s) (hshi : s ≤ 2 ^ 213)
    (hXa : 9 / 10 * s ≤ (x.units : ℝ)) (hXb : (x.units : ℝ) ≤ 11 / 10 * s) :
    (SquareRoot_step v x).sign = 0 ∧ (SquareRoot_step v x).expo ≤ 254 ∧
    ∃ Y Z : ℝ, |Y - s ^ 2 / (x.units : ℝ)| ≤ s ^ 2 / (x.units : ℝ) / 2 ^ 24 ∧
      |Z - ((x.units : ℝ) + Y)| ≤ ((x.units : ℝ) + Y) / 2 ^ 24 ∧
      ((SquareRoot_step v x).units : ℝ) = Z / 2 := by
  have hs : 0 < s := lt_of_lt_of_le (by positivity) hslo
  have hX : (0 : ℝ) < x.units := lt_of_lt_of_le (by positivity) hXa
  have hXn : 0 < x.units := by exact_mod_cast hX
  have hss : s ^ 2 = s * s := by ring
  have hW : ((v.units * 2 ^ 149 : ℕ) : ℝ) = s * s := by
    rw [← hss, hs2]; norm_num
  -- the quotient
  have hq_hi : v.units * 2 ^ 149 < 2 ^ 276 * x.units := by
    have h1 : s * s ≤ 2 ^ 213 * s := mul_le_mul_of_nonneg_right hshi hs.le
    have h2 : (2 : ℝ) ^ 213 * s ≤ 2 ^ 275 * (9 / 10 * s) := by
      have h : (2 : ℝ) ^ 213 ≤ 2 ^ 275 * (9 / 10) := by norm_num
      have := mul_le_mul_of_nonneg_right h hs.le
      linarith
    have h3 : (2 : ℝ) ^ 275 * (9 / 10 * s) ≤ 2 ^ 275 * x.units :=
      mul_le_mul_of_nonneg_left hXa (by positivity)
    have h4 : (2 : ℝ) ^ 275 * x.units < 2 ^ 276 * x.units :=
      mul_lt_mul_of_pos_right (by norm_num) hX
    have h5 : ((2 ^ 276 * x.units : ℕ) : ℝ) = 2 ^ 276 * (x.units : ℝ) := by norm_num
    have : ((v.units * 2 ^ 149 : ℕ) : ℝ) < ((2 ^ 276 * x.units : ℕ) : ℝ) := by
      rw [hW, h5]
      linarith
    exact_mod_cast this
  have hq_lo : 8388608 * x.units ≤ v.units * 2 ^ 149 := by
    have h1 : (2 : ℝ) ^ 86 * s ≤ s * s := mul_le_mul_of_nonneg_right hslo hs.le
    have h2 : (8388608 : ℝ) * (11 / 10 * s) ≤ 2 ^ 86 * s := by
      have h : (8388608 : ℝ) * (11 / 10) ≤ 2 ^ 86 := by norm_num
      have := mul_le_mul_of_nonneg_right h hs.le
      linarith
    have h3 : (8388608 : ℝ) * x.units ≤ 8388608 * (11 / 10 * s) :=
      mul_le_mul_of_nonneg_left hXb (by norm_num)
    have h5 : ((8388608 * x.units : ℕ) : ℝ) = 8388608 * (x.units : ℝ) := by norm_num
    have : ((8388608 * x.units : ℕ) : ℝ) ≤ ((v.units * 2 ^ 149 : ℕ) : ℝ) := by
      rw [hW, h5]
      linarith
    exact_mod_cast this
  have hdiv : fdiv v x = roundNearestEven false (v.units * 2 ^ 149) x.units := by
    rw [fdiv_eq_round v x hve hxe (by omega), hv0, hx0]
    rfl
  obtain ⟨hy0, hye, _, hyerr⟩ := roundNearestEven_error false (v.units * 2 ^ 149) x.units hXn hq_hi
  have hyerr := hyerr hq_lo
  rw [← hdiv] at hy0 hye hyerr
  have hcast : (((v.units * 2 ^ 149 : ℕ) : ℝ)) / (x.units : ℝ) = s ^ 2 / (x.units : ℝ) := by
    rw [hW, hss]
  rw [hcast] at hyerr
  simp only [Bool.false_eq_true, if_false] at hy0
  -- bounds on the quotient
  have hqle : s ^ 2 / (x.units : ℝ) ≤ 10 / 9 * s := by
    rw [div_le_iff₀ hX, hss]
    have := mul_le_mul_of_nonneg_left hXa hs.le
    linarith
  have hqpos : 0 < s ^ 2 / (x.units : ℝ) := by positivity
  have hY := abs_le.mp hyerr
  have hYpos : (0 : ℝ) ≤ (fdiv v x).units := Nat.cast_nonneg _
  have hYle : ((fdiv v x).units : ℝ) ≤ 2 * s := by
    have : s ^ 2 / (x.units : ℝ) / 2 ^ 24 ≤ s ^ 2 / (x.units : ℝ) := by
      apply div_le_self hqpos.le; norm_num
    linarith [hY.2]
  -- the sum
  have hsum_hi : x.units + (fdiv v x).units < 2 ^ 276 * 1 := by
    have h5 : ((2 ^ 276 * 1 : ℕ) : ℝ) = 2 ^ 276 := by norm_num
    have h6 : ((x.units + (fdiv v x).units : ℕ) : ℝ)
        = (x.units : ℝ) + ((fdiv v x).units : ℝ) := by push_cast; ring
    have : ((x.units + (fdiv v x).units : ℕ) : ℝ) < ((2 ^ 276 * 1 : ℕ) : ℝ) := by
      rw [h5, h6]
      have h7 : (4 : ℝ) * 2 ^ 213 < 2 ^ 276 := by norm_num
      have h8 : (4 : ℝ) * s ≤ 4 * 2 ^ 213 := by linarith
      linarith
    exact_mod_cast this
  have hXbig : (2 : ℝ) ^ 85 ≤ x.units := by
    have : (2 : ℝ) ^ 85 ≤ 9 / 10 * 2 ^ 86 := by norm_num
    linarith
  have hsum_lo : 8388608 * 1 ≤ x.units + (fdiv v x).units := by
    have : ((8388608 * 1 : ℕ) : ℝ) ≤ ((x.units + (fdiv v x).units : ℕ) : ℝ) := by
      push_cast
      have : (8388608 : ℝ) * 1 ≤ 2 ^ 85 := by norm_num
      linarith
    exact_mod_cast this
  have hadd : fadd x (fdiv v x) = roundNearestEven false (x.units + (fdiv v x).units) 1 := by
    rw [fadd_eq_round x (fdiv v x) hxe hye (by rw [hx0, hy0]) (by omega), hx0]
    rfl
  obtain ⟨hz0, hze, _, hzerr⟩ :=
    roundNearestEven_error false (x.units + (fdiv v x).units) 1 Nat.one_pos hsum_hi
  have hzerr := hzerr hsum_lo
  rw [← hadd] at hz0 hze hzerr
  simp only [Bool.false_eq_true, if_false] at hz0
  have hcast2 : (((x.units + (fdiv v x).units : ℕ) : ℝ)) / ((1 : ℕ) : ℝ)
      = (x.units : ℝ) + ((fdiv v x).units : ℝ) := by
    push_cast; ring
  rw [hcast2] at hzerr
  -- the sum is at least `2^24`, so the exponent decrement is a halving
  have hZ := abs_le.mp hzerr
  have hZbig : (16777216 : ℝ) ≤ (fadd x (fdiv v x)).units := by
    have h1 : ((x.units : ℝ) + ((fdiv v x).units : ℝ)) / 2 ^ 24
        ≤ ((x.units : ℝ) + ((fdiv v x).units : ℝ)) / 2 := by
      apply div_le_div_of_nonneg_left (by linarith) (by norm_num) (by norm_num)
    have h2 : (16777216 : ℝ) ≤ 2 ^ 85 / 2 := by norm_num
    linarith [hZ.1]
  have hZn : 16777216 ≤ (fadd x (fdiv v x)).units := by exact_mod_cast hZbig
  obtain ⟨g1, g2, g3⟩ := halve_spec (fadd x (fdiv v x)) (expo_ge_two_of_units _ hZn)
  have hstep : SquareRoot_step v x
      = ofHalves (u16 ((fadd x (fdiv v x)).hi + 65536 - 0x80)) (fadd x (fdiv v x)).lo := rfl
  rw [hstep]
  generalize ofHalves (u16 ((fadd x (fdiv v x)).hi + 65536 - 0x80)) (fadd x (fdiv v x)).lo = w
    at g1 g2 g3
  refine ⟨by rw [g1, hz0], by rw [g2]; omega, (fdiv v x).units, (fadd x (fdiv v x)).units,
    hyerr, hzerr, ?_⟩
  have : ((2 * w.units : ℕ) : ℝ) = ((fadd x (fdiv v x)).units : ℝ) := by
    rw [g3]
  push_cast at this
  linarith

/-! ## `SquareRoot`: accuracy of the seed -/

theorem seed_ratio_even (a b : ℝ) (ha0 : 0 ≤ a) (ha1 : a ≤ 1)
    (hb1 : a / 2 - 1 / 256 ≤ b) (hb2 : b ≤ a / 2 + 1 / 256) :
    (99 / 100) ^ 2 * (1 + a) ≤ (1 + b) ^ 2 ∧ (1 + b) ^ 2 ≤ (107 / 100) ^ 2 * (1 + a) := by
  have h1 : (1 + a / 2 - 1 / 256) ^ 2 ≤ (1 + b) ^ 2 :=
    pow_le_pow_left₀ (by linarith) (by linarith) 2
  have h2 : (1 + b) ^ 2 ≤ (1 + a / 2 + 1 / 256) ^ 2 :=
    pow_le_pow_left₀ (by linarith) (by linarith) 2
  constructor
  · nlinarith [sq_nonneg a]
  · nlinarith [sq_nonneg a, mul_nonneg ha0 (sub_nonneg.mpr ha1)]

theorem seed_ratio_odd (a b : ℝ) (ha0 : 0 ≤ a) (ha1 : a ≤ 1)
    (hb1 : a / 2 - 1 / 256 ≤ b) (hb2 : b ≤ a / 2 + 1 / 256) :
    (99 / 100) ^ 2 * (2 * (1 + a)) ≤ (3 / 2 + b) ^ 2 ∧
      (3 / 2 + b) ^ 2 ≤ (107 / 100) ^ 2 * (2 * (1 + a)) := by
  have h1 : (3 / 2 + a / 2 - 1 / 256) ^ 2 ≤ (3 / 2 + b) ^ 2 :=
    pow_le_pow_left₀ (by linarith) (by linarith) 2
  have h2 : (3 / 2 + b) ^ 2 ≤ (3 / 2 + a / 2 + 1 / 256) ^ 2 :=
    pow_le_pow_left₀ (by linarith) (by linarith) 2
  constructor
  · nlinarith [sq_nonneg (a - 1), mul_nonneg ha0 (sub_nonneg.mpr ha1)]
  · nlinarith [sq_nonneg a, mul_nonneg ha0 (sub_nonneg.mpr ha1)]

/-- The fields of the seed of `SquareRoot` for a pattern with sign bit 0. -/
theorem SquareRoot_seed_fields (v : float32_t) (hs : v.sign = 0) :
    (SquareRoot_seed v).sign = 0 ∧
    (SquareRoot_seed v).expo = (v.expo + 127) / 2 ∧
    (SquareRoot_seed v).mant
      = ((v.expo + 127) % 2) * 4194304 + (v.mant / 131072) * 65536 + v.mant % 65536 := by
  obtain ⟨_, h2, h3, h4, h5⟩ := SquareRoot_seed_of_sign_zero v hs
  have hb := v.bits_lt
  have hs2 : v.bits / 2147483648 = 0 := hs
  have hhi : v.hi = v.expo * 128 + v.mant / 65536 := by
    unfold hi expo mant; omega
  have hlo : v.lo = v.mant % 65536 := by unfold lo mant; omega
  have hm : v.mant < 8388608 := Nat.mod_lt _ (by decide)
  refine ⟨h4, h5, ?_⟩
  have hbits : (SquareRoot_seed v).bits
      = (SquareRoot_seed v).hi * 65536 + (SquareRoot_seed v).lo := by
    unfold hi lo; omega
  rw [h2, h3, Nat.shiftRight_eq_div_pow, hhi, hlo] at hbits
  have hmant : (SquareRoot_seed v).mant = (SquareRoot_seed v).bits % 8388608 := rfl
  rw [hmant, hbits]
  have he : v.expo < 256 := Nat.mod_lt _ (by decide)
  generalize v.expo = E at *
  generalize v.mant = M at *
  omega

theorem le_of_sq_le_sq_of_nonneg (x y : ℝ) (hy : 0 ≤ y) (h : x ^ 2 ≤ y ^ 2) : x ≤ y := by
  by_contra hc
  push_neg at hc
  nlinarith

/-- From the ratio of the scaled significands to the ratio of the magnitudes. -/
theorem seed_bounds_of_ratio (s X A B P : ℝ) (hs0 : 0 ≤ s) (hX0 : 0 ≤ X)
    (hW : s ^ 2 = 8388608 ^ 2 * A * (P * P)) (hX : X = 8388608 * B * P)
    (r1 : (99 / 100) ^ 2 * A ≤ B ^ 2) (r2 : B ^ 2 ≤ (107 / 100) ^ 2 * A) :
    99 / 100 * s ≤ X ∧ X ≤ 107 / 100 * s := by
  have hpp : (0 : ℝ) ≤ 8388608 ^ 2 * (P * P) :=
    mul_nonneg (by positivity) (mul_self_nonneg P)
  have hX2 : X ^ 2 = 8388608 ^ 2 * (P * P) * B ^ 2 := by rw [hX]; ring
  have q1 := mul_le_mul_of_nonneg_left r1 hpp
  have q2 := mul_le_mul_of_nonneg_left r2 hpp
  constructor
  · apply le_of_sq_le_sq_of_nonneg _ _ hX0
    rw [mul_pow, hW, hX2]
    linarith
  · apply le_of_sq_le_sq_of_nonneg _ _ (mul_nonneg (by norm_num) hs0)
    rw [mul_pow, hW, hX2]
    linarith

/-- The seed of `SquareRoot` for a normal positive `v` is within `[0.99 s, 1.07 s]` of
the root `s` of the magnitude of `v` (both counted in units of `2^-149`). -/
theorem SquareRoot_seed_accuracy (v : float32_t) (hs : v.sign = 0) (h1 : 1 ≤ v.expo)
    (h2 : v.expo ≤ 254) (s : ℝ) (hs0 : 0 ≤ s) (hs2 : s ^ 2 = (v.units : ℝ) * 2 ^ 149) :
    (SquareRoot_seed v).sign = 0 ∧ (SquareRoot_seed v).expo ≤ 254 ∧
    99 / 100 * s ≤ ((SquareRoot_seed v).units : ℝ) ∧
    ((SquareRoot_seed v).units : ℝ) ≤ 107 / 100 * s := by
  obtain ⟨f1, f2, f3⟩ := SquareRoot_seed_fields v hs
  have hm : v.mant < 8388608 := Nat.mod_lt _ (by decide)
  refine ⟨f1, by omega, ?_⟩
  -- magnitudes
  have hV : v.units = (8388608 + v.mant) * 2 ^ (v.expo - 1) := by
    unfold units; rw [if_neg (by omega)]
  have hX : (SquareRoot_seed v).units
      = (8388608 + (SquareRoot_seed v).mant) * 2 ^ ((v.expo + 127) / 2 - 1) := by
    unfold units; rw [f2, if_neg (by omega)]
  generalize hk : (v.expo + 127) / 2 - 1 = k at hX
  obtain ⟨M0, hM0⟩ : ∃ M0, M0 = (v.mant / 131072) * 65536 + v.mant % 65536 := ⟨_, rfl⟩
  have f3' : (SquareRoot_seed v).mant = ((v.expo + 127) % 2) * 4194304 + M0 := by
    rw [f3, hM0]; omega
  have hM0a : 2 * M0 ≤ v.mant + 65536 := by omega
  have hM0b : v.mant ≤ 2 * M0 + 65536 := by omega
  have hX0 : (0 : ℝ) ≤ ((SquareRoot_seed v).units : ℝ) := Nat.cast_nonneg _
  -- scaled mantissas
  have ha0 : (0 : ℝ) ≤ (v.mant : ℝ) / 8388608 := by positivity
  have ha1 : (v.mant : ℝ) / 8388608 ≤ 1 := by
    rw [div_le_one (by norm_num)]
    exact_mod_cast hm.le
  have hb1 : (v.mant : ℝ) / 8388608 / 2 - 1 / 256 ≤ (M0 : ℝ) / 8388608 := by
    have : (v.mant : ℝ) ≤ 2 * (M0 : ℝ) + 65536 := by exact_mod_cast hM0b
    rw [div_div, div_sub_div _ _ (by norm_num) (by norm_num), div_le_div_iff₀ (by norm_num)
      (by norm_num)]
    linarith
  have hb2 : (M0 : ℝ) / 8388608 ≤ (v.mant : ℝ) / 8388608 / 2 + 1 / 256 := by
    have : 2 * (M0 : ℝ) ≤ (v.mant : ℝ) + 65536 := by exact_mod_cast hM0a
    rw [div_div, div_add_div _ _ (by norm_num) (by norm_num), div_le_div_iff₀ (by norm_num)
      (by norm_num)]
    linarith
  have hVR : (v.units : ℝ) = (8388608 + (v.mant : ℝ)) * 2 ^ (v.expo - 1) := by
    rw [hV]; push_cast; ring
  rcases Nat.mod_two_eq_zero_or_one (v.expo + 127) with hp | hp
  · -- even exponent sum
    have hexp : v.expo - 1 + 126 = k + k := by omega
    have hpow : (2 : ℝ) ^ (v.expo - 1) * 2 ^ 126 = 2 ^ k * 2 ^ k := by
      rw [← pow_add, ← pow_add, hexp]
    have h149 : (2 : ℝ) ^ 149 = 2 ^ 126 * 8388608 := by norm_num
    obtain ⟨r1, r2⟩ := seed_ratio_even _ _ ha0 ha1 hb1 hb2
    refine seed_bounds_of_ratio s _ (1 + (v.mant : ℝ) / 8388608) (1 + (M0 : ℝ) / 8388608)
      (2 ^ k) hs0 hX0 ?_ ?_ r1 r2
    · rw [hs2, hVR, h149]
      have : (8388608 + (v.mant : ℝ)) * 2 ^ (v.expo - 1) * (2 ^ 126 * 8388608)
          = (8388608 + (v.mant : ℝ)) * (2 ^ (v.expo - 1) * 2 ^ 126) * 8388608 := by ring
      rw [this, hpow]
      ring
    · rw [hX, f3', hp]
      push_cast
      ring
  · -- odd exponent sum
    have hexp : v.expo - 1 + 125 = k + k := by omega
    have hpow : (2 : ℝ) ^ (v.expo - 1) * 2 ^ 125 = 2 ^ k * 2 ^ k := by
      rw [← pow_add, ← pow_add, hexp]
    have h149 : (2 : ℝ) ^ 149 = 2 ^ 125 * 16777216 := by norm_num
    obtain ⟨r1, r2⟩ := seed_ratio_odd _ _ ha0 ha1 hb1 hb2
    refine seed_bounds_of_ratio s _ (2 * (1 + (v.mant : ℝ) / 8388608))
      (3 / 2 + (M0 : ℝ) / 8388608) (2 ^ k) hs0 hX0 ?_ ?_ r1 r2
    · rw [hs2, hVR, h149]
      have : (8388608 + (v.mant : ℝ)) * 2 ^ (v.expo - 1) * (2 ^ 125 * 16777216)
          = (8388608 + (v.mant : ℝ)) * (2 ^ (v.expo - 1) * 2 ^ 125) * 16777216 := by ring
      rw [this, hpow]
      ring
    · rw [hX, f3', hp]
      push_cast
      ring

/-! ## `SquareRoot`: accuracy of the result -/

/-- One pass of the loop of `SquareRoot` maps the interval `[a s, b s]` into
`[a1 s, b1 s]`. -/
theorem SquareRoot_step_interval (v x : float32_t) (s a b c a1 b1 : ℝ)
    (hv0 : v.sign = 0) (hve : v.expo ≤ 254) (hx0 : x.sign = 0) (hxe : x.expo ≤ 254)
    (hs2 : s ^ 2 = (v.units : ℝ) * 2 ^ 149) (hslo : 2 ^ 86 ≤ s) (hshi : s ≤ 2 ^ 213)
    (ha : 9 / 10 ≤ a) (hb1 : 1 ≤ b) (hb : b ≤ 11 / 10)
    (hXa : a * s ≤ (x.units : ℝ)) (hXb : (x.units : ℝ) ≤ b * s)
    (hca : a * a + 1 ≤ 2 * c * a) (hcb : b * b + 1 ≤ 2 * c * b)
    (ha1 : a1 ≤ (1 - 1 / 2 ^ 24) ^ 2) (hb1' : (1 + 1 / 2 ^ 24) ^ 2 * c ≤ b1) :
    (SquareRoot_step v x).sign = 0 ∧ (SquareRoot_step v x).expo ≤ 254 ∧
    a1 * s ≤ ((SquareRoot_step v x).units : ℝ) ∧
    ((SquareRoot_step v x).units : ℝ) ≤ b1 * s := by
  have hs : 0 < s := lt_of_lt_of_le (by positivity) hslo
  have h9 : 9 / 10 * s ≤ (x.units : ℝ) :=
    le_trans (mul_le_mul_of_nonneg_right ha hs.le) hXa
  have h11 : (x.units : ℝ) ≤ 11 / 10 * s :=
    le_trans hXb (mul_le_mul_of_nonneg_right hb hs.le)
  obtain ⟨g1, g2, Y, Z, hY, hZ, hU⟩ :=
    SquareRoot_step_spec v x s hv0 hve hx0 hxe hs2 hslo hshi h9 h11
  obtain ⟨k1, k2⟩ := newton_sqrt_rounded s (x.units : ℝ) Y Z a b c hs (by linarith) hb1
    hXa hXb hca hcb hY hZ
  rw [hU]
  refine ⟨g1, g2, ?_, ?_⟩
  · exact le_trans (mul_le_mul_of_nonneg_right ha1 hs.le) k1
  · exact le_trans k2 (mul_le_mul_of_nonneg_right hb1' hs.le)

set_option maxHeartbeats 1000000 in
/-- After the seed and four passes the result of `SquareRoot` on a normal positive `v` is
within `[0.9999 s, 1.00001 s]` of the root `s` of the magnitude of `v`. -/
theorem SquareRoot_loop_accuracy (v : float32_t) (hs : v.sign = 0) (h1 : 1 ≤ v.expo)
    (h2 : v.expo ≤ 254) (s : ℝ) (hs0 : 0 ≤ s) (hs2 : s ^ 2 = (v.units : ℝ) * 2 ^ 149) :
    (SquareRoot_loop v 4 (SquareRoot_seed v)).sign = 0 ∧
    (SquareRoot_loop v 4 (SquareRoot_seed v)).expo ≤ 254 ∧
    9999 / 10000 * s ≤ ((SquareRoot_loop v 4 (SquareRoot_seed v)).units : ℝ) ∧
    ((SquareRoot_loop v 4 (SquareRoot_seed v)).units : ℝ) ≤ 100001 / 100000 * s := by
  have hm : v.mant < 8388608 := Nat.mod_lt _ (by decide)
  -- range of `s`
  have hVR : (v.units : ℝ) = (8388608 + (v.mant : ℝ)) * 2 ^ (v.expo - 1) := by
    unfold units; rw [if_neg (by omega)]; push_cast; ring
  have hpow1 : (1 : ℝ) ≤ 2 ^ (v.expo - 1) := one_le_pow₀ (by norm_num)
  have hpow2 : (2 : ℝ) ^ (v.expo - 1) ≤ 2 ^ 253 :=
    pow_le_pow_right₀ (by norm_num) (by omega)
  have hmR : (v.mant : ℝ) ≤ 8388608 := by exact_mod_cast hm.le
  have hm0 : (0 : ℝ) ≤ (v.mant : ℝ) := Nat.cast_nonneg _
  have hVlo : (8388608 : ℝ) ≤ (v.units : ℝ) := by
    rw [hVR]; nlinarith
  have hVhi : (v.units : ℝ) ≤ 16777216 * 2 ^ 253 := by
    rw [hVR]
    exact mul_le_mul (by linarith) hpow2 (by positivity) (by norm_num)
  have hslo : (2 : ℝ) ^ 86 ≤ s := by
    apply le_of_sq_le_sq_of_nonneg _ _ hs0
    rw [hs2]
    have : ((2 : ℝ) ^ 86) ^ 2 = 8388608 * 2 ^ 149 := by norm_num
    rw [this]
    exact mul_le_mul_of_nonneg_right hVlo (by positivity)
  have hshi : s ≤ 2 ^ 213 := by
    apply le_of_sq_le_sq_of_nonneg _ _ (by positivity)
    rw [hs2]
    have : ((2 : ℝ) ^ 213) ^ 2 = 16777216 * 2 ^ 253 * 2 ^ 149 := by norm_num
    rw [this]
    exact mul_le_mul_of_nonneg_right hVhi (by positivity)
  obtain ⟨a0, b0, c0, d0⟩ := SquareRoot_seed_accuracy v hs h1 h2 s hs0 hs2
  obtain ⟨a1, b1, c1, d1⟩ := SquareRoot_step_interval v (SquareRoot_seed v) s
    (99 / 100) (107 / 100) (10023 / 10000) (9999 / 10000) (10024 / 10000)
    hs h2 a0 b0 hs2 hslo hshi (by norm_num) (by norm_num) (by norm_num) c0 d0
    (by norm_num) (by norm_num) (by norm_num) (by norm_num)
  obtain ⟨a2, b2, c2, d2⟩ := SquareRoot_step_interval v _ s
    (9999 / 10000) (10024 / 10000) (1000003 / 1000000) (9999 / 10000) (100001 / 100000)
    hs h2 a1 b1 hs2 hslo hshi (by norm_num) (by norm_num) (by norm_num) c1 d1
    (by norm_num) (by norm_num) (by norm_num) (by norm_num)
  obtain ⟨a3, b3, c3, d3⟩ := SquareRoot_step_interval v _ s
    (9999 / 10000) (100001 / 100000) (100000001 / 100000000) (9999 / 10000) (100001 / 100000)
    hs h2 a2 b2 hs2 hslo hshi (by norm_num) (by norm_num) (by norm_num) c2 d2
    (by norm_num) (by norm_num) (by norm_num) (by norm_num)
  obtain ⟨a4, b4, c4, d4⟩ := SquareRoot_step_interval v _ s
    (9999 / 10000) (100001 / 100000) (100000001 / 100000000) (9999 / 10000) (100001 / 100000)
    hs h2 a3 b3 hs2 hslo hshi (by norm_num) (by norm_num) (by norm_num) c3 d3
    (by norm_num) (by norm_num) (by norm_num) (by norm_num)
  exact ⟨a4, b4, c4, d4⟩

theorem toRat_of_sign_zero (x : float32_t) (h : x.sign = 0) :
    ((x.toRat : ℚ) : ℝ) = (x.units : ℝ) / 2 ^ 149 := by
  unfold toRat
  rw [if_pos h]
  push_cast
  rfl

set_option maxRecDepth 100000 in
/-- C13 (as stated, refuted): the smallest positive `float32_t`, `2^-149` (pattern
`0x00000001`), is `> 0`, and `SquareRoot` returns the pattern `0x1DC000E5` for it, about
136 times the true square root: the relative error is not below 0.2%. -/
theorem SquareRoot_accuracy_counterexample :
    flt zero (ofBits 1) = true ∧ SquareRoot (ofBits 1) = ofBits 0x1DC000E5 ∧
    ¬ |(((SquareRoot (ofBits 1)).toRat : ℚ) : ℝ) - Real.sqrt (((ofBits 1).toRat : ℚ) : ℝ)|
        < 0.002 * Real.sqrt (((ofBits 1).toRat : ℚ) : ℝ) := by
  have hr : SquareRoot (ofBits 1) = ofBits 0x1DC000E5 := by decide
  refine ⟨by decide, hr, ?_⟩
  have h1 : (((ofBits 1).toRat : ℚ) : ℝ) = 1 / 2 ^ 149 := by
    have : (ofBits 1).units = 1 := by decide
    rw [toRat_of_sign_zero _ (by decide), this]
    norm_num
  have h2 : (((ofBits 0x1DC000E5).toRat : ℚ) : ℝ) = 12583141 * 2 ^ 58 / 2 ^ 149 := by
    have : (ofBits 0x1DC000E5).units = 12583141 * 2 ^ 58 := by decide
    rw [toRat_of_sign_zero _ (by decide), this]
    norm_num
  rw [hr, h1, h2]
  have hsq : Real.sqrt (1 / 2 ^ 149) ≤ 12583141 * 2 ^ 58 / 2 ^ 149 / 2 := by
    rw [Real.sqrt_le_iff]
    constructor
    · positivity
    · norm_num
  have h0 : 0 ≤ Real.sqrt (1 / 2 ^ 149) := Real.sqrt_nonneg _
  intro h
  rw [abs_lt] at h
  linarith only [h.2, hsq, h0]

set_option maxRecDepth 100000 in
/-- `SquareRoot(4.0f)` is exactly `2.0f`. -/
theorem SquareRoot_four : SquareRoot (ofBits 0x40800000) = ofBits 0x40000000 := by decide

theorem toRat_two : (ofBits 0x40000000).toRat = 2 := by
  have : (ofBits 0x40000000).units = 8388608 * 2 ^ 127 := by decide
  have hs : (ofBits 0x40000000).sign = 0 := by decide
  unfold toRat
  rw [if_pos hs, this]
  norm_num

/-- C13 (amended): for every normal finite `float32_t` `v > 0` (sign bit 0, biased
exponent in `1..254`), `SquareRoot(v)` is non-negative and its relative error against
the true square root of `v` is below 0.2%; `SquareRoot(4.0f)` is `2.0f`, within 0.01 of
2.0. -/
theorem SquareRoot_accuracy (v : float32_t) (hs : v.sign = 0) (h1 : 1 ≤ v.expo)
    (h2 : v.expo ≤ 254) :
    fle zero (SquareRoot v) = true ∧
    |(((SquareRoot v).toRat : ℚ) : ℝ) - Real.sqrt ((v.toRat : ℚ) : ℝ)|
      < 0.002 * Real.sqrt ((v.toRat : ℚ) : ℝ) ∧
    |(SquareRoot (ofBits 0x40800000)).toRat - 2| ≤ 1 / 100 := by
  have hb := v.bits_lt
  -- the guard is not taken
  have hguard : fle v zero = false := by
    cases hg : fle v zero
    · rfl
    · have := ((fle_zero_iff v).mp hg).2
      unfold sign expo at *
      omega
  have hrun : SquareRoot v = SquareRoot_loop v 4 (SquareRoot_seed v) := by
    unfold SquareRoot SquareRoot_run
    rw [hguard]
    rfl
  have hW : (0 : ℝ) ≤ (v.units : ℝ) * 2 ^ 149 := by positivity
  obtain ⟨r1, r2, r3, r4⟩ := SquareRoot_loop_accuracy v hs h1 h2
    (Real.sqrt ((v.units : ℝ) * 2 ^ 149)) (Real.sqrt_nonneg _) (Real.sq_sqrt hW)
  rw [← hrun] at r1 r2 r3 r4
  generalize hsdef : Real.sqrt ((v.units : ℝ) * 2 ^ 149) = s at r3 r4
  have hs0 : 0 ≤ s := by rw [← hsdef]; exact Real.sqrt_nonneg _
  have hs2 : s ^ 2 = (v.units : ℝ) * 2 ^ 149 := by rw [← hsdef]; exact Real.sq_sqrt hW
  have hVpos : (0 : ℝ) < (v.units : ℝ) := by
    have : 0 < v.units := by
      unfold units
      rw [if_neg (by omega)]
      positivity
    exact_mod_cast this
  have hspos : 0 < s := by
    rcases hs0.lt_or_eq with h | h
    · exact h
    · have h0 : (v.units : ℝ) * 2 ^ 149 = 0 := by rw [← hs2, ← h]; ring
      have : (0 : ℝ) < (v.units : ℝ) * 2 ^ 149 := by positivity
      linarith
  refine ⟨?_, ?_, ?_⟩
  · rw [fle_iff]
    refine ⟨by decide, (not_special_of_expo _ r2).1, ?_⟩
    have hk : zero.key = 0 := by decide
    rw [hk]
    unfold key
    rw [if_pos r1]
    positivity
  · have hsqrt : Real.sqrt ((v.toRat : ℚ) : ℝ) = s / 2 ^ 149 := by
      rw [toRat_of_sign_zero v hs, Real.sqrt_eq_iff_eq_sq (by positivity) (by positivity),
        div_pow, hs2]
      field_simp
      ring
    rw [hsqrt, toRat_of_sign_zero _ r1, ← sub_div, abs_div, abs_of_pos (by positivity :
      (0 : ℝ) < 2 ^ 149), ← mul_div_assoc, div_lt_div_iff_of_pos_right (by positivity)]
    rw [abs_lt]
    constructor <;> nlinarith
  · rw [SquareRoot_four, toRat_two]
    norm_num

/-- The theorem `SquareRoot_accuracy` at `v = 2.0f`. -/
theorem SquareRoot_accuracy_witness :
    (ofBits 0x40000000).sign = 0 ∧ 1 ≤ (ofBits 0x40000000).expo ∧
    (ofBits 0x40000000).expo ≤ 254 ∧
    (fle zero (SquareRoot (ofBits 0x40000000)) = true ∧
     |(((SquareRoot (ofBits 0x40000000)).toRat : ℚ) : ℝ)
        - Real.sqrt (((ofBits 0x40000000).toRat : ℚ) : ℝ)|
       < 0.002 * Real.sqrt (((ofBits 0x40000000).toRat : ℚ) : ℝ) ∧
     |(SquareRoot (ofBits 0x40800000)).toRat - 2| ≤ 1 / 100) :=
  ⟨by decide, by decide, by decide,
    SquareRoot_accuracy (ofBits 0x40000000) (by decide) (by decide) (by decide)⟩

/-! ## `CubeRoot`: one pass of the refinement loop -/

/-- The statement `hi(xn2) += 0x80` doubles a normal value of exponent field at most 253. -/
theorem double_spec (x : float32_t) (h1 : 1 ≤ x.expo) (h2 : x.expo ≤ 253) :
    (ofHalves (u16 (x.hi + 0x80)) x.lo).sign = x.sign ∧
    (ofHalves (u16 (x.hi + 0x80)) x.lo).expo = x.expo + 1 ∧
    (ofHalves (u16 (x.hi + 0x80)) x.lo).units = 2 * x.units := by
  have hb := x.bits_lt
  have hm : x.mant < 8388608 := Nat.mod_lt _ (by decide)
  have hlo : x.lo < 65536 := Nat.mod_lt _ (by decide)
  have hbits : x.bits = x.sign * 2147483648 + x.expo * 8388608 + x.mant := by
    unfold sign expo mant; omega
  have hhi : x.hi = x.sign * 32768 + x.expo * 128 + x.mant / 65536 := by
    unfold hi; omega
  have hlo2 : x.lo = x.mant % 65536 := by unfold lo; omega
  have hs := sign_lt_two x
  have hu : u16 (x.hi + 0x80) = x.hi + 128 := by unfold u16; omega
  have hnew : (ofHalves (u16 (x.hi + 0x80)) x.lo).bits
      = x.sign * 2147483648 + (x.expo + 1) * 8388608 + x.mant := by
    rw [hu, bits_ofHalves _ _ (by omega) hlo]
    omega
  obtain ⟨f1, f2, f3⟩ := fields_of_bits _ _ _ _ (by omega) hm hnew
  refine ⟨f1, f2, ?_⟩
  unfold units
  rw [f2, f3, if_neg (by omega), if_neg (by omega)]
  have : x.expo + 1 - 1 = (x.expo - 1) + 1 := by omega
  rw [this, Nat.pow_succ]
  ring

/-- Exponent range of a finite value from its magnitude. -/
theorem expo_range_of_units (x : float32_t) (hlo : 8388608 ≤ x.units)
    (hhi : x.units < 2 ^ 201) : 1 ≤ x.expo ∧ x.expo ≤ 178 := by
  have hm : x.mant < 8388608 := Nat.mod_lt _ (by decide)
  constructor
  · by_contra hc
    have h0 : x.expo = 0 := by omega
    unfold units at hlo
    rw [if_pos h0] at hlo
    omega
  · by_contra hc
    have h0 : x.expo ≠ 0 := by omega
    unfold units at hhi
    rw [if_neg h0] at hhi
    have h1 : 2 ^ 178 ≤ 2 ^ (x.expo - 1) := Nat.pow_le_pow_right (by decide) (by omega)
    have h2 : 8388608 * 2 ^ 178 ≤ (8388608 + x.mant) * 2 ^ (x.expo - 1) :=
      Nat.mul_le_mul (by omega) h1
    have h3 : (8388608 : Nat) * 2 ^ 178 = 2 ^ 201 := by norm_num
    omega

set_option maxRecDepth 100000 in
/-- The constant `(1 / 3.0f)`: the pattern `0x3EAAAAAB`. -/
theorem third_eq : fdiv (ofBits 0x3F800000) (ofBits 0x40400000) = ofBits 0x3EAAAAAB := by
  decide

theorem third_fields : (ofBits 0x3EAAAAAB).sign = 0 ∧ (ofBits 0x3EAAAAAB).expo = 125 ∧
    (ofBits 0x3EAAAAAB).units = 11184811 * 2 ^ 124 := by
  decide

/-- One pass of the loop of `CubeRoot` on magnitudes, with rounding: `P` is the rounded
square of `X` (scaled by `K`), `Q` the rounded quotient of `N` by `P`, `S` the rounded
sum `2 X + Q` and `X1` the rounded product of `S` by the constant `t` near one third.
The pass keeps the magnitude within a factor `[1/2, 4]` and keeps its cube above one
eighth of `W`. -/
theorem cube_step_real (X W N P Q S X1 δ t K : ℝ) (hK : 0 < K)
    (hδ : δ ≤ 1 / 1000000) (ht1 : 3333 / 10000 ≤ t) (ht2 : t ≤ 3334 / 10000)
    (hX : 1000000000 ≤ X) (hW0 : 0 < W) (hW : W ≤ 8 * X ^ 3)
    (hP1 : (1 - δ) * (X ^ 2 / K) ≤ P) (hP2 : P ≤ (1 + δ) * (X ^ 2 / K))
    (hN : N * K = W)
    (hQ0 : 0 ≤ Q) (hQ2 : Q ≤ (1 + δ) * (N / P) + 1 / 2)
    (hQ1 : 8388608 * P ≤ N → (1 - δ) * (N / P) ≤ Q)
    (hS1 : (1 - δ) * (2 * X + Q) ≤ S) (hS2 : S ≤ (1 + δ) * (2 * X + Q))
    (hX1 : (1 - δ) * (t * S) ≤ X1) (hX2 : X1 ≤ (1 + δ) * (t * S)) :
    X / 2 ≤ X1 ∧ X1 ≤ 4 * X ∧ W ≤ 8 * X1 ^ 3 := by
  have hXpos : 0 < X := lt_of_lt_of_le (by norm_num) hX
  have hd1 : 999999 / 1000000 ≤ 1 - δ := by linarith only [hδ]
  have hd2 : 1 + δ ≤ 1000001 / 1000000 := by linarith only [hδ]
  have hd0 : 0 < 1 - δ := by linarith only [hδ]
  have ht0 : 0 ≤ t := by linarith only [ht1]
  have hX2pos : 0 < X ^ 2 := by positivity
  have hX3pos : 0 < X ^ 3 := by positivity
  have hA : 0 < X ^ 2 / K := div_pos hX2pos hK
  have hPpos : 0 < P := lt_of_lt_of_le (mul_pos hd0 hA) hP1
  have hNpos : 0 < N := by
    by_contra hc
    push_neg at hc
    have := mul_nonpos_of_nonpos_of_nonneg hc hK.le
    linarith only [this, hN, hW0]
  -- the exact quotient `B = N / P`
  obtain ⟨B, hB⟩ : ∃ B, B = N / P := ⟨_, rfl⟩
  have hBP : B * P = N := by rw [hB]; field_simp
  have hBpos : 0 < B := by rw [hB]; exact div_pos hNpos hPpos
  rw [← hB] at hQ2 hQ1
  -- `P * K` against `X^2`
  have hPX1 : (1 - δ) * X ^ 2 ≤ P * K := by
    have h := mul_le_mul_of_nonneg_right hP1 hK.le
    have e : (1 - δ) * (X ^ 2 / K) * K = (1 - δ) * X ^ 2 := by field_simp
    rw [e] at h
    exact h
  have hPX2 : P * K ≤ (1 + δ) * X ^ 2 := by
    have h := mul_le_mul_of_nonneg_right hP2 hK.le
    have e : (1 + δ) * (X ^ 2 / K) * K = (1 + δ) * X ^ 2 := by field_simp
    rw [e] at h
    exact h
  have hBW : B * (P * K) = W := by rw [← hN, ← hBP]; ring
  -- lower bound of the result
  have hS66 : 1999998 / 1000000 * X ≤ S := by
    have h1 : 999999 / 1000000 * (2 * X) ≤ (1 - δ) * (2 * X + Q) :=
      mul_le_mul hd1 (by linarith only [hQ0]) (by linarith only [hXpos]) hd0.le
    linarith only [h1, hS1]
  have hSpos : 0 < S := by linarith only [hS66, hXpos]
  have htS : 3333 / 10000 * (1999998 / 1000000 * X) ≤ t * S :=
    mul_le_mul ht1 hS66 (by linarith only [hXpos]) ht0
  have h66 : 66 / 100 * X ≤ X1 := by
    have h1 : 999999 / 1000000 * (3333 / 10000 * (1999998 / 1000000 * X)) ≤ (1 - δ) * (t * S) :=
      mul_le_mul hd1 htS (by linarith only [hXpos]) hd0.le
    linarith only [h1, hX1, hXpos]
  have hX1pos : 0 < X1 := by linarith only [h66, hXpos]
  -- upper bound of the quotient
  have hB8 : B ≤ 801 / 100 * X := by
    by_contra hc
    push_neg at hc
    have h1 : 801 / 100 * X * ((1 - δ) * X ^ 2) < B * ((1 - δ) * X ^ 2) :=
      mul_lt_mul_of_pos_right hc (mul_pos hd0 hX2pos)
    have h2 : B * ((1 - δ) * X ^ 2) ≤ B * (P * K) :=
      mul_le_mul_of_nonneg_left hPX1 hBpos.le
    have h3 : 8 * X ^ 3 ≤ 801 / 100 * X * (999999 / 1000000 * X ^ 2) := by
      have e : 801 / 100 * X * (999999 / 1000000 * X ^ 2)
          = 8 * X ^ 3 + 999199 / 100000000 * X ^ 3 := by ring
      rw [e]
      linarith only [mul_nonneg (by norm_num : (0 : ℝ) ≤ 999199 / 100000000) hX3pos.le]
    have h4 : 801 / 100 * X * (999999 / 1000000 * X ^ 2) ≤ 801 / 100 * X * ((1 - δ) * X ^ 2) :=
      mul_le_mul_of_nonneg_left (mul_le_mul_of_nonneg_right hd1 hX2pos.le)
        (by linarith only [hXpos])
    linarith only [h1, h2, h3, h4, hBW, hW]
  have hQ8 : Q ≤ 802 / 100 * X := by
    have h1 : (1 + δ) * B ≤ 1000001 / 1000000 * (801 / 100 * X) :=
      mul_le_mul hd2 hB8 hBpos.le (by norm_num)
    linarith only [h1, hQ2, hX]
  have hS10 : S ≤ 1003 / 100 * X := by
    have h1 : (1 + δ) * (2 * X + Q) ≤ 1000001 / 1000000 * (2 * X + 802 / 100 * X) :=
      mul_le_mul hd2 (by linarith only [hQ8]) (by linarith only [hQ0, hXpos]) (by norm_num)
    linarith only [h1, hS2, hXpos]
  have h4 : X1 ≤ 4 * X := by
    have h1 : t * S ≤ 3334 / 10000 * (1003 / 100 * X) :=
      mul_le_mul ht2 hS10 hSpos.le (by norm_num)
    have h2 : (1 + δ) * (t * S) ≤ 1000001 / 1000000 * (3334 / 10000 * (1003 / 100 * X)) :=
      mul_le_mul hd2 h1 (mul_nonneg ht0 hSpos.le) (by norm_num)
    linarith only [h2, hX2, hXpos]
  refine ⟨by linarith only [h66, hXpos], h4, ?_⟩
  -- the cube
  have hcube66 : (66 / 100 * X) ^ 2 ≤ X1 ^ 2 :=
    pow_le_pow_left₀ (by linarith only [hXpos]) h66 2
  rcases le_or_lt W (X ^ 3) with hA1 | hA2
  · have h1 : (66 / 100 * X) ^ 3 ≤ X1 ^ 3 :=
      pow_le_pow_left₀ (by linarith only [hXpos]) h66 3
    have e : (66 / 100 * X) ^ 3 = 287496 / 1000000 * X ^ 3 := by ring
    rw [e] at h1
    linarith only [h1, hA1, hX3pos]
  · -- the quotient is in the normal range
    have hnorm : 8388608 * P ≤ N := by
      have h1 : X ^ 3 < N * K := by rw [hN]; exact hA2
      have h2 : 8388608 * (P * K) ≤ 8388608 * ((1 + δ) * X ^ 2) :=
        mul_le_mul_of_nonneg_left hPX2 (by norm_num)
      have h3 : 8388608 * ((1 + δ) * X ^ 2) ≤ X ^ 3 := by
        have h5 : 8388608 * (1 + δ) ≤ X := by
          have h6 : 8388608 * (1 + δ) ≤ 8388608 * (1000001 / 1000000) :=
            mul_le_mul_of_nonneg_left hd2 (by norm_num)
          linarith only [h6, hX]
        have h7 := mul_le_mul_of_nonneg_right h5 hX2pos.le
        have e : X * X ^ 2 = X ^ 3 := by ring
        have e' : 8388608 * (1 + δ) * X ^ 2 = 8388608 * ((1 + δ) * X ^ 2) := by ring
        rw [e, e'] at h7
        exact h7
      have h4 : 8388608 * P * K ≤ N * K := by
        have e : 8388608 * P * K = 8388608 * (P * K) := by ring
        rw [e]
        linarith only [h1, h2, h3]
      exact le_of_mul_le_mul_right h4 hK
    have hQB := hQ1 hnorm
    -- `X1 * X^2` against `W`
    have hBx : W ≤ B * ((1 + δ) * X ^ 2) := by
      rw [← hBW]
      exact mul_le_mul_of_nonneg_left hPX2 hBpos.le
    have hSQ : 999999 / 1000000 * Q ≤ S := by
      have h1 : 999999 / 1000000 * Q ≤ (1 - δ) * (2 * X + Q) :=
        mul_le_mul hd1 (by linarith only [hXpos]) hQ0 hd0.le
      linarith only [h1, hS1]
    have hQB2 : 999999 / 1000000 * B ≤ Q := by
      have h := mul_le_mul_of_nonneg_right hd1 hBpos.le
      linarith only [h, hQB]
    have htS2 : 3333 / 10000 * (999999 / 1000000 * (999999 / 1000000 * B)) ≤ t * S := by
      have h1 : 999999 / 1000000 * (999999 / 1000000 * B) ≤ S := by
        have h := mul_le_mul_of_nonneg_left hQB2 (by norm_num : (0 : ℝ) ≤ 999999 / 1000000)
        linarith only [h, hSQ]
      exact mul_le_mul ht1 h1 (by linarith only [hBpos]) ht0
    have hX1B : 333 / 1000 * B ≤ X1 := by
      have h1 : 999999 / 1000000 * (3333 / 10000 * (999999 / 1000000 * (999999 / 1000000 * B)))
          ≤ (1 - δ) * (t * S) := mul_le_mul hd1 htS2 (by linarith only [hBpos]) hd0.le
      linarith only [h1, hX1, hBpos]
    have hX1W : 33 / 100 * W ≤ X1 * X ^ 2 := by
      have h1 : 333 / 1000 * B * X ^ 2 ≤ X1 * X ^ 2 :=
        mul_le_mul_of_nonneg_right hX1B hX2pos.le
      have h2 : B * ((1 + δ) * X ^ 2) ≤ B * (1000001 / 1000000 * X ^ 2) :=
        mul_le_mul_of_nonneg_left (mul_le_mul_of_nonneg_right hd2 hX2pos.le) hBpos.le
      have hBX : 0 ≤ B * X ^ 2 := (mul_pos hBpos hX2pos).le
      have e3 : B * (1000001 / 1000000 * X ^ 2) = 1000001 / 1000000 * (B * X ^ 2) := by ring
      have e4 : 333 / 1000 * B * X ^ 2 = 333 / 1000 * (B * X ^ 2) := by ring
      rw [e3] at h2
      rw [e4] at h1
      linarith only [h1, h2, hBx, hBX]
    have h5 : X1 * (66 / 100 * X) ^ 2 ≤ X1 * X1 ^ 2 :=
      mul_le_mul_of_nonneg_left hcube66 hX1pos.le
    have e1 : X1 * X1 ^ 2 = X1 ^ 3 := by ring
    have e2 : X1 * (66 / 100 * X) ^ 2 = 4356 / 10000 * (X1 * X ^ 2) := by ring
    rw [e1, e2] at h5
    linarith only [h5, hX1W, hW0]

/-- The exact quotient of the pass is at most `8.01 X`. -/
theorem cube_quotient_bound (X W N P δ K : ℝ) (hK : 0 < K) (hδ : δ ≤ 1 / 1000000)
    (hX : 0 < X) (hW : W ≤ 8 * X ^ 3)
    (hP1 : (1 - δ) * (X ^ 2 / K) ≤ P) (hN : N * K = W) :
    0 < P ∧ N / P ≤ 801 / 100 * X := by
  have hd1 : 999999 / 1000000 ≤ 1 - δ := by linarith
  have hA : 0 < X ^ 2 / K := by positivity
  have hPpos : 0 < P := lt_of_lt_of_le (mul_pos (by linarith) hA) hP1
  refine ⟨hPpos, ?_⟩
  rw [div_le_iff₀ hPpos]
  have h1 : 999999 / 1000000 * (X ^ 2 / K) ≤ P :=
    le_trans (mul_le_mul_of_nonneg_right hd1 hA.le) hP1
  have h2 : 801 / 100 * X * (999999 / 1000000 * (X ^ 2 / K)) ≤ 801 / 100 * X * P :=
    mul_le_mul_of_nonneg_left h1 (by positivity)
  have h3 : N = W / K := by rw [← hN]; field_simp
  have h4 : W / K ≤ 8 * X ^ 3 / K :=
    div_le_div_of_nonneg_right hW (by positivity)
  have h5 : 8 * X ^ 3 / K ≤ 801 / 100 * X * (999999 / 1000000 * (X ^ 2 / K)) := by
    have e : 801 / 100 * X * (999999 / 1000000 * (X ^ 2 / K))
        = (801 / 100 * (999999 / 1000000)) * X ^ 3 / K := by ring
    rw [e]
    apply div_le_div_of_nonneg_right _ hK.le
    have h0 : (0 : ℝ) ≤ X ^ 3 := by positivity
    have e5 : 801 / 100 * (999999 / 1000000) * X ^ 3
        = 8 * X ^ 3 + 999199 / 100000000 * X ^ 3 := by ring
    rw [e5]
    linarith [mul_nonneg (by norm_num : (0 : ℝ) ≤ 999199 / 100000000) h0]
  linarith

theorem rel_bounds_of_abs (U q : ℝ) (h : |U - q| ≤ q / 2 ^ 24) :
    (1 - 1 / 2 ^ 24) * q ≤ U ∧ U ≤ (1 + 1 / 2 ^ 24) * q := by
  rw [abs_le] at h
  constructor <;> linarith [h.1, h.2]

theorem sign_of_bne_zero (s : Nat) (h : s < 2) :
    (if (s != 0) = true then 1 else 0) = s ∧ (if (0 != s) = true then 1 else 0) = s := by
  have h01 : s = 0 ∨ s = 1 := by omega
  rcases h01 with h0 | h0 <;> subst h0 <;> decide

theorem bne_self_false (s : Nat) : (s != s) = false := by simp

theorem upper_of_abs (U q : ℝ) (h : |U - q| ≤ q / 2 ^ 24 + 1 / 2) :
    U ≤ (1 + 1 / 2 ^ 24) * q + 1 / 2 := by
  rw [abs_le] at h
  linarith [h.2]

set_option maxHeartbeats 2000000 in
/-- One pass of the loop of `CubeRoot` on a finite `x` of the sign of `v`, with magnitude
`X` in `[2^100, 2^200]` units and `8 X^3` at least the magnitude of `v` (in units
`2^-447`): the result has the sign of `v`, is finite, and its magnitude `X1` satisfies
`X / 2 <= X1 <= 4 X` and the same cube bound. -/
theorem CubeRoot_step_spec (v x : float32_t) (hve : v.expo ≤ 254) (hvn : 0 < v.units)
    (hxs : x.sign = v.sign) (hxe : x.expo ≤ 254)
    (hXlo : (2 : ℝ) ^ 100 ≤ (x.units : ℝ)) (hXhi : (x.units : ℝ) ≤ 2 ^ 200)
    (hW : (v.units : ℝ) * 2 ^ 298 ≤ 8 * (x.units : ℝ) ^ 3) :
    (CubeRoot_step v x).sign = v.sign ∧ (CubeRoot_step v x).expo ≤ 254 ∧
    (x.units : ℝ) / 2 ≤ ((CubeRoot_step v x).units : ℝ) ∧
    ((CubeRoot_step v x).units : ℝ) ≤ 4 * (x.units : ℝ) ∧
    (v.units : ℝ) * 2 ^ 298 ≤ 8 * ((CubeRoot_step v x).units : ℝ) ^ 3 := by
  have hvs := sign_lt_two v
  have hXpos : (0 : ℝ) < (x.units : ℝ) := lt_of_lt_of_le (by positivity) hXlo
  have hVpos : (0 : ℝ) < (v.units : ℝ) := by exact_mod_cast hvn
  have hδ : (1 : ℝ) / 2 ^ 24 ≤ 1 / 1000000 := by norm_num
  have hK : (0 : ℝ) < 2 ^ 149 := by positivity
  have hX9 : (1000000000 : ℝ) ≤ (x.units : ℝ) := le_trans (by norm_num) hXlo
  -- exponent range of `x`
  have hxn1 : 8388608 ≤ x.units := by
    have : ((8388608 : ℕ) : ℝ) ≤ (x.units : ℝ) := le_trans (by norm_num) hXlo
    exact_mod_cast this
  have hxn2 : x.units < 2 ^ 201 := by
    have : (x.units : ℝ) < ((2 ^ 201 : ℕ) : ℝ) := lt_of_le_of_lt hXhi (by norm_num)
    exact_mod_cast this
  obtain ⟨hx1, hx178⟩ := expo_range_of_units x hxn1 hxn2
  -- the square
  have hsq_hi : x.units * x.units < 2 ^ 276 * 2 ^ 149 := by
    have h1 : (x.units : ℝ) * (x.units : ℝ) ≤ 2 ^ 200 * 2 ^ 200 :=
      mul_le_mul hXhi hXhi hXpos.le (by positivity)
    have : ((x.units * x.units : ℕ) : ℝ) < ((2 ^ 276 * 2 ^ 149 : ℕ) : ℝ) := by
      rw [Nat.cast_mul]
      exact lt_of_le_of_lt h1 (by norm_num)
    exact_mod_cast this
  have hsq_lo : 8388608 * 2 ^ 149 ≤ x.units * x.units := by
    have h1 : (2 : ℝ) ^ 100 * 2 ^ 100 ≤ (x.units : ℝ) * (x.units : ℝ) :=
      mul_le_mul hXlo hXlo (by positivity) hXpos.le
    have : ((8388608 * 2 ^ 149 : ℕ) : ℝ) ≤ ((x.units * x.units : ℕ) : ℝ) := by
      rw [Nat.cast_mul x.units]
      exact le_trans (by norm_num) h1
    exact_mod_cast this
  have hmulx : fmul x x = roundNearestEven false (x.units * x.units) (2 ^ 149) := by
    rw [fmul_eq_round x x hxe hxe, bne_self_false]
  obtain ⟨hp0, hpe, _, hperr⟩ :=
    roundNearestEven_error false (x.units * x.units) (2 ^ 149) (by positivity) hsq_hi
  have hperr := hperr hsq_lo
  rw [← hmulx] at hp0 hpe hperr
  simp only [Bool.false_eq_true, if_false] at hp0
  have hcastP : ((x.units * x.units : ℕ) : ℝ) / ((2 ^ 149 : ℕ) : ℝ)
      = (x.units : ℝ) ^ 2 / 2 ^ 149 := by
    rw [Nat.cast_mul, Nat.cast_pow, Nat.cast_ofNat, sq]
  rw [hcastP] at hperr
  obtain ⟨hP1, hP2⟩ := rel_bounds_of_abs _ _ hperr
  -- the quotient
  have hN : (v.units : ℝ) * 2 ^ 149 * 2 ^ 149 = (v.units : ℝ) * 2 ^ 298 := by ring
  obtain ⟨hPpos, hB8⟩ := cube_quotient_bound (x.units : ℝ) ((v.units : ℝ) * 2 ^ 298)
    ((v.units : ℝ) * 2 ^ 149) ((fmul x x).units : ℝ) (1 / 2 ^ 24) (2 ^ 149) hK hδ hXpos hW hP1 hN
  have hPn : 0 < (fmul x x).units := by exact_mod_cast hPpos
  have hB200 : (v.units : ℝ) * 2 ^ 149 / ((fmul x x).units : ℝ) ≤ 2 ^ 204 := by
    have : 801 / 100 * (x.units : ℝ) ≤ 801 / 100 * 2 ^ 200 :=
      mul_le_mul_of_nonneg_left hXhi (by norm_num)
    have h2 : (801 : ℝ) / 100 * 2 ^ 200 ≤ 2 ^ 204 := by norm_num
    linarith only [hB8, this, h2]
  have hdiv_hi : v.units * 2 ^ 149 < 2 ^ 276 * (fmul x x).units := by
    have h1 : (v.units : ℝ) * 2 ^ 149 ≤ 2 ^ 204 * ((fmul x x).units : ℝ) :=
      (div_le_iff₀ hPpos).mp hB200
    have h2 : (2 : ℝ) ^ 204 * ((fmul x x).units : ℝ) < 2 ^ 276 * ((fmul x x).units : ℝ) :=
      mul_lt_mul_of_pos_right (by norm_num) hPpos
    have : ((v.units * 2 ^ 149 : ℕ) : ℝ) < ((2 ^ 276 * (fmul x x).units : ℕ) : ℝ) := by
      rw [Nat.cast_mul, Nat.cast_mul, Nat.cast_pow, Nat.cast_pow, Nat.cast_ofNat]
      exact lt_of_le_of_lt h1 h2
    exact_mod_cast this
  have hdiv : fdiv v (fmul x x)
      = roundNearestEven (v.sign != 0) (v.units * 2 ^ 149) (fmul x x).units := by
    rw [fdiv_eq_round v (fmul x x) hve hpe (by omega), hp0]
  obtain ⟨hq0, hqe, hqerr, hqrel⟩ :=
    roundNearestEven_error (v.sign != 0) (v.units * 2 ^ 149) (fmul x x).units hPn hdiv_hi
  rw [← hdiv] at hq0 hqe hqerr hqrel
  rw [(sign_of_bne_zero v.sign hvs).1] at hq0
  have hcastQ : ((v.units * 2 ^ 149 : ℕ) : ℝ) / ((fmul x x).units : ℝ)
      = (v.units : ℝ) * 2 ^ 149 / ((fmul x x).units : ℝ) := by
    rw [Nat.cast_mul, Nat.cast_pow, Nat.cast_ofNat]
  rw [hcastQ] at hqerr hqrel
  have hQ0 : (0 : ℝ) ≤ ((fdiv v (fmul x x)).units : ℝ) := Nat.cast_nonneg _
  have hQ2 := upper_of_abs _ _ hqerr
  have hQ1 : 8388608 * ((fmul x x).units : ℝ) ≤ (v.units : ℝ) * 2 ^ 149 →
      (1 - 1 / 2 ^ 24) * ((v.units : ℝ) * 2 ^ 149 / ((fmul x x).units : ℝ))
        ≤ ((fdiv v (fmul x x)).units : ℝ) := by
    intro h
    have hn : 8388608 * (fmul x x).units ≤ v.units * 2 ^ 149 := by
      have : ((8388608 * (fmul x x).units : ℕ) : ℝ) ≤ ((v.units * 2 ^ 149 : ℕ) : ℝ) := by
        rw [Nat.cast_mul, Nat.cast_mul, Nat.cast_pow, Nat.cast_ofNat, Nat.cast_ofNat]
        exact h
      exact_mod_cast this
    exact (rel_bounds_of_abs _ _ (hqrel hn)).1
  have hQ9 : ((fdiv v (fmul x x)).units : ℝ) ≤ 9 * (x.units : ℝ) := by
    have h1 : (1 + 1 / 2 ^ 24) * ((v.units : ℝ) * 2 ^ 149 / ((fmul x x).units : ℝ))
        ≤ (1 + 1 / 2 ^ 24) * (801 / 100 * (x.units : ℝ)) :=
      mul_le_mul_of_nonneg_left hB8 (by norm_num)
    have h2 : (1 + 1 / 2 ^ 24) * (801 / 100 * (x.units : ℝ)) ≤ 802 / 100 * (x.units : ℝ) := by
      have : (1 + 1 / 2 ^ 24 : ℝ) * (801 / 100) ≤ 802 / 100 := by norm_num
      have := mul_le_mul_of_nonneg_right this hXpos.le
      linarith only [this]
    linarith only [hQ2, h1, h2, hX9]
  -- the doubled value
  obtain ⟨hd0, hde, hdu⟩ := double_spec x hx1 (by omega)
  generalize hxn2def : ofHalves (u16 (x.hi + 0x80)) x.lo = xn2 at hd0 hde hdu
  have hduR : (xn2.units : ℝ) = 2 * (x.units : ℝ) := by rw [hdu]; push_cast; ring
  -- the sum
  have hsum_hi : xn2.units + (fdiv v (fmul x x)).units < 2 ^ 276 * 1 := by
    have : ((xn2.units + (fdiv v (fmul x x)).units : ℕ) : ℝ) < ((2 ^ 276 * 1 : ℕ) : ℝ) := by
      rw [Nat.cast_add, hduR, Nat.cast_mul, Nat.cast_pow, Nat.cast_ofNat, Nat.cast_one, mul_one]
      have h1 : (11 : ℝ) * (x.units : ℝ) ≤ 11 * 2 ^ 200 :=
        mul_le_mul_of_nonneg_left hXhi (by norm_num)
      have h2 : (11 : ℝ) * 2 ^ 200 < 2 ^ 276 := by norm_num
      linarith only [h1, h2, hQ9]
    exact_mod_cast this
  have hsum_lo : 8388608 * 1 ≤ xn2.units + (fdiv v (fmul x x)).units := by omega
  have hadd : fadd xn2 (fdiv v (fmul x x))
      = roundNearestEven (v.sign != 0) (xn2.units + (fdiv v (fmul x x)).units) 1 := by
    rw [fadd_eq_round xn2 _ (by omega) hqe (by rw [hd0, hxs, hq0]) (by omega), hd0, hxs]
  obtain ⟨hs0, hse, _, hserr⟩ := roundNearestEven_error (v.sign != 0)
    (xn2.units + (fdiv v (fmul x x)).units) 1 Nat.one_pos hsum_hi
  have hserr := hserr hsum_lo
  rw [← hadd] at hs0 hse hserr
  rw [(sign_of_bne_zero v.sign hvs).1] at hs0
  have hcastS : ((xn2.units + (fdiv v (fmul x x)).units : ℕ) : ℝ) / ((1 : ℕ) : ℝ)
      = 2 * (x.units : ℝ) + ((fdiv v (fmul x x)).units : ℝ) := by
    rw [Nat.cast_add, hduR, Nat.cast_one, div_one]
  rw [hcastS] at hserr
  obtain ⟨hS1, hS2⟩ := rel_bounds_of_abs _ _ hserr
  generalize hsmdef : fadd xn2 (fdiv v (fmul x x)) = sm at hs0 hse hS1 hS2
  have hSlo : (x.units : ℝ) ≤ (sm.units : ℝ) := by
    have h1 : (1 - 1 / 2 ^ 24 : ℝ) * (2 * (x.units : ℝ)) ≤
        (1 - 1 / 2 ^ 24) * (2 * (x.units : ℝ) + ((fdiv v (fmul x x)).units : ℝ)) :=
      mul_le_mul_of_nonneg_left (by linarith only [hQ0]) (by norm_num)
    have h2 : (x.units : ℝ) ≤ (1 - 1 / 2 ^ 24 : ℝ) * (2 * (x.units : ℝ)) := by
      have : (1 : ℝ) ≤ (1 - 1 / 2 ^ 24) * 2 := by norm_num
      have := mul_le_mul_of_nonneg_right this hXpos.le
      linarith only [this]
    linarith only [h1, h2, hS1]
  have hShi : (sm.units : ℝ) ≤ 12 * (x.units : ℝ) := by
    have h1 : (1 + 1 / 2 ^ 24 : ℝ) * (2 * (x.units : ℝ) + ((fdiv v (fmul x x)).units : ℝ))
        ≤ (1 + 1 / 2 ^ 24) * (11 * (x.units : ℝ)) :=
      mul_le_mul_of_nonneg_left (by linarith only [hQ9]) (by norm_num)
    have h2 : (1 + 1 / 2 ^ 24 : ℝ) * (11 * (x.units : ℝ)) ≤ 12 * (x.units : ℝ) := by
      have : (1 + 1 / 2 ^ 24 : ℝ) * 11 ≤ 12 := by norm_num
      have := mul_le_mul_of_nonneg_right this hXpos.le
      linarith only [this]
    linarith only [h1, h2, hS2]
  -- the product with the constant
  obtain ⟨ht0, hte, htu⟩ := third_fields
  have hprod_hi : 11184811 * 2 ^ 124 * sm.units < 2 ^ 276 * 2 ^ 149 := by
    have h1 : (sm.units : ℝ) ≤ 12 * 2 ^ 200 :=
      le_trans hShi (mul_le_mul_of_nonneg_left hXhi (by norm_num))
    have h2 : (11184811 * 2 ^ 124 : ℝ) * (sm.units : ℝ) ≤ 11184811 * 2 ^ 124 * (12 * 2 ^ 200) :=
      mul_le_mul_of_nonneg_left h1 (by positivity)
    have : ((11184811 * 2 ^ 124 * sm.units : ℕ) : ℝ) < ((2 ^ 276 * 2 ^ 149 : ℕ) : ℝ) := by
      rw [Nat.cast_mul, Nat.cast_mul, Nat.cast_pow, Nat.cast_ofNat, Nat.cast_ofNat]
      exact lt_of_le_of_lt h2 (by norm_num)
    exact_mod_cast this
  have hprod_lo : 8388608 * 2 ^ 149 ≤ 11184811 * 2 ^ 124 * sm.units := by
    have h1 : (2 : ℝ) ^ 100 ≤ (sm.units : ℝ) := le_trans hXlo hSlo
    have h2 : (11184811 * 2 ^ 124 : ℝ) * 2 ^ 100 ≤ 11184811 * 2 ^ 124 * (sm.units : ℝ) :=
      mul_le_mul_of_nonneg_left h1 (by positivity)
    have : ((8388608 * 2 ^ 149 : ℕ) : ℝ) ≤ ((11184811 * 2 ^ 124 * sm.units : ℕ) : ℝ) := by
      rw [Nat.cast_mul (11184811 * 2 ^ 124), Nat.cast_mul 11184811, Nat.cast_pow,
        Nat.cast_ofNat, Nat.cast_ofNat]
      exact le_trans (by norm_num) h2
    exact_mod_cast this
  have hstep : CubeRoot_step v x = fmul (ofBits 0x3EAAAAAB) sm := by
    rw [← hsmdef, ← hxn2def, ← third_eq]
    rfl
  have hmul3 : fmul (ofBits 0x3EAAAAAB) sm
      = roundNearestEven (0 != v.sign) (11184811 * 2 ^ 124 * sm.units) (2 ^ 149) := by
    rw [fmul_eq_round _ sm (by omega) hse, ht0, htu, hs0]
  obtain ⟨hr0, hre, _, hrerr⟩ := roundNearestEven_error (0 != v.sign)
    (11184811 * 2 ^ 124 * sm.units) (2 ^ 149) (by positivity) hprod_hi
  have hrerr := hrerr hprod_lo
  rw [← hmul3, ← hstep] at hr0 hre hrerr
  rw [(sign_of_bne_zero v.sign hvs).2] at hr0
  have hcastR : ((11184811 * 2 ^ 124 * sm.units : ℕ) : ℝ) / ((2 ^ 149 : ℕ) : ℝ)
      = 11184811 / 33554432 * (sm.units : ℝ) := by
    rw [Nat.cast_mul, Nat.cast_mul, Nat.cast_pow, Nat.cast_pow, Nat.cast_ofNat, Nat.cast_ofNat]
    have : (2 : ℝ) ^ 149 = 2 ^ 124 * 33554432 := by norm_num
    rw [this]
    field_simp
    ring
  rw [hcastR] at hrerr
  obtain ⟨hR1, hR2⟩ := rel_bounds_of_abs _ _ hrerr
  obtain ⟨c1, c2, c3⟩ := cube_step_real (x.units : ℝ) ((v.units : ℝ) * 2 ^ 298)
    ((v.units : ℝ) * 2 ^ 149) ((fmul x x).units : ℝ) ((fdiv v (fmul x x)).units : ℝ)
    (sm.units : ℝ) ((CubeRoot_step v x).units : ℝ) (1 / 2 ^ 24) (11184811 / 33554432) (2 ^ 149)
    hK hδ (by norm_num) (by norm_num) hX9 (by positivity) hW hP1 hP2 hN hQ0 hQ2 hQ1
    hS1 hS2 hR1 hR2
  exact ⟨hr0, hre, c1, c2, c3⟩

/-! ## The sign of the result of `CubeRoot` -/

/-- The magnitude in units of a pattern is below the next power of two of its exponent. -/
theorem units_lt_pow (x : float32_t) : x.units < 2 ^ (x.expo + 23) := by
  have hm : x.mant < 8388608 := Nat.mod_lt _ (by decide)
  unfold units
  split_ifs with h0
  · rw [h0]
    exact hm
  · have e : x.expo + 23 = 24 + (x.expo - 1) := by omega
    rw [e, pow_add]
    exact Nat.mul_lt_mul_of_lt_of_le (by omega) (le_refl _) (Nat.two_pow_pos _)

/-- A pattern has a non-zero magnitude in units exactly when its magnitude bits are not
all zero. -/
theorem units_pos_iff (x : float32_t) : 0 < x.units ↔ x.magnitude ≠ 0 := by
  have hb := x.bits_lt
  have hm : x.mant < 8388608 := Nat.mod_lt _ (by decide)
  have hmag : x.magnitude = x.expo * 8388608 + x.mant := by
    unfold magnitude expo mant
    omega
  rw [hmag]
  unfold units
  split_ifs with h0
  · rw [h0]
    omega
  · constructor
    · intro _
      omega
    · intro _
      exact Nat.mul_pos (by omega) (Nat.two_pow_pos _)

/-- The seed of `CubeRoot` for a finite value: sign of the value, finite, magnitude in
`[2^106, 2^192]` units, and eight times its cube is at least the magnitude of the value
(in units of `2^-447`). -/
theorem CubeRoot_seed_bounds (v : float32_t) (hve : v.expo ≤ 254) :
    (CubeRoot_seed v).sign = v.sign ∧ (CubeRoot_seed v).expo ≤ 254 ∧
    (2 : ℝ) ^ 106 ≤ ((CubeRoot_seed v).units : ℝ) ∧
    ((CubeRoot_seed v).units : ℝ) ≤ 2 ^ 192 ∧
    (v.units : ℝ) * 2 ^ 298 ≤ 8 * ((CubeRoot_seed v).units : ℝ) ^ 3 := by
  obtain ⟨m, hm, hbits⟩ : ∃ m, m < 8388608 ∧ (CubeRoot_seed v).bits
      = v.sign * 2147483648 + ((v.expo + 254) / 3) * 8388608 + m := by
    refine ⟨_, ?_, CubeRoot_seed_bits v⟩
    split_ifs <;> decide
  obtain ⟨q, hq⟩ : ∃ q, q = (v.expo + 254) / 3 := ⟨_, rfl⟩
  rw [← hq] at hbits
  have hq1 : 84 ≤ q := by omega
  have hq2 : q ≤ 169 := by omega
  have hq3 : v.expo + 252 ≤ 3 * q := by omega
  obtain ⟨hu, hsg, hex⟩ := units_of_pattern (CubeRoot_seed v) v.sign (q - 1) (8388608 + m)
    (by omega) (by omega) (Or.inr (by omega)) (by omega)
  have hlo : 2 ^ (q + 22) ≤ (CubeRoot_seed v).units := by
    have e : q + 22 = 23 + (q - 1) := by omega
    rw [hu, e, pow_add]
    exact Nat.mul_le_mul_right _ (by omega)
  have hhi : (CubeRoot_seed v).units ≤ 2 ^ (q + 23) := by
    have e : q + 23 = 24 + (q - 1) := by omega
    rw [hu, e, pow_add]
    exact Nat.mul_le_mul_right _ (by omega)
  have hlo106 : 2 ^ 106 ≤ (CubeRoot_seed v).units :=
    le_trans (Nat.pow_le_pow_right (by decide) (by omega)) hlo
  have hhi192 : (CubeRoot_seed v).units ≤ 2 ^ 192 :=
    le_trans hhi (Nat.pow_le_pow_right (by decide) (by omega))
  have hcube : v.units * 2 ^ 298 ≤ 8 * (CubeRoot_seed v).units ^ 3 := by
    have h1 : v.units * 2 ^ 298 ≤ 2 ^ (v.expo + 23) * 2 ^ 298 :=
      Nat.mul_le_mul_right _ (le_of_lt (units_lt_pow v))
    have h2 : 2 ^ (v.expo + 23) * 2 ^ 298 ≤ 2 ^ (3 + (q + 22) * 3) := by
      rw [← pow_add]
      exact Nat.pow_le_pow_right (by decide) (by omega)
    have h3 : 2 ^ (3 + (q + 22) * 3) = 8 * (2 ^ (q + 22)) ^ 3 := by
      rw [pow_add, pow_mul]
      rfl
    have h4 : 8 * (2 ^ (q + 22)) ^ 3 ≤ 8 * (CubeRoot_seed v).units ^ 3 :=
      Nat.mul_le_mul_left _ (Nat.pow_le_pow_left hlo 3)
    omega
  refine ⟨hsg, hex, ?_, ?_, ?_⟩
  · exact_mod_cast hlo106
  · exact_mod_cast hhi192
  · exact_mod_cast hcube

/-- Four passes of the loop of `CubeRoot` from a value with the bounds of the seed: the
result has the sign of `v`, is finite and is not zero. -/
theorem CubeRoot_loop_sign (v x : float32_t) (hve : v.expo ≤ 254) (hvn : 0 < v.units)
    (hxs : x.sign = v.sign) (hxe : x.expo ≤ 254)
    (hXlo : (2 : ℝ) ^ 106 ≤ (x.units : ℝ)) (hXhi : (x.units : ℝ) ≤ 2 ^ 192)
    (hW : (v.units : ℝ) * 2 ^ 298 ≤ 8 * (x.units : ℝ) ^ 3) :
    (CubeRoot_loop v 4 x).sign = v.sign ∧ (CubeRoot_loop v 4 x).expo ≤ 254 ∧
    0 < (CubeRoot_loop v 4 x).units := by
  have e : CubeRoot_loop v 4 x
      = CubeRoot_step v (CubeRoot_step v (CubeRoot_step v (CubeRoot_step v x))) := rfl
  rw [e]
  have c106 : (2 : ℝ) ^ 106 = 64 * 2 ^ 100 := by norm_num
  have c192 : (2 : ℝ) ^ 200 = 256 * 2 ^ 192 := by norm_num
  have cpos : (0 : ℝ) < 2 ^ 100 := by positivity
  have dpos : (0 : ℝ) < 2 ^ 192 := by positivity
  rw [c106] at hXlo
  obtain ⟨a1, a2, a3, a4, a5⟩ := CubeRoot_step_spec v x hve hvn hxs hxe
    (by linarith only [hXlo, cpos]) (by linarith only [hXhi, c192, dpos]) hW
  generalize CubeRoot_step v x = x1 at a1 a2 a3 a4 a5
  obtain ⟨b1, b2, b3, b4, b5⟩ := CubeRoot_step_spec v x1 hve hvn a1 a2
    (by linarith only [hXlo, cpos, a3]) (by linarith only [hXhi, c192, dpos, a4]) a5
  generalize CubeRoot_step v x1 = x2 at b1 b2 b3 b4 b5
  obtain ⟨d1, d2, d3, d4, d5⟩ := CubeRoot_step_spec v x2 hve hvn b1 b2
    (by linarith only [hXlo, cpos, a3, b3]) (by linarith only [hXhi, c192, dpos, a4, b4]) b5
  generalize CubeRoot_step v x2 = x3 at d1 d2 d3 d4 d5
  obtain ⟨f1, f2, f3, f4, f5⟩ := CubeRoot_step_spec v x3 hve hvn d1 d2
    (by linarith only [hXlo, cpos, a3, b3, d3])
    (by linarith only [hXhi, c192, dpos, a4, b4, d4]) d5
  refine ⟨f1, f2, ?_⟩
  have : (0 : ℝ) < ((CubeRoot_step v x3).units : ℝ) := by
    linarith only [hXlo, cpos, a3, b3, d3, f3]
  exact_mod_cast this

/-- C14: a counterexample to "the sign of the result matches the sign of `v`" for all
`v != 0`: `+inf` is greater than zero and `CubeRoot(+inf)` is a NaN (pattern
`0x7FC00000`), which is not greater than zero; likewise `-inf` is less than zero and
`CubeRoot(-inf)` is the same NaN, which is not less than zero. -/
theorem CubeRoot_sign_counterexample :
    feq (inf false) zero = false ∧ flt zero (inf false) = true ∧
    CubeRoot (inf false) = qNaN ∧ flt zero (CubeRoot (inf false)) = false ∧
    feq (inf true) zero = false ∧ flt (inf true) zero = true ∧
    CubeRoot (inf true) = qNaN ∧ flt (CubeRoot (inf true)) zero = false := by
  set_option maxRecDepth 100000 in
  decide

/-- C14 (amended): for every finite float32 `v != 0` (neither a NaN nor an infinity),
`CubeRoot(v)` is finite and carries the sign bit of `v`, with a positive result
(`0 < CubeRoot(v)`) for `v > 0` and a negative result (`CubeRoot(v) < 0`) for `v < 0`. -/
theorem CubeRoot_sign (v : float32_t) (hnan : v.isNaN = false) (hinf : v.isInf = false)
    (hnz : feq v zero = false) :
    (CubeRoot v).sign = v.sign ∧ (CubeRoot v).isNaN = false ∧ (CubeRoot v).isInf = false ∧
    (flt zero v = true → flt zero (CubeRoot v) = true) ∧
    (flt v zero = true → flt (CubeRoot v) zero = true) := by
  have hb := v.bits_lt
  have he : v.expo < 256 := Nat.mod_lt _ (by decide)
  have hve : v.expo ≤ 254 := by
    by_contra hc
    have h255 : v.expo = 255 := by omega
    unfold isNaN at hnan
    unfold isInf at hinf
    rw [h255] at hnan hinf
    simp at hnan hinf
    exact hinf hnan
  have hz : zero.isNaN = false := by decide
  have hk : zero.key = 0 := by decide
  have hmag : v.magnitude ≠ 0 := by
    intro h0
    have : feq v zero = true := by
      have hkv : v.key = 0 := by
        unfold key
        rw [h0]
        simp
      unfold feq
      rw [hnan, hz, hk, hkv]
      rfl
    rw [this] at hnz
    exact Bool.noConfusion hnz
  have hvn : 0 < v.units := (units_pos_iff v).2 hmag
  have hrun : CubeRoot v = CubeRoot_loop v 4 (CubeRoot_seed v) := by
    unfold CubeRoot
    rw [hnz]
    rfl
  obtain ⟨s1, s2, s3, s4, s5⟩ := CubeRoot_seed_bounds v hve
  obtain ⟨r1, r2, r3⟩ := CubeRoot_loop_sign v (CubeRoot_seed v) hve hvn s1 s2 s3 s4 s5
  rw [← hrun] at r1 r2 r3
  have hrm : 0 < (CubeRoot v).magnitude := Nat.pos_of_ne_zero ((units_pos_iff _).1 r3)
  obtain ⟨n1, n2⟩ := not_special_of_expo _ r2
  refine ⟨r1, n1, n2, ?_, ?_⟩
  · intro hpos
    rw [flt_iff, hk] at hpos
    rw [flt_iff, hk]
    refine ⟨hz, n1, ?_⟩
    have hs0 : v.sign = 0 := by
      by_contra hc
      have := hpos.2.2
      unfold key at this
      rw [if_neg hc] at this
      omega
    unfold key
    rw [if_pos (r1.trans hs0)]
    exact_mod_cast hrm
  · intro hneg
    rw [flt_iff, hk] at hneg
    rw [flt_iff, hk]
    refine ⟨n1, hz, ?_⟩
    have hs1 : v.sign ≠ 0 := by
      intro hc
      have := hneg.2.2
      unfold key at this
      rw [if_pos hc] at this
      omega
    unfold key
    rw [if_neg (by rw [r1]; exact hs1)]
    omega

/-- The theorem `CubeRoot_sign` at `v = -8.0f`, whose cube root is computed as `-2.0f`. -/
theorem CubeRoot_sign_witness :
    (ofBits 0xC1000000).isNaN = false ∧ (ofBits 0xC1000000).isInf = false ∧
    feq (ofBits 0xC1000000) zero = false ∧
    ((CubeRoot (ofBits 0xC1000000)).sign = (ofBits 0xC1000000).sign ∧
     (CubeRoot (ofBits 0xC1000000)).isNaN = false ∧
     (CubeRoot (ofBits 0xC1000000)).isInf = false ∧
     (flt zero (ofBits 0xC1000000) = true → flt zero (CubeRoot (ofBits 0xC1000000)) = true) ∧
     (flt (ofBits 0xC1000000) zero = true → flt (CubeRoot (ofBits 0xC1000000)) zero = true)) :=
  ⟨by decide, by decide, by decide,
    CubeRoot_sign (ofBits 0xC1000000) (by decide) (by decide) (by decide)⟩

end CommonLib
